import Mathlib

/-!
# A shallow embedding of the Shikaku solver core

This file embeds the solver engine of the shikaku-solver repository
(`src/solver/helpers.ts` and `src/solver/solver.ts`) into Lean and proves the
specification's claims about it.

Modelling conventions:

* JS 2-D arrays of shape `H × W` (`cells`, `activeMask`) are modelled as total
  functions `Nat → Nat → _`.  The `Grid` constructor guarantees the arrays have
  exactly shape `H × W`, so an out-of-bounds read (JS `undefined`, falsy) is
  captured by the well-formedness hypothesis `MaskWF` (mask is `false` outside
  bounds); out-of-bounds `cells` entries are never read by the solver.
* JS `Map`s (iterated in insertion order, with `"y,x"` string keys produced by
  the injective `coordToString`) are modelled as association lists with
  `Coord` keys; `Map.set` on an existing key keeps its position, `Map.delete`
  removes it, exactly as `alSet` / `alDelete` below.
* JS `Set<string>`s are modelled as duplicate-free lists in insertion order
  (`setAdd`).
* Strings are modelled as `List Char`.
* The module-level mutable state of `solver.ts` (`rectangleCounter`, `cache`)
  is threaded explicitly as a `SolverState`.
* The `while` loop of `resolve` and the recursion of `resolveWithAssumptions`
  are expressed with explicit fuel; a fuel-exhaustion sentinel (`fuelOut`) is
  distinguished from every result the JS code can produce, and fuel bounds
  sufficient for the actual control flow are proved below
  (`resolve_ne_fuelOut`, `shikakuSolve_ne_fuelOut`).
* A thrown JS exception (`addRectangle`'s contract check, or the non-null `!`
  assertion in `filterByCellAndFind`) is the `thrown` result.
-/

namespace Shikaku

/-- Grid dimensions (helpers.ts `Size`). -/
structure Size where
  height : Nat
  width : Nat
deriving DecidableEq, Repr

/-- A cell coordinate (helpers.ts `Coord`). -/
structure Coord where
  y : Nat
  x : Nat
deriving DecidableEq, Repr

/-- A candidate rectangle: start corner and size (helpers.ts `Possibility`). -/
structure Possibility where
  start : Coord
  size : Size
deriving DecidableEq, Repr

/-- The board (helpers.ts `Grid`).  `cells` holds `0` for an unassigned cell
and a positive rectangle ID otherwise; `activeMask` is `false` on void cells.
`areas` maps each clue coordinate to its number, in insertion order. -/
structure Grid where
  size : Size
  areas : List (Coord × Nat)
  cells : Nat → Nat → Nat
  activeMask : Nat → Nat → Bool

/-- helpers.ts `Grid.copy`: a deep copy of the cell and mask arrays.  On the
value level a deep copy is the identity. -/
def Grid.copy (g : Grid) : Grid := g

/-- Association-list lookup, modelling `Map.get`. -/
def alGet {α β : Type} [DecidableEq α] : List (α × β) → α → Option β
  | [], _ => none
  | e :: t, k => if e.1 = k then some e.2 else alGet t k

/-- Association-list update, modelling `Map.set`: an existing key keeps its
position, a new key is appended. -/
def alSet {α β : Type} [DecidableEq α] : List (α × β) → α → β → List (α × β)
  | [], k, v => [(k, v)]
  | e :: t, k, v => if e.1 = k then (k, v) :: t else e :: alSet t k v

/-- Association-list removal, modelling `Map.delete`. -/
def alDelete {α β : Type} [DecidableEq α] : List (α × β) → α → List (α × β)
  | [], _ => []
  | e :: t, k => if e.1 = k then t else e :: alDelete t k

/-- `Set.add`, modelling JS `Set` insertion order semantics. -/
def setAdd {α : Type} [DecidableEq α] (l : List α) (s : α) : List α :=
  if s ∈ l then l else l ++ [s]

/-- A remaining-possibilities map: clue coordinate → candidate list. -/
abbrev RMap := List (Coord × List Possibility)

/-- A JS string. -/
abbrev Str := List Char

/-- The coordinates `(y, x)` with `y < H`, `x < W` in row-major order. -/
def rowMajor (H W : Nat) : List Coord :=
  (List.range H).flatMap fun y => (List.range W).map fun x => ⟨y, x⟩

/-- helpers.ts `isCellInRectangle`. -/
def isCellInRectangle (c : Coord) (p : Possibility) : Bool :=
  decide (p.start.y ≤ c.y ∧ c.y < p.start.y + p.size.height ∧
    p.start.x ≤ c.x ∧ c.x < p.start.x + p.size.width)

/-- helpers.ts `coversOnlyActiveCells`. -/
def coversOnlyActiveCells (p : Possibility) (g : Grid) : Bool :=
  (List.range p.size.height).all fun dy =>
    (List.range p.size.width).all fun dx =>
      g.activeMask (p.start.y + dy) (p.start.x + dx)

/-- helpers.ts `isZoneFree`: the rectangle covers only active cells, all of
them unassigned. -/
def isZoneFree (p : Possibility) (g : Grid) : Bool :=
  coversOnlyActiveCells p g &&
    ((List.range p.size.height).all fun dy =>
      (List.range p.size.width).all fun dx =>
        g.cells (p.start.y + dy) (p.start.x + dx) == 0)

/-- helpers.ts `isAnotherAreaInfoInRectangle`: some clue other than
`areaCoord` lies inside the rectangle. -/
def isAnotherAreaInfoInRectangle (p : Possibility) (areaCoord : Coord) (g : Grid) : Bool :=
  g.areas.any fun e =>
    decide (e.1 ≠ areaCoord) &&
      decide (p.start.y ≤ e.1.y ∧ e.1.y < p.start.y + p.size.height ∧
        p.start.x ≤ e.1.x ∧ e.1.x < p.start.x + p.size.width)

/-- helpers.ts `getDivisors`: the pairs `(i, n / i)` with `1 ≤ i`,
`i * i ≤ n` and `i ∣ n`, in increasing order of `i`. -/
def getDivisors (n : Nat) : List (Nat × Nat) :=
  (List.range n).filterMap fun j =>
    let i := j + 1
    if i * i ≤ n ∧ n % i = 0 then some (i, n / i) else none

/-- helpers.ts `getAvailablePlaces` (local to
`initialPossibilitiesCalculation`): all translates of the rectangle of the
given divisor pair, in both orientations unless square, that contain the clue,
stay in bounds, cover only active cells, and contain no other clue. -/
def getAvailablePlaces (g : Grid) (areaCoord : Coord) (sz : Nat × Nat) :
    List Possibility :=
  let tryOrient : Nat × Nat → List Possibility := fun o =>
    let width := o.1
    let height := o.2
    (List.range width).flatMap fun w =>
      (List.range height).filterMap fun h =>
        if h ≤ areaCoord.y ∧ w ≤ areaCoord.x ∧
            (areaCoord.x - w) + width ≤ g.size.width ∧
            (areaCoord.y - h) + height ≤ g.size.height then
          let p : Possibility := ⟨⟨areaCoord.y - h, areaCoord.x - w⟩, ⟨height, width⟩⟩
          if coversOnlyActiveCells p g && !isAnotherAreaInfoInRectangle p areaCoord g
          then some p else none
        else none
  if sz.1 = sz.2 then tryOrient sz else tryOrient sz ++ tryOrient (sz.2, sz.1)

/-- helpers.ts `initialPossibilitiesCalculation`: for each clue, the
concatenation of the admissible placements over all divisor pairs. -/
def initialPossibilitiesCalculation (g : Grid) : RMap :=
  g.areas.map fun e =>
    (e.1, (getDivisors e.2).flatMap fun d => getAvailablePlaces g e.1 d)

/-- helpers.ts `emptyCells`: the active unassigned cells in row-major order. -/
def emptyCells (g : Grid) : List Coord :=
  (rowMajor g.size.height g.size.width).filter fun c =>
    (g.cells c.y c.x == 0) && g.activeMask c.y c.x

/-- helpers.ts `emptyCellsPossibilities`: for each empty cell, the map from
clue to the candidates of that clue covering the cell (clues with no covering
candidate are absent). -/
def emptyCellsPossibilities (rem : RMap) (g : Grid) :
    List (Coord × List (Coord × List Possibility)) :=
  (emptyCells g).map fun u =>
    (u, rem.filterMap fun e =>
      let l := e.2.filter fun p => isCellInRectangle u p
      if l.isEmpty then none else some (e.1, l))

/-- The two-character void token `"--"`. -/
def VOID_TOKEN : Str := ['-', '-']

/-- A decimal digit character. -/
def digitChar (d : Nat) : Char := Char.ofNat (48 + d)

/-- The two-digit zero-padded label `letters[n]` for `n < 100`
(`n.toString().padStart(2, '0')`). -/
def pad2 (n : Nat) : Str := [digitChar (n / 10 % 10), digitChar (n % 10)]

/-- helpers.ts `lexicographicalGrid`, inner walk: visit cells in the given
order, emitting `VOID_TOKEN` for void cells and a first-seen two-digit label
(`letters[iLetter % 100]`) per rectangle ID otherwise.  `seen` is the
`rectanglesLetter` map. -/
def lexWalk (g : Grid) : List Coord → Nat → List (Nat × Nat) → List Str
  | [], _, _ => []
  | c :: rest, iLetter, seen =>
    if g.activeMask c.y c.x then
      match alGet seen (g.cells c.y c.x) with
      | some lab => pad2 lab :: lexWalk g rest iLetter seen
      | none =>
        pad2 (iLetter % 100) ::
          lexWalk g rest (iLetter + 1) (seen ++ [(g.cells c.y c.x, iLetter % 100)])
    else VOID_TOKEN :: lexWalk g rest iLetter seen

/-- helpers.ts `lexicographicalGrid`: the canonical string of a grid. -/
def lexicographicalGrid (g : Grid) : Str :=
  (lexWalk g (rowMajor g.size.height g.size.width) 0 []).flatten

/-- helpers.ts `getDivisors` companion: `Math.max` over the candidate areas;
`none` models `-Infinity` (the result on an empty list). -/
def maxAreaOf (ps : List Possibility) : Option Nat :=
  ps.foldl (fun acc p =>
    match acc with
    | none => some (p.size.height * p.size.width)
    | some a => some (max a (p.size.height * p.size.width))) none

/-- JS `>` on `Math.max` results, where `none` is `-Infinity`. -/
def optGt : Option Nat → Option Nat → Bool
  | some a, some b => decide (b < a)
  | some _, none => true
  | none, _ => false

/-- The minimum candidate-list length over the map (`minPossibilities`,
starting from `Infinity`); only meaningful on a non-empty map. -/
def minLenOf : RMap → Nat
  | [] => 0
  | e :: t => t.foldl (fun a x => min a x.2.length) e.2.length

/-- helpers.ts `getAreaCandidate` (local to
`getAssumedPossibilitiesFromAnArea`): among the keys of minimum candidate-list
length (in map order), keep the first one whose maximum candidate area is
strictly largest (`reduce` keeps the earlier key on ties).  The JS code throws
on an empty map (`reduce` of an empty array); that case is unreachable and
returns a junk coordinate here. -/
def getAreaCandidate (m : RMap) : Coord :=
  let minKeys := (m.filter fun e => e.2.length == minLenOf m).map Prod.fst
  match minKeys with
  | [] => ⟨0, 0⟩
  | k0 :: rest =>
    rest.foldl (fun maxKey key =>
      if optGt (maxAreaOf ((alGet m key).getD [])) (maxAreaOf ((alGet m maxKey).getD []))
      then key else maxKey) k0

/-- helpers.ts `getAssumedPossibilitiesFromAnArea`: one branch per candidate
of the chosen clue; each branch is the map with that clue's list replaced by
the singleton candidate. -/
def getAssumedPossibilitiesFromAnArea (m : RMap) : List (Possibility × RMap) :=
  match m with
  | [] => []
  | _ =>
    let a := getAreaCandidate m
    ((alGet m a).getD []).map fun p => (p, alSet m a [p])

/-- Result of `addRectangle` contract check (solver.ts lines 26-31): `true`
iff every cell of the rectangle is active. -/
def rectAllActive (p : Possibility) (g : Grid) : Bool :=
  (List.range p.size.height).all fun dy =>
    (List.range p.size.width).all fun dx =>
      g.activeMask (p.start.y + dy) (p.start.x + dx)

/-- Write `id` into every cell of the rectangle (solver.ts lines 34-40). -/
def fillRect (g : Grid) (p : Possibility) (id : Nat) : Grid :=
  { g with cells := fun y x =>
      if isCellInRectangle ⟨y, x⟩ p then id else g.cells y x }

/-- solver.ts `addRectangle`: throws (`none`) when some cell of the rectangle
is inactive; otherwise fills the rectangle with the current counter value and
increments the counter. -/
def addRectangle (p : Possibility) (g : Grid) (ctr : Nat) : Option (Grid × Nat) :=
  if rectAllActive p g then some (fillRect g p ctr, ctr + 1) else none

/-- Result of a propagation step: fuel exhaustion (an embedding artifact,
proved unreachable), a thrown exception, or `out res g ctr` where `res = none`
is the JS `null` (unsolvable) and the grid and counter carry the mutations made
so far. -/
inductive RResult where
  | fuelOut
  | thrown
  | out (res : Option RMap) (g : Grid) (ctr : Nat)
deriving Nonempty

/-- solver.ts `filterByRectAndFind` (rule R1): filter each clue's candidates
to the zone-free ones; none left → unsolvable; exactly one left → place it and
drop the clue; otherwise keep the filtered list. -/
def filterByRectAndFind : RMap → Grid → Nat → RResult
  | [], g, ctr => .out (some []) g ctr
  | (a, ps) :: rest, g, ctr =>
    match ps.filter (fun p => isZoneFree p g) with
    | [] => .out none g ctr
    | [p] =>
      match addRectangle p g ctr with
      | none => .thrown
      | some (g2, ctr2) => filterByRectAndFind rest g2 ctr2
    | acc =>
      match filterByRectAndFind rest g ctr with
      | .out (some m) g2 c2 => .out (some ((a, acc) :: m)) g2 c2
      | e => e

/-- solver.ts `filterByCellAndFind` inner loop (rule R2) over the stale
`cellsPossibilities` snapshot, threading the evolving map, grid and counter. -/
def filterByCellAndFindLoop :
    List (Coord × List (Coord × List Possibility)) → RMap → Grid → Nat → RResult
  | [], rem, g, ctr => .out (some rem) g ctr
  | (u, inner) :: rest, rem, g, ctr =>
    if g.cells u.y u.x = 0 then
      match inner with
      | [] => .out none g ctr
      | [(a, cps)] =>
        if g.cells a.y a.x = 0 then
          match cps with
          | [q] =>
            if isZoneFree q g then
              match addRectangle q g ctr with
              | none => .thrown
              | some (g2, ctr2) => filterByCellAndFindLoop rest (alDelete rem a) g2 ctr2
            else .out none g ctr
          | _ =>
            match alGet rem a with
            | none => .thrown
            | some cur =>
              if cps.length < cur.length then
                filterByCellAndFindLoop rest (alSet rem a cps) g ctr
              else filterByCellAndFindLoop rest rem g ctr
        else filterByCellAndFindLoop rest rem g ctr
      | _ => filterByCellAndFindLoop rest rem g ctr
    else filterByCellAndFindLoop rest rem g ctr

/-- solver.ts `filterByCellAndFind`. -/
def filterByCellAndFind (rem : RMap) (g : Grid) (ctr : Nat) : RResult :=
  filterByCellAndFindLoop (emptyCellsPossibilities rem g) rem g ctr

/-- solver.ts `mapsEqual`: same size, and every key of the first map is in the
second with a candidate list of the same length. -/
def mapsEqual (m1 m2 : RMap) : Bool :=
  (m1.length == m2.length) &&
    m1.all fun e =>
      match alGet m2 e.1 with
      | none => false
      | some v2 => e.2.length == v2.length

/-- `mapsEqual(remaining, previousState)` where `previousState` may be the
initial `null`. -/
def mapsEqualOpt (m : RMap) : Option RMap → Bool
  | none => false
  | some p => mapsEqual m p

/-- solver.ts `resolve`, the fixed-point loop: snapshot the map, run R1 then
R2, repeat until a pass changes neither the key set nor any candidate-list
length. -/
def resolveLoop : Nat → Option RMap → RMap → Grid → Nat → RResult
  | 0, _, _, _, _ => .fuelOut
  | fuel + 1, prev, rem, g, ctr =>
    if mapsEqualOpt rem prev then .out (some rem) g ctr
    else
      match filterByRectAndFind rem g ctr with
      | .out (some m1) g1 c1 =>
        match filterByCellAndFind m1 g1 c1 with
        | .out (some m2) g2 c2 => resolveLoop fuel (some rem) m2 g2 c2
        | e => e
      | e => e

/-- The loop measure: total number of keys plus candidates.  Each pass that
does not reach the fixed point strictly decreases it. -/
def rmapMeasure (m : RMap) : Nat := (m.map fun e => 1 + e.2.length).sum

/-- solver.ts `resolve` with the fuel bound proved sufficient in
`resolve_ne_fuelOut`. -/
def resolve (rem : RMap) (g : Grid) (ctr : Nat) : RResult :=
  resolveLoop (rmapMeasure rem + 2) none rem g ctr

/-- The module-level mutable state of solver.ts: `rectangleCounter` and the
memoization `cache`. -/
structure SolverState where
  rectangleCounter : Nat
  cache : List (List Coord × List Str)

/-- solver.ts `resetSolver`. -/
def resetSolver (_s : SolverState) : SolverState := ⟨1, []⟩

/-- The `zerosHash` memoization key of `resolveWithAssumptions`: the active
unassigned cells in row-major order (the `"y,x|…"` string encoding of this
list is injective, so the list itself is used as the key). -/
def zerosHash (g : Grid) : List Coord :=
  (rowMajor g.size.height g.size.width).filter fun c =>
    (g.cells c.y c.x == 0) && g.activeMask c.y c.x

/-- JS `parseInt` on a (two-character) slice: value of the leading decimal
digits.  A slice with no leading digit gives `NaN`, modelled as `0`; the cache
invariant proves the parsed slice is always two digits. -/
def parseTok : Str → Nat
  | a :: b :: _ =>
    if a.isDigit then
      if b.isDigit then 10 * (a.toNat - 48) + (b.toNat - 48) else a.toNat - 48
    else 0
  | [a] => if a.isDigit then a.toNat - 48 else 0
  | [] => 0

/-- The cache-hit replay (solver.ts lines 196-208): write
`parseInt(slice) + baseCounter` into every active unassigned cell of the
copy. -/
def applyCached (g : Grid) (base : Nat) (s : Str) : Grid :=
  { g with cells := fun y x =>
      if y < g.size.height ∧ x < g.size.width ∧ g.cells y x = 0 ∧ g.activeMask y x then
        parseTok ((s.drop ((y * g.size.width + x) * 2)).take 2) + base
      else g.cells y x }

/-- Result of `resolveWithAssumptions` / `shikakuSolve`: fuel exhaustion
(proved unreachable), a thrown exception, or `out res st g` where `res = none`
is the JS `null`, `st` the module state and `g` the caller-visible
(possibly mutated) argument grid. -/
inductive RWAOut where
  | fuelOut
  | thrown
  | out (res : Option (List Str)) (st : SolverState) (g : Grid)
deriving Nonempty

/-- The branch loop of `resolveWithAssumptions` (the `for` over
`getAssumedPossibilitiesFromAnArea`): recurse (via the `recur` callback, the
searcher at one fuel less) on a copy of the grid for each assumption, treating
`null` sub-results as empty and unioning the rest into the accumulator. -/
def branchLoop (recur : RMap → Grid → SolverState → RWAOut) (g2 : Grid) :
    List (Possibility × RMap) → SolverState → List Str → RWAOut
  | [], st, acc => .out (some acc) st g2
  | br :: rest, st, acc =>
    match recur br.2 g2.copy st with
    | .fuelOut => .fuelOut
    | .thrown => .thrown
    | .out r st2 _ =>
      branchLoop recur g2 rest st2
        (match r with
         | some ss => ss.foldl setAdd acc
         | none => acc)

/-- One unfolding of solver.ts `resolveWithAssumptions`: propagate; emit the
canonical grid if finished; on a cache hit replay the cached canonical
strings; otherwise branch on the chosen clue's candidates, union the
sub-results, and cache them. -/
def rwaStep (recur : RMap → Grid → SolverState → RWAOut)
    (rem : RMap) (g : Grid) (st : SolverState) : RWAOut :=
  match resolve rem g st.rectangleCounter with
  | .fuelOut => .fuelOut
  | .thrown => .thrown
  | .out none g2 c2 => .out none { st with rectangleCounter := c2 } g2
  | .out (some m) g2 c2 =>
    let st2 : SolverState := { st with rectangleCounter := c2 }
    if m.isEmpty then .out (some [lexicographicalGrid g2]) st2 g2
    else
      let z := zerosHash g2
      match alGet st2.cache z with
      | some cached =>
        if cached.isEmpty then .out none st2 g2
        else
          .out (some (cached.foldl (fun acc s =>
            setAdd acc (lexicographicalGrid (applyCached g2.copy c2 s))) [])) st2 g2
      | none =>
        match branchLoop recur g2 (getAssumedPossibilitiesFromAnArea m) st2 [] with
        | .fuelOut => .fuelOut
        | .thrown => .thrown
        | .out r st3 _ =>
          let acc := r.getD []
          let st4 : SolverState := { st3 with cache := alSet st3.cache z acc }
          .out (if acc.isEmpty then none else some acc) st4 g2

/-- solver.ts `resolveWithAssumptions`, by recursion on the fuel. -/
def resolveWithAssumptions : Nat → RMap → Grid → SolverState → RWAOut
  | 0 => fun _ _ _ => .fuelOut
  | fuel + 1 => rwaStep (resolveWithAssumptions fuel)

/-- solver.ts `shikakuSolve`: reset the module state, compute the initial
possibilities, and search.  The fuel bound is proved sufficient in
`shikakuSolve_ne_fuelOut`. -/
def shikakuSolve (st : SolverState) (g : Grid) : RWAOut :=
  let st0 := resetSolver st
  resolveWithAssumptions (g.areas.length + 1) (initialPossibilitiesCalculation g) g st0

/-! ## Specification predicates -/

/-- The cells covered by a candidate rectangle. -/
def pCells (p : Possibility) (c : Coord) : Prop :=
  p.start.y ≤ c.y ∧ c.y < p.start.y + p.size.height ∧
    p.start.x ≤ c.x ∧ c.x < p.start.x + p.size.width

instance (p : Possibility) (c : Coord) : Decidable (pCells p c) := by
  unfold pCells; infer_instance

/-- A coordinate inside the board. -/
def inBounds (g : Grid) (c : Coord) : Prop :=
  c.y < g.size.height ∧ c.x < g.size.width

instance (g : Grid) (c : Coord) : Decidable (inBounds g c) := by
  unfold inBounds; infer_instance

/-- Well-formedness of the mask function as a model of the H×W boolean array:
out-of-bounds reads are `false` (JS `undefined`). -/
def MaskWF (g : Grid) : Prop :=
  ∀ c : Coord, g.activeMask c.y c.x = true → inBounds g c

/-- §3 invariant 5 / §4.2: a geometrically admissible candidate for clue `a`
of value `v`: in bounds, covering only active cells, containing `a`,
containing no other clue, of area `v`. -/
structure ValidCand (g : Grid) (a : Coord) (v : Nat) (p : Possibility) : Prop where
  boundY : p.start.y + p.size.height ≤ g.size.height
  boundX : p.start.x + p.size.width ≤ g.size.width
  active : ∀ c, pCells p c → g.activeMask c.y c.x = true
  hasClue : pCells p a
  noOther : ∀ b w, (b, w) ∈ g.areas → pCells p b → b = a
  area : p.size.height * p.size.width = v

/-- §3 invariant 2: a placed rectangle is in bounds, covers only active
cells, and contains exactly one clue, whose value is the rectangle's area. -/
structure GoodRect (g : Grid) (p : Possibility) : Prop where
  boundY : p.start.y + p.size.height ≤ g.size.height
  boundX : p.start.x + p.size.width ≤ g.size.width
  active : ∀ c, pCells p c → g.activeMask c.y c.x = true
  clue : ∃ a v, (a, v) ∈ g.areas ∧ pCells p a ∧ p.size.height * p.size.width = v ∧
    ∀ b w, (b, w) ∈ g.areas → pCells p b → b = a

/-- §3 invariants 2-4: every positive rectangle ID below the counter; the
cells of each occurring positive ID form a `GoodRect`. -/
def GoodGrid (g : Grid) (ctr : Nat) : Prop :=
  (∀ c, inBounds g c → g.cells c.y c.x < ctr) ∧
  ∀ id, 0 < id → (∃ c, inBounds g c ∧ g.cells c.y c.x = id) →
    ∃ p, GoodRect g p ∧ ∀ c, inBounds g c → (g.cells c.y c.x = id ↔ pCells p c)

/-- Invariant of the remaining-possibilities map: distinct keys, each an
unplaced clue of the board, with only valid candidates. -/
def GoodRem (g : Grid) (rem : RMap) : Prop :=
  (rem.map Prod.fst).Nodup ∧
  ∀ a ps, (a, ps) ∈ rem → g.cells a.y a.x = 0 ∧
    ∃ v, (a, v) ∈ g.areas ∧ ∀ p ∈ ps, ValidCand g a v p

/-- Two grids sharing size, clue map and active mask (mutation touches only
`cells`). -/
def sameShape (g g2 : Grid) : Prop :=
  g.size = g2.size ∧ g.areas = g2.areas ∧ g.activeMask = g2.activeMask

/-! ## Basic bridges between the executable solver and the predicates -/

theorem isCellInRectangle_iff {c : Coord} {p : Possibility} :
    isCellInRectangle c p = true ↔ pCells p c := by
  simp [isCellInRectangle, pCells]

theorem pCells_mk {p : Possibility} {y x : Nat} :
    pCells p ⟨y, x⟩ ↔
      (p.start.y ≤ y ∧ y < p.start.y + p.size.height ∧
       p.start.x ≤ x ∧ x < p.start.x + p.size.width) := Iff.rfl

theorem coversOnlyActiveCells_iff {p : Possibility} {g : Grid} :
    coversOnlyActiveCells p g = true ↔
      ∀ c, pCells p c → g.activeMask c.y c.x = true := by
  unfold coversOnlyActiveCells
  simp only [List.all_eq_true, List.mem_range]
  constructor
  · rintro h c ⟨h1, h2, h3, h4⟩
    have := h (c.y - p.start.y) (by omega) (c.x - p.start.x) (by omega)
    have hy : p.start.y + (c.y - p.start.y) = c.y := by omega
    have hx : p.start.x + (c.x - p.start.x) = c.x := by omega
    rwa [hy, hx] at this
  · intro h dy hdy dx hdx
    exact h ⟨p.start.y + dy, p.start.x + dx⟩
      (pCells_mk.mpr ⟨by omega, by omega, by omega, by omega⟩)

theorem rectAllActive_eq (p : Possibility) (g : Grid) :
    rectAllActive p g = coversOnlyActiveCells p g := rfl

theorem isZoneFree_iff {p : Possibility} {g : Grid} :
    isZoneFree p g = true ↔
      (∀ c, pCells p c → g.activeMask c.y c.x = true) ∧
      ∀ c, pCells p c → g.cells c.y c.x = 0 := by
  unfold isZoneFree
  rw [Bool.and_eq_true, coversOnlyActiveCells_iff]
  simp only [List.all_eq_true, List.mem_range, beq_iff_eq]
  constructor
  · rintro ⟨h1, h2⟩
    refine ⟨h1, ?_⟩
    rintro c ⟨ha, hb, hc, hd⟩
    have := h2 (c.y - p.start.y) (by omega) (c.x - p.start.x) (by omega)
    have hy : p.start.y + (c.y - p.start.y) = c.y := by omega
    have hx : p.start.x + (c.x - p.start.x) = c.x := by omega
    rwa [hy, hx] at this
  · rintro ⟨h1, h2⟩
    refine ⟨h1, ?_⟩
    intro dy hdy dx hdx
    exact h2 ⟨p.start.y + dy, p.start.x + dx⟩
      (pCells_mk.mpr ⟨by omega, by omega, by omega, by omega⟩)

theorem isAnotherAreaInfoInRectangle_iff {p : Possibility} {a : Coord} {g : Grid} :
    isAnotherAreaInfoInRectangle p a g = true ↔
      ∃ b w, (b, w) ∈ g.areas ∧ b ≠ a ∧ pCells p b := by
  simp [isAnotherAreaInfoInRectangle, pCells, Prod.exists, and_assoc]

theorem fillRect_cells (g : Grid) (p : Possibility) (id : Nat) (y x : Nat) :
    (fillRect g p id).cells y x =
      if pCells p ⟨y, x⟩ then id else g.cells y x := by
  simp [fillRect, isCellInRectangle_iff]

@[simp] theorem fillRect_size (g : Grid) (p : Possibility) (id : Nat) :
    (fillRect g p id).size = g.size := rfl

@[simp] theorem fillRect_areas (g : Grid) (p : Possibility) (id : Nat) :
    (fillRect g p id).areas = g.areas := rfl

@[simp] theorem fillRect_activeMask (g : Grid) (p : Possibility) (id : Nat) :
    (fillRect g p id).activeMask = g.activeMask := rfl

@[simp] theorem copy_eq (g : Grid) : g.copy = g := rfl

/-! ## Association-list lemmas -/

theorem alGet_eq_some_of_mem {α β : Type} [DecidableEq α]
    {l : List (α × β)} {k : α} {v : β}
    (hnd : (l.map Prod.fst).Nodup) (hm : (k, v) ∈ l) : alGet l k = some v := by
  induction l with
  | nil => cases hm
  | cons e t ih =>
    simp only [List.map_cons, List.nodup_cons] at hnd
    rcases List.mem_cons.mp hm with h | h
    · subst h; simp [alGet]
    · have hke : e.1 ≠ k := by
        intro he
        exact hnd.1 (he ▸ List.mem_map_of_mem Prod.fst h)
      simp only [alGet, if_neg hke]
      exact ih hnd.2 h

theorem alGet_mem {α β : Type} [DecidableEq α] {l : List (α × β)} {k : α} {v : β}
    (h : alGet l k = some v) : (k, v) ∈ l := by
  induction l with
  | nil => simp [alGet] at h
  | cons e t ih =>
    by_cases he : e.1 = k
    · simp only [alGet, if_pos he] at h
      cases h
      subst he
      exact List.mem_cons.mpr (Or.inl rfl)
    · simp only [alGet, if_neg he] at h
      exact List.mem_cons_of_mem _ (ih h)

theorem alGet_isSome_iff {α β : Type} [DecidableEq α] {l : List (α × β)} {k : α} :
    (alGet l k).isSome ↔ k ∈ l.map Prod.fst := by
  induction l with
  | nil => simp [alGet]
  | cons e t ih =>
    by_cases he : e.1 = k
    · simp [alGet, he]
    · simp [alGet, he, ih, Ne.symm he]

theorem alGet_eq_none_iff {α β : Type} [DecidableEq α] {l : List (α × β)} {k : α} :
    alGet l k = none ↔ k ∉ l.map Prod.fst := by
  rw [← alGet_isSome_iff, Option.isSome_iff_exists]
  constructor
  · rintro h ⟨v, hv⟩; rw [h] at hv; cases hv
  · intro h
    cases hk : alGet l k with
    | none => rfl
    | some v => exact absurd ⟨v, hk⟩ h

theorem alSet_keys {α β : Type} [DecidableEq α] (l : List (α × β)) (k : α) (v : β)
    (hk : k ∈ l.map Prod.fst) : (alSet l k v).map Prod.fst = l.map Prod.fst := by
  induction l with
  | nil => cases hk
  | cons e t ih =>
    by_cases he : e.1 = k
    · simp [alSet, he]
    · simp only [List.map_cons, List.mem_cons] at hk
      rcases hk with h | h
      · exact absurd h.symm he
      · simp [alSet, he, ih h]

theorem alSet_mem {α β : Type} [DecidableEq α] {l : List (α × β)} {k a : α} {v b : β}
    (h : (a, b) ∈ alSet l k v) : (a = k ∧ b = v) ∨ (a, b) ∈ l := by
  induction l with
  | nil =>
    simp only [alSet, List.mem_singleton] at h
    cases h; exact Or.inl ⟨rfl, rfl⟩
  | cons e t ih =>
    by_cases he : e.1 = k
    · simp only [alSet, if_pos he, List.mem_cons] at h
      rcases h with h | h
      · cases h; exact Or.inl ⟨rfl, rfl⟩
      · exact Or.inr (List.mem_cons_of_mem _ h)
    · simp only [alSet, if_neg he, List.mem_cons] at h
      rcases h with h | h
      · exact Or.inr (List.mem_cons.mpr (Or.inl h))
      · rcases ih h with h2 | h2
        · exact Or.inl h2
        · exact Or.inr (List.mem_cons_of_mem _ h2)

theorem alDelete_mem {α β : Type} [DecidableEq α] {l : List (α × β)} {k a : α} {b : β}
    (h : (a, b) ∈ alDelete l k) : (a, b) ∈ l := by
  induction l with
  | nil => cases h
  | cons e t ih =>
    by_cases he : e.1 = k
    · simp only [alDelete, if_pos he] at h
      exact List.mem_cons_of_mem _ h
    · simp only [alDelete, if_neg he, List.mem_cons] at h
      rcases h with h | h
      · exact List.mem_cons.mpr (Or.inl h)
      · exact List.mem_cons_of_mem _ (ih h)

theorem alDelete_keys_sublist {α β : Type} [DecidableEq α] (l : List (α × β)) (k : α) :
    ((alDelete l k).map Prod.fst).Sublist (l.map Prod.fst) := by
  induction l with
  | nil => simp [alDelete]
  | cons e t ih =>
    by_cases he : e.1 = k
    · simp only [alDelete, if_pos he, List.map_cons]
      exact (List.sublist_cons_self _ _)
    · simp only [alDelete, if_neg he, List.map_cons]
      exact ih.cons₂ _

theorem alDelete_nodup {α β : Type} [DecidableEq α] {l : List (α × β)} {k : α}
    (h : (l.map Prod.fst).Nodup) : ((alDelete l k).map Prod.fst).Nodup :=
  (alDelete_keys_sublist l k).nodup h

theorem alDelete_not_mem {α β : Type} [DecidableEq α] {l : List (α × β)} {k : α} {b : β}
    (hnd : (l.map Prod.fst).Nodup) : (k, b) ∉ alDelete l k := by
  induction l with
  | nil => simp [alDelete]
  | cons e t ih =>
    simp only [List.map_cons, List.nodup_cons] at hnd
    by_cases he : e.1 = k
    · simp only [alDelete, if_pos he]
      intro hm
      exact hnd.1 (he ▸ List.mem_map_of_mem Prod.fst hm)
    · simp only [alDelete, if_neg he, List.mem_cons]
      rintro (h | h)
      · exact he (congrArg Prod.fst h).symm
      · exact ih hnd.2 h

/-! ## Row-major enumeration lemmas -/

theorem rowMajor_mem {H W : Nat} {c : Coord} :
    c ∈ rowMajor H W ↔ c.y < H ∧ c.x < W := by
  cases c with
  | mk y x =>
    simp only [rowMajor, List.mem_flatMap, List.mem_map, List.mem_range]
    constructor
    · rintro ⟨y2, hy2, x2, hx2, h⟩
      cases h; exact ⟨hy2, hx2⟩
    · rintro ⟨hy, hx⟩
      exact ⟨y, hy, x, hx, rfl⟩

theorem rowMajor_succ (H W : Nat) :
    rowMajor (H + 1) W = rowMajor H W ++ (List.range W).map (fun x => ⟨H, x⟩) := by
  simp [rowMajor, List.range_succ]

theorem rowMajor_length (H W : Nat) : (rowMajor H W).length = H * W := by
  induction H with
  | zero => simp [rowMajor]
  | succ n ih => simp [rowMajor_succ, ih, Nat.succ_mul]

theorem rowMajor_getElem {H W y x : Nat} (hy : y < H) (hx : x < W) :
    (rowMajor H W)[y * W + x]? = some ⟨y, x⟩ := by
  induction H with
  | zero => omega
  | succ n ih =>
    rw [rowMajor_succ]
    by_cases hyn : y < n
    · have hlen : y * W + x < (rowMajor n W).length := by
        rw [rowMajor_length]
        calc y * W + x < y * W + W := by omega
          _ = (y + 1) * W := by ring
          _ ≤ n * W := Nat.mul_le_mul_right W (by omega)
      rw [List.getElem?_append, if_pos hlen]
      exact ih hyn
    · have hyeq : y = n := by omega
      subst hyeq
      rw [List.getElem?_append_right (by rw [rowMajor_length]; omega)]
      rw [rowMajor_length]
      have : y * W + x - y * W = x := by omega
      rw [this, List.getElem?_map, List.getElem?_range hx]
      rfl

theorem rowMajor_nodup (H W : Nat) : (rowMajor H W).Nodup := by
  induction H with
  | zero => simp [rowMajor]
  | succ n ih =>
    rw [rowMajor_succ, List.nodup_append]
    refine ⟨ih, ?_, ?_⟩
    · exact (List.nodup_range W).map (fun a b h => by cases h; rfl)
    · intro c hc hc2
      rw [rowMajor_mem] at hc
      simp only [List.mem_map, List.mem_range] at hc2
      rcases hc2 with ⟨x2, _, hx⟩
      have hcy : c.y = n := by rw [← hx]
      omega

/-! ## Claim C5: the `addRectangle` / `place_rectangle` contract -/

theorem addRectangle_none_iff {p : Possibility} {g : Grid} {ctr : Nat} :
    addRectangle p g ctr = none ↔ ∃ c, pCells p c ∧ g.activeMask c.y c.x = false := by
  unfold addRectangle
  constructor
  · intro h
    by_cases ha : rectAllActive p g = true
    · rw [if_pos ha] at h; cases h
    · rw [rectAllActive_eq] at ha
      rcases not_forall.mp (fun hall => ha (coversOnlyActiveCells_iff.mpr hall)) with ⟨c, hc⟩
      rw [Classical.not_imp] at hc
      exact ⟨c, hc.1, (Bool.not_eq_true _) ▸ hc.2⟩
  · rintro ⟨c, hc, hm⟩
    have : ¬ rectAllActive p g = true := by
      rw [rectAllActive_eq]
      intro hall
      rw [coversOnlyActiveCells_iff.mp hall c hc] at hm
      cases hm
    rw [if_neg this]

/-- A 2×2 all-active demo grid whose cell (0,0) already carries rectangle
ID 5. -/
def demoAssignedGrid : Grid :=
  { size := ⟨2, 2⟩
    areas := [(⟨0, 0⟩, 4)]
    cells := fun y x => if y = 0 ∧ x = 0 then 5 else 0
    activeMask := fun y x => decide (y < 2) && decide (x < 2) }

/-- The 1×1 rectangle at the origin. -/
def demoUnitRect : Possibility := ⟨⟨0, 0⟩, ⟨1, 1⟩⟩

/-- C5 counterexample: calling `addRectangle` on a cell that is active but
already assigned (non-zero) raises no error, refuting the claimed
"if and only if some cell of the rectangle is void or already assigned". -/
theorem C5_counterexample_no_error_on_assigned_cell :
    (addRectangle demoUnitRect demoAssignedGrid 7).isSome = true ∧
      pCells demoUnitRect ⟨0, 0⟩ ∧
      demoAssignedGrid.cells 0 0 ≠ 0 ∧
      demoAssignedGrid.activeMask 0 0 = true := by
  refine ⟨?_, ?_, ?_, ?_⟩ <;> decide

/-- C5 (amended): `addRectangle` raises its fatal error (distinct from the
infeasibility result) if and only if some cell of the rectangle is void; it
does not check for already-assigned cells.  When every cell of the rectangle
is active and unassigned it writes the fresh positive counter value into every
cell of the rectangle, leaves all other cells unchanged, and raises no
error. -/
theorem C5_place_rectangle_contract (p : Possibility) (g : Grid) (ctr : Nat) :
    (addRectangle p g ctr = none ↔ ∃ c, pCells p c ∧ g.activeMask c.y c.x = false) ∧
    (0 < ctr → (∀ c, pCells p c → g.activeMask c.y c.x = true ∧ g.cells c.y c.x = 0) →
      addRectangle p g ctr = some (fillRect g p ctr, ctr + 1) ∧
      (∀ c, pCells p c → (fillRect g p ctr).cells c.y c.x = ctr ∧
        0 < (fillRect g p ctr).cells c.y c.x) ∧
      (∀ y x, ¬ pCells p ⟨y, x⟩ → (fillRect g p ctr).cells y x = g.cells y x)) := by
  refine ⟨addRectangle_none_iff, fun hpos hfree => ⟨?_, ?_, ?_⟩⟩
  · unfold addRectangle
    rw [if_pos (rectAllActive_eq p g ▸ coversOnlyActiveCells_iff.mpr
      (fun c hc => (hfree c hc).1))]
  · intro c hc
    have hco : (fillRect g p ctr).cells c.y c.x = ctr := by
      rw [fillRect_cells]
      exact if_pos hc
    refine ⟨hco, ?_⟩
    rw [hco]
    exact hpos
  · intro y x hc
    rw [fillRect_cells]
    exact if_neg hc

/-- C5 witness: the amended contract applied to a concrete free 1×1
placement. -/
theorem C5_place_rectangle_contract_witness :
    addRectangle demoUnitRect
        { size := ⟨2, 2⟩, areas := [(⟨0, 0⟩, 4)], cells := fun _ _ => 0,
          activeMask := fun y x => decide (y < 2) && decide (x < 2) } 1 =
      some (fillRect
        { size := ⟨2, 2⟩, areas := [(⟨0, 0⟩, 4)], cells := fun _ _ => 0,
          activeMask := fun y x => decide (y < 2) && decide (x < 2) } demoUnitRect 1, 2) := by
  refine ((C5_place_rectangle_contract demoUnitRect _ 1).2 (by decide) ?_).1
  rintro c ⟨h1, h2, h3, h4⟩
  simp only [demoUnitRect] at h2 h4
  refine ⟨?_, rfl⟩
  simp only [Bool.and_eq_true, decide_eq_true_eq]
  omega

/-! ## Canonicalizer lemmas -/

/-- The `rectanglesLetter` map after walking the given cells (the `iLetter`
counter of `lexicographicalGrid` always equals the size of the map). -/
def seenAfter (g : Grid) : List Coord → List (Nat × Nat) → List (Nat × Nat)
  | [], seen => seen
  | c :: rest, seen =>
    if g.activeMask c.y c.x then
      match alGet seen (g.cells c.y c.x) with
      | some _ => seenAfter g rest seen
      | none => seenAfter g rest (seen ++ [(g.cells c.y c.x, seen.length % 100)])
    else seenAfter g rest seen

theorem alGet_append {α β : Type} [DecidableEq α] (l1 l2 : List (α × β)) (k : α) :
    alGet (l1 ++ l2) k =
      match alGet l1 k with
      | some v => some v
      | none => alGet l2 k := by
  induction l1 with
  | nil => simp [alGet]
  | cons e t ih =>
    by_cases he : e.1 = k
    · simp [alGet, he]
    · simp [alGet, he, ih]

theorem seenAfter_ext (g : Grid) (l : List Coord) (seen : List (Nat × Nat)) :
    ∃ tail, seenAfter g l seen = seen ++ tail := by
  induction l generalizing seen with
  | nil => exact ⟨[], by simp [seenAfter]⟩
  | cons c rest ih =>
    unfold seenAfter
    by_cases hm : g.activeMask c.y c.x
    · rw [if_pos hm]
      cases hg : alGet seen (g.cells c.y c.x) with
      | some lab => exact ih seen
      | none =>
        rcases ih (seen ++ [(g.cells c.y c.x, seen.length % 100)]) with ⟨tl, htl⟩
        exact ⟨(g.cells c.y c.x, seen.length % 100) :: tl, by rw [htl, List.append_assoc]; rfl⟩
    · rw [if_neg hm]
      exact ih seen

/-- The canonical walk emits, for each cell, the void token or the two-digit
label its rectangle ID receives in the final first-seen map. -/
theorem lexWalk_eq_map (g : Grid) (l : List Coord) (seen : List (Nat × Nat)) :
    lexWalk g l seen.length seen =
      l.map fun c =>
        if g.activeMask c.y c.x then
          pad2 ((alGet (seenAfter g l seen) (g.cells c.y c.x)).getD 0)
        else VOID_TOKEN := by
  induction l generalizing seen with
  | nil => simp [lexWalk]
  | cons c rest ih =>
    unfold lexWalk seenAfter
    by_cases hm : g.activeMask c.y c.x
    · rw [if_pos hm, if_pos hm]
      cases hg : alGet seen (g.cells c.y c.x) with
      | some lab =>
        rcases seenAfter_ext g rest seen with ⟨tl, htl⟩
        rw [List.map_cons, if_pos hm, htl, alGet_append, hg]
        exact congrArg _ (htl ▸ ih seen)
      | none =>
        have hlen : (seen ++ [(g.cells c.y c.x, seen.length % 100)]).length = seen.length + 1 := by
          simp
        rcases seenAfter_ext g rest (seen ++ [(g.cells c.y c.x, seen.length % 100)]) with ⟨tl, htl⟩
        have hsingle : alGet ([(g.cells c.y c.x, seen.length % 100)] ++ tl) (g.cells c.y c.x) =
            some (seen.length % 100) := by
          simp [alGet]
        have ihh := ih (seen ++ [(g.cells c.y c.x, seen.length % 100)])
        rw [hlen] at ihh
        simp only [hg, List.map_cons, if_pos hm, htl, List.append_assoc, alGet_append,
          hsingle, Option.getD_some, ihh]
        simp [alGet]
    · rw [if_neg hm, if_neg hm, List.map_cons, if_neg hm]
      rcases seenAfter_ext g rest seen with ⟨tl, htl⟩
      exact congrArg _ (ih seen)

/-- The canonical string as a per-cell token list. -/
theorem lexicographicalGrid_eq_flatten (g : Grid) :
    lexicographicalGrid g =
      ((rowMajor g.size.height g.size.width).map fun c =>
        if g.activeMask c.y c.x then
          pad2 ((alGet (seenAfter g (rowMajor g.size.height g.size.width) [])
            (g.cells c.y c.x)).getD 0)
        else VOID_TOKEN).flatten := by
  unfold lexicographicalGrid
  have h := lexWalk_eq_map g (rowMajor g.size.height g.size.width) []
  simp only [List.length_nil] at h
  rw [h]

theorem pad2_length (n : Nat) : (pad2 n).length = 2 := rfl

theorem VOID_TOKEN_length : VOID_TOKEN.length = 2 := rfl

theorem digitChar_toNat {d : Nat} (hd : d < 10) : (digitChar d).toNat = 48 + d := by
  interval_cases d <;> decide

theorem pad2_ne_void (n : Nat) : pad2 n ≠ VOID_TOKEN := by
  intro h
  have h1 : digitChar (n / 10 % 10) = '-' := by
    have := congrArg List.headI h
    simpa [pad2, VOID_TOKEN] using this
  have h2 := congrArg Char.toNat h1
  rw [digitChar_toNat (Nat.mod_lt _ (by norm_num))] at h2
  have h3 : ('-' : Char).toNat = 45 := by decide
  rw [h3] at h2
  omega

theorem pad2_inj {m n : Nat} (hm : m < 100) (hn : n < 100) (h : pad2 m = pad2 n) :
    m = n := by
  simp only [pad2, List.cons.injEq, and_true] at h
  have hd : ∀ a b : Nat, a < 10 → b < 10 → digitChar a = digitChar b → a = b := by
    intro a b ha hb hab
    have h1 := congrArg Char.toNat hab
    rw [digitChar_toNat ha, digitChar_toNat hb] at h1
    omega
  have h1 := hd _ _ (by omega) (by omega) h.1
  have h2 := hd _ _ (by omega) (by omega) h.2
  omega

/-- Token extraction: two characters starting at position `2 * i`. -/
def tokAt (s : Str) (i : Nat) : Str := (s.drop (2 * i)).take 2

theorem flatten_length_two (ts : List Str) (h2 : ∀ t ∈ ts, t.length = 2) :
    ts.flatten.length = 2 * ts.length := by
  induction ts with
  | nil => simp
  | cons t rest ih =>
    have ht : t.length = 2 := h2 t (List.mem_cons_self t rest)
    have ihh := ih fun u hu => h2 u (List.mem_cons_of_mem t hu)
    simp only [List.flatten_cons, List.length_append, List.length_cons, ht, ihh]
    ring

theorem tokAt_flatten (ts : List Str) (h2 : ∀ t ∈ ts, t.length = 2)
    {j : Nat} {t : Str} (hj : ts[j]? = some t) : tokAt ts.flatten j = t := by
  induction ts generalizing j with
  | nil => simp at hj
  | cons u rest ih =>
    cases j with
    | zero =>
      simp only [List.getElem?_cons_zero, Option.some.injEq] at hj
      have hu : u.length = 2 := h2 u (List.mem_cons_self u rest)
      rw [← hj]
      simp only [tokAt, List.flatten_cons, Nat.mul_zero, List.drop_zero]
      rw [List.take_append_of_le_length (by omega)]
      exact List.take_of_length_le (by omega)
    | succ n =>
      simp only [List.getElem?_cons_succ] at hj
      have hu : u.length = 2 := h2 u (List.mem_cons_self u rest)
      have hdrop : (u ++ rest.flatten).drop (2 * (n + 1)) = rest.flatten.drop (2 * n) := by
        have : 2 * (n + 1) = u.length + 2 * n := by omega
        rw [this, List.drop_append]
      simp only [tokAt, List.flatten_cons, hdrop]
      exact ih (fun v hv => h2 v (List.mem_cons_of_mem u hv)) hj

/-! ## Shape preservation and output provenance -/

theorem sameShape_refl (g : Grid) : sameShape g g := ⟨rfl, rfl, rfl⟩

theorem sameShape_trans {a b c : Grid} (h1 : sameShape a b) (h2 : sameShape b c) :
    sameShape a c :=
  ⟨h1.1.trans h2.1, h1.2.1.trans h2.2.1, h1.2.2.trans h2.2.2⟩

theorem fillRect_shape (g : Grid) (p : Possibility) (id : Nat) :
    sameShape g (fillRect g p id) := ⟨rfl, rfl, rfl⟩

theorem applyCached_shape (g : Grid) (base : Nat) (s : Str) :
    sameShape g (applyCached g base s) := ⟨rfl, rfl, rfl⟩

theorem addRectangle_some {p : Possibility} {g : Grid} {ctr : Nat} {g2 : Grid} {c2 : Nat}
    (h : addRectangle p g ctr = some (g2, c2)) :
    g2 = fillRect g p ctr ∧ c2 = ctr + 1 := by
  unfold addRectangle at h
  split at h
  · cases h; exact ⟨rfl, rfl⟩
  · cases h

theorem filterByRectAndFind_shape :
    ∀ (rem : RMap) (g : Grid) (ctr : Nat) {res : Option RMap} {g2 : Grid} {c2 : Nat},
      filterByRectAndFind rem g ctr = .out res g2 c2 → sameShape g g2 := by
  intro rem
  induction rem with
  | nil =>
    intro g ctr res g2 c2 h
    simp only [filterByRectAndFind] at h
    cases h
    exact sameShape_refl g
  | cons e rest ih =>
    intro g ctr res g2 c2 h
    rw [show (e :: rest : RMap) = (e.1, e.2) :: rest from rfl] at h
    simp only [filterByRectAndFind] at h
    split at h
    · cases h; exact sameShape_refl g
    · rename_i p heq
      split at h
      · cases h
      · rename_i g3 c3 haddr
        have hg3 := (addRectangle_some haddr).1
        exact sameShape_trans (hg3 ▸ fillRect_shape g p ctr) (ih _ _ h)
    · split at h
      · cases h
        exact ih _ _ (by assumption)
      · exact ih _ _ h

theorem filterByCellAndFindLoop_shape :
    ∀ (cp : List (Coord × List (Coord × List Possibility))) (rem : RMap) (g : Grid)
      (ctr : Nat) {res : Option RMap} {g2 : Grid} {c2 : Nat},
      filterByCellAndFindLoop cp rem g ctr = .out res g2 c2 → sameShape g g2 := by
  intro cp
  induction cp with
  | nil =>
    intro rem g ctr res g2 c2 h
    simp only [filterByCellAndFindLoop] at h
    cases h
    exact sameShape_refl g
  | cons e rest ih =>
    intro rem g ctr res g2 c2 h
    rw [show (e :: rest) = (e.1, e.2) :: rest from rfl] at h
    simp only [filterByCellAndFindLoop] at h
    split at h
    · split at h
      · cases h
        exact sameShape_refl g
      · split at h
        · split at h
          · split at h
            · split at h
              · cases h
              · rename_i g3 c3 haddr
                have hg3 := (addRectangle_some haddr).1
                exact sameShape_trans (hg3 ▸ fillRect_shape g _ ctr) (ih _ _ _ h)
            · cases h
              exact sameShape_refl g
          · split at h
            · cases h
            · split at h
              · exact ih _ _ _ h
              · exact ih _ _ _ h
        · exact ih _ _ _ h
      · exact ih _ _ _ h
    · exact ih _ _ _ h

theorem filterByCellAndFind_shape {rem : RMap} {g : Grid} {ctr : Nat}
    {res : Option RMap} {g2 : Grid} {c2 : Nat}
    (h : filterByCellAndFind rem g ctr = .out res g2 c2) : sameShape g g2 :=
  filterByCellAndFindLoop_shape _ _ _ _ h

theorem resolveLoop_shape :
    ∀ (fuel : Nat) (prev : Option RMap) (rem : RMap) (g : Grid) (ctr : Nat)
      {res : Option RMap} {g2 : Grid} {c2 : Nat},
      resolveLoop fuel prev rem g ctr = .out res g2 c2 → sameShape g g2 := by
  intro fuel
  induction fuel with
  | zero => intro prev rem g ctr res g2 c2 h; simp only [resolveLoop] at h; cases h
  | succ n ih =>
    intro prev rem g ctr res g2 c2 h
    simp only [resolveLoop] at h
    split at h
    · cases h; exact sameShape_refl g
    · split at h
      · rename_i m1 g1 c1 h1
        split at h
        · rename_i m2 g22 c22 h2
          exact sameShape_trans (filterByRectAndFind_shape _ _ _ h1)
            (sameShape_trans (filterByCellAndFind_shape h2) (ih _ _ _ _ h))
        · exact sameShape_trans (filterByRectAndFind_shape _ _ _ h1)
            (filterByCellAndFind_shape h)
      · exact filterByRectAndFind_shape _ _ _ h

theorem resolve_shape {rem : RMap} {g : Grid} {ctr : Nat}
    {res : Option RMap} {g2 : Grid} {c2 : Nat}
    (h : resolve rem g ctr = .out res g2 c2) : sameShape g g2 :=
  resolveLoop_shape _ _ _ _ _ h

/-! ## Set-as-list membership lemmas -/

theorem mem_setAdd {α : Type} [DecidableEq α] {l : List α} {s a : α} :
    a ∈ setAdd l s ↔ a ∈ l ∨ a = s := by
  unfold setAdd
  by_cases hs : s ∈ l
  · rw [if_pos hs]
    constructor
    · exact Or.inl
    · rintro (h | h)
      · exact h
      · exact h ▸ hs
  · rw [if_neg hs]
    simp

theorem mem_foldl_setAdd {α β : Type} [DecidableEq α] (f : β → α) :
    ∀ (l : List β) (acc : List α) (a : α),
      a ∈ l.foldl (fun ac x => setAdd ac (f x)) acc ↔ a ∈ acc ∨ ∃ x ∈ l, a = f x := by
  intro l
  induction l with
  | nil => simp
  | cons x rest ih =>
    intro acc a
    simp only [List.foldl_cons, ih, mem_setAdd, List.mem_cons]
    constructor
    · rintro (( h | h) | ⟨y, hy, he⟩)
      · exact Or.inl h
      · exact Or.inr ⟨x, Or.inl rfl, h⟩
      · exact Or.inr ⟨y, Or.inr hy, he⟩
    · rintro (h | ⟨y, (hy | hy), he⟩)
      · exact Or.inl (Or.inl h)
      · exact Or.inl (Or.inr (hy ▸ he))
      · exact Or.inr ⟨y, hy, he⟩

theorem mem_foldl_setAdd_id {α : Type} [DecidableEq α] (l acc : List α) (a : α) :
    a ∈ l.foldl setAdd acc ↔ a ∈ acc ∨ a ∈ l := by
  have h := mem_foldl_setAdd (fun x : α => x) l acc a
  simp only [] at h
  rw [h]
  constructor
  · rintro (h2 | ⟨x, hx, he⟩)
    · exact Or.inl h2
    · exact Or.inr (he ▸ hx)
  · rintro (h2 | h2)
    · exact Or.inl h2
    · exact Or.inr ⟨a, h2, rfl⟩

/-- Provenance of every string produced by the branch loop: it either was in
the accumulator or comes from one recursive result. -/
theorem branchLoop_strings (recur : RMap → Grid → SolverState → RWAOut) (g2 : Grid)
    (P : Str → Prop)
    (hrec : ∀ rem st r st2 gg, recur rem g2.copy st = .out r st2 gg →
      ∀ s ∈ r.getD [], P s) :
    ∀ (brs : List (Possibility × RMap)) (st : SolverState) (acc : List Str)
      (hacc : ∀ s ∈ acc, P s)
      {r : Option (List Str)} {st2 : SolverState} {gg : Grid},
      branchLoop recur g2 brs st acc = .out r st2 gg →
      ∀ s ∈ r.getD [], P s := by
  intro brs
  induction brs with
  | nil =>
    intro st acc hacc r st2 gg h
    simp only [branchLoop] at h
    cases h
    exact hacc
  | cons br rest ih =>
    intro st acc hacc r st2 gg h
    simp only [branchLoop] at h
    cases hr : recur br.2 g2.copy st with
    | fuelOut => rw [hr] at h; cases h
    | thrown => rw [hr] at h; cases h
    | out r2 st3 g3 =>
      rw [hr] at h
      cases r2 with
      | none => exact ih st3 acc hacc h
      | some ss =>
        refine ih st3 _ ?_ h
        intro s hs
        rcases (mem_foldl_setAdd_id ss acc s).mp hs with h2 | h2
        · exact hacc s h2
        · exact hrec br.2 st (some ss) st3 g3 hr s (by simpa using h2)

/-- Every string in a `resolveWithAssumptions` result is the canonical string
of some grid of the same shape as the argument grid, and the caller-visible
grid keeps the argument's shape. -/
theorem rwa_strings :
    ∀ (fuel : Nat) (rem : RMap) (g : Grid) (st : SolverState)
      {r : Option (List Str)} {st2 : SolverState} {g2 : Grid},
      resolveWithAssumptions fuel rem g st = .out r st2 g2 →
      sameShape g g2 ∧
      ∀ s ∈ r.getD [], ∃ g3, sameShape g g3 ∧ s = lexicographicalGrid g3 := by
  intro fuel
  induction fuel with
  | zero => intro rem g st r st2 g2 h; simp only [resolveWithAssumptions] at h; cases h
  | succ n ih =>
    intro rem g st r st2 g2 h
    simp only [resolveWithAssumptions, rwaStep] at h
    split at h
    · cases h
    · cases h
    · rename_i gr cr h1
      cases h
      exact ⟨resolve_shape h1, by simp⟩
    · rename_i m gr cr h1
      have hshape := resolve_shape h1
      split at h
      · cases h
        refine ⟨hshape, ?_⟩
        intro s hs
        simp only [Option.getD_some, List.mem_singleton] at hs
        exact ⟨g2, hshape, hs⟩
      · split at h
        · rename_i cached h2
          split at h
          · cases h
            exact ⟨hshape, by simp⟩
          · cases h
            refine ⟨hshape, ?_⟩
            intro s hs
            simp only [Option.getD_some] at hs
            rcases (mem_foldl_setAdd
              (fun cs => lexicographicalGrid (applyCached g2.copy cr cs)) cached [] s).mp hs
              with h3 | ⟨cs, hcs, he⟩
            · cases h3
            · exact ⟨applyCached g2.copy cr cs,
                sameShape_trans hshape (applyCached_shape g2 cr cs), he⟩
        · rename_i h2
          split at h
          · cases h
          · cases h
          · rename_i r3 st3 g3 h3
            have hbl := branchLoop_strings (resolveWithAssumptions n) gr
              (fun s => ∃ g4, sameShape gr g4 ∧ s = lexicographicalGrid g4)
              (fun rem4 st4 r4 st5 g5 h4 s hs => (ih rem4 gr.copy st4 h4).2 s hs)
              (getAssumedPossibilitiesFromAnArea m) _ [] (by simp) h3
            cases h
            refine ⟨hshape, ?_⟩
            intro s hs
            have hs2 : s ∈ r3.getD [] := by
              split at hs
              · simp at hs
              · simpa using hs
            rcases hbl s hs2 with ⟨g4, hg4, he⟩
            exact ⟨g4, sameShape_trans hshape hg4, he⟩

/-! ## Claim C2: length and void tokens of solution strings -/

theorem lexicographicalGrid_length (g : Grid) :
    (lexicographicalGrid g).length = 2 * (g.size.height * g.size.width) := by
  rw [lexicographicalGrid_eq_flatten, flatten_length_two, List.length_map, rowMajor_length]
  intro t ht
  simp only [List.mem_map] at ht
  rcases ht with ⟨c, _, hc⟩
  by_cases hm : g.activeMask c.y c.x <;> simp [← hc, hm, pad2_length, VOID_TOKEN_length]

theorem lexicographicalGrid_tokAt (g : Grid) {c : Coord} (hc : inBounds g c) :
    tokAt (lexicographicalGrid g) (c.y * g.size.width + c.x) =
      if g.activeMask c.y c.x then
        pad2 ((alGet (seenAfter g (rowMajor g.size.height g.size.width) [])
          (g.cells c.y c.x)).getD 0)
      else VOID_TOKEN := by
  rw [lexicographicalGrid_eq_flatten]
  apply tokAt_flatten
  · intro t ht
    simp only [List.mem_map] at ht
    rcases ht with ⟨c2, _, hc2⟩
    by_cases hm : g.activeMask c2.y c2.x <;> simp [← hc2, hm, pad2_length, VOID_TOKEN_length]
  · rw [List.getElem?_map, rowMajor_getElem hc.1 hc.2]
    rfl

/-- The solution set of a solver outcome (`null`, a thrown error and fuel
exhaustion all give `none`). -/
def RWAOut.strings : RWAOut → Option (List Str)
  | .out r _ _ => r
  | _ => none

theorem RWAOut.strings_eq {o : RWAOut} {r : List Str} (h : o.strings = some r) :
    ∃ st2 g2, o = .out (some r) st2 g2 := by
  cases o with
  | fuelOut => simp [RWAOut.strings] at h
  | thrown => simp [RWAOut.strings] at h
  | out r2 st2 g2 =>
    simp only [RWAOut.strings] at h
    exact ⟨st2, g2, by rw [h]⟩

/-- Every string returned by `shikakuSolve` is the canonical string of a grid
of the board's shape. -/
theorem shikakuSolve_strings {g : Grid} {st : SolverState} {r : List Str}
    (h : (shikakuSolve st g).strings = some r) :
    ∀ s ∈ r, ∃ g3, sameShape g g3 ∧ s = lexicographicalGrid g3 := by
  rcases RWAOut.strings_eq h with ⟨st2, g2, ho⟩
  intro s hs
  have := (rwa_strings _ _ _ _ ho).2 s (by simpa using hs)
  exact this

/-- C2: every string returned by `solve` has length exactly `2·H·W`, and its
2-character token at the row-major index of a cell is `"--"` if and only if
that cell is void. -/
theorem C2_solution_length_and_void_tokens
    (g : Grid) (st : SolverState) (r : List Str) (s : Str)
    (h : (shikakuSolve st g).strings = some r) (hs : s ∈ r) :
    s.length = 2 * (g.size.height * g.size.width) ∧
    ∀ c, inBounds g c →
      (tokAt s (c.y * g.size.width + c.x) = VOID_TOKEN ↔
        g.activeMask c.y c.x = false) := by
  rcases shikakuSolve_strings h s hs with ⟨g3, hsh, hse⟩
  obtain ⟨hsz, hareas, hmask⟩ := hsh
  subst hse
  constructor
  · rw [lexicographicalGrid_length, ← hsz]
  · intro c hc
    have hc3 : inBounds g3 c := by
      unfold inBounds at hc ⊢
      rw [← hsz]
      exact hc
    have ht := lexicographicalGrid_tokAt g3 hc3
    rw [← hsz, ← hmask] at ht
    rw [ht]
    by_cases hm : g.activeMask c.y c.x
    · rw [if_pos hm]
      simp [pad2_ne_void, hm]
    · rw [if_neg hm]
      simp [Bool.not_eq_true _ ▸ hm]

/-- A 2×2 board with the single clue 4 at the origin. -/
def demoGrid22 : Grid :=
  { size := ⟨2, 2⟩
    areas := [(⟨0, 0⟩, 4)]
    cells := fun _ _ => 0
    activeMask := fun y x => decide (y < 2) && decide (x < 2) }

/-- C2 witness: the concrete 2×2 board with clue 4 solves to `"00000000"`,
whose length is 8 and whose token at cell (0,0) is not `"--"`. -/
theorem C2_solution_length_and_void_tokens_witness :
    (['0', '0', '0', '0', '0', '0', '0', '0'] : Str).length =
      2 * (demoGrid22.size.height * demoGrid22.size.width) ∧
    (tokAt ['0', '0', '0', '0', '0', '0', '0', '0'] (0 * demoGrid22.size.width + 0) =
        VOID_TOKEN ↔ demoGrid22.activeMask 0 0 = false) :=
  ⟨(C2_solution_length_and_void_tokens demoGrid22 ⟨1, []⟩
      [['0', '0', '0', '0', '0', '0', '0', '0']] _ (by decide) (by decide)).1,
   (C2_solution_length_and_void_tokens demoGrid22 ⟨1, []⟩
      [['0', '0', '0', '0', '0', '0', '0', '0']] _ (by decide) (by decide)).2
     ⟨0, 0⟩ (by decide)⟩

/-! ## Claim C4: canonical invariance under rectangle-ID renaming -/

/-- Two same-shaped assignments induce the same partition of the active cells:
two active cells share a rectangle ID in one exactly when they do in the
other. -/
def samePartition (g1 g2 : Grid) : Prop :=
  ∀ c d, inBounds g1 c → inBounds g1 d →
    g1.activeMask c.y c.x = true → g1.activeMask d.y d.x = true →
    (g1.cells c.y c.x = g1.cells d.y d.x ↔ g2.cells c.y c.x = g2.cells d.y d.x)

/-- The first-seen bisimulation invariant between the two walks'
`rectanglesLetter` maps. -/
def SeenRel (g1 g2 : Grid) (seen1 seen2 : List (Nat × Nat)) : Prop :=
  seen1.length = seen2.length ∧
  ∀ c, inBounds g1 c → g1.activeMask c.y c.x = true →
    ((alGet seen1 (g1.cells c.y c.x) = none ∧ alGet seen2 (g2.cells c.y c.x) = none) ∨
     ∃ lab, alGet seen1 (g1.cells c.y c.x) = some lab ∧
       alGet seen2 (g2.cells c.y c.x) = some lab)

theorem lexWalk_bisim (g1 g2 : Grid)
    (hmask : ∀ c, inBounds g1 c → g1.activeMask c.y c.x = g2.activeMask c.y c.x)
    (hpart : samePartition g1 g2) :
    ∀ (l : List Coord) (i1 i2 : Nat) (seen1 seen2 : List (Nat × Nat)),
      i1 = seen1.length → i2 = seen2.length →
      (∀ c ∈ l, inBounds g1 c) → SeenRel g1 g2 seen1 seen2 →
      lexWalk g1 l i1 seen1 = lexWalk g2 l i2 seen2 := by
  intro l
  induction l with
  | nil => intro i1 i2 seen1 seen2 _ _ _ _; simp [lexWalk]
  | cons c rest ih =>
    intro i1 i2 seen1 seen2 hi1 hi2 hl hrel
    have hc : inBounds g1 c := hl c (List.mem_cons_self c rest)
    have hrest : ∀ d ∈ rest, inBounds g1 d := fun d hd => hl d (List.mem_cons_of_mem c hd)
    have hii : i1 = i2 := by rw [hi1, hi2, hrel.1]
    unfold lexWalk
    by_cases hm : g1.activeMask c.y c.x
    · rw [if_pos hm, if_pos ((hmask c hc) ▸ hm)]
      rcases hrel.2 c hc hm with ⟨hn1, hn2⟩ | ⟨lab, hs1, hs2⟩
      · have hinv : SeenRel g1 g2 (seen1 ++ [(g1.cells c.y c.x, i1 % 100)])
            (seen2 ++ [(g2.cells c.y c.x, i2 % 100)]) := by
          constructor
          · simp [hrel.1]
          · intro d hd hmd
            rw [alGet_append, alGet_append]
            rcases hrel.2 d hd hmd with ⟨hd1, hd2⟩ | ⟨lab2, hd1, hd2⟩
            · rw [hd1, hd2]
              by_cases he : g1.cells d.y d.x = g1.cells c.y c.x
              · have he2 : g2.cells d.y d.x = g2.cells c.y c.x :=
                  (hpart d c hd hc hmd hm).mp he
                right
                refine ⟨i1 % 100, ?_, ?_⟩
                · simp [alGet, he.symm]
                · rw [hii]; simp [alGet, he2.symm]
              · have he2 : ¬ g2.cells d.y d.x = g2.cells c.y c.x :=
                  fun h => he ((hpart d c hd hc hmd hm).mpr h)
                left
                constructor
                · simp only [alGet]
                  rw [if_neg (fun h => he h.symm)]
                · simp only [alGet]
                  rw [if_neg (fun h => he2 h.symm)]
            · right
              exact ⟨lab2, by rw [hd1], by rw [hd2]⟩
        have hnext := ih (i1 + 1) (i2 + 1)
          (seen1 ++ [(g1.cells c.y c.x, i1 % 100)])
          (seen2 ++ [(g2.cells c.y c.x, i2 % 100)])
          (by simp [hi1]) (by simp [hi2]) hrest hinv
        rw [hii] at hnext
        simp only [hn1, hn2, hii, hnext]
      · simp only [hs1, hs2]
        exact congrArg _ (ih i1 i2 seen1 seen2 hi1 hi2 hrest hrel)
    · rw [if_neg hm, if_neg (fun h => hm ((hmask c hc) ▸ h))]
      exact congrArg _ (ih i1 i2 seen1 seen2 hi1 hi2 hrest hrel)

/-- Same partition (plus same shape data) gives the same canonical string. -/
theorem lexicographicalGrid_samePartition (g1 g2 : Grid)
    (hsz : g1.size = g2.size)
    (hmask : ∀ c, inBounds g1 c → g1.activeMask c.y c.x = g2.activeMask c.y c.x)
    (hpart : samePartition g1 g2) :
    lexicographicalGrid g1 = lexicographicalGrid g2 := by
  unfold lexicographicalGrid
  rw [← hsz]
  have h := lexWalk_bisim g1 g2 hmask hpart
    (rowMajor g1.size.height g1.size.width) 0 0 [] [] rfl rfl
    (fun c hc => by
      rw [rowMajor_mem] at hc
      exact ⟨hc.1, hc.2⟩)
    ⟨rfl, fun c _ _ => Or.inl ⟨rfl, rfl⟩⟩
  exact congrArg List.flatten h

/-- C4: the canonicalizer is invariant under injective renaming of rectangle
IDs, and consequently the solution set of `solve` never contains two distinct
strings representing the same partition (any two member strings arising as
canonical strings of same-partition assignments are equal). -/
theorem C4_canonical_renaming_invariance :
    (∀ (g1 g2 : Grid) (f : Nat → Nat), g1.size = g2.size →
      (∀ c, inBounds g1 c → g1.activeMask c.y c.x = g2.activeMask c.y c.x) →
      Function.Injective f →
      (∀ c, inBounds g1 c → g2.cells c.y c.x = f (g1.cells c.y c.x)) →
      lexicographicalGrid g1 = lexicographicalGrid g2) ∧
    (∀ (g : Grid) (st : SolverState) (r : List Str) (s1 s2 : Str),
      (shikakuSolve st g).strings = some r → s1 ∈ r → s2 ∈ r →
      (∃ g3 g4, s1 = lexicographicalGrid g3 ∧ s2 = lexicographicalGrid g4 ∧
        g3.size = g4.size ∧
        (∀ c, inBounds g3 c → g3.activeMask c.y c.x = g4.activeMask c.y c.x) ∧
        samePartition g3 g4) →
      s1 = s2) := by
  constructor
  · intro g1 g2 f hsz hmask hinj hcells
    apply lexicographicalGrid_samePartition g1 g2 hsz hmask
    intro c d hc hd _ _
    rw [hcells c hc, hcells d hd]
    exact ⟨fun h => h ▸ rfl, fun h => hinj h⟩
  · rintro g st r s1 s2 _ _ _ ⟨g3, g4, h1, h2, hsz, hmask, hpart⟩
    rw [h1, h2]
    exact lexicographicalGrid_samePartition g3 g4 hsz hmask hpart

/-- A 1×1 grid with the given constant assignment. -/
def demoConstGrid (v : Nat) : Grid :=
  { size := ⟨1, 1⟩
    areas := [(⟨0, 0⟩, 1)]
    cells := fun _ _ => v
    activeMask := fun y x => decide (y < 1) && decide (x < 1) }

/-- C4 witness: renaming the single rectangle ID 3 to 4 (via the injective
successor function) keeps the canonical string. -/
theorem C4_canonical_renaming_invariance_witness :
    lexicographicalGrid (demoConstGrid 3) = lexicographicalGrid (demoConstGrid 4) :=
  C4_canonical_renaming_invariance.1 (demoConstGrid 3) (demoConstGrid 4) Nat.succ
    rfl (fun _ _ => rfl) (fun a b h => Nat.succ_injective h) (fun c _ => rfl)

/-! ## Claim C6: the initial candidate generation -/

theorem getDivisors_mem {n p q : Nat} :
    (p, q) ∈ getDivisors n ↔ 1 ≤ p ∧ p * q = n ∧ p ≤ q := by
  unfold getDivisors
  simp only [List.mem_filterMap, List.mem_range]
  constructor
  · rintro ⟨j, hj, hif⟩
    split at hif
    · rename_i hcond
      cases hif
      have hd : (j + 1) ∣ n := Nat.dvd_of_mod_eq_zero hcond.2
      refine ⟨by omega, Nat.mul_div_cancel' hd, ?_⟩
      rw [Nat.le_div_iff_mul_le (by omega)]
      exact hcond.1
    · cases hif
  · rintro ⟨hp, hpq, hle⟩
    have hq1 : 1 ≤ q := by
      rcases Nat.eq_zero_or_pos q with h | h
      · subst h; omega
      · exact h
    have hpn : p ≤ n := by
      calc p = p * 1 := (Nat.mul_one p).symm
        _ ≤ p * q := Nat.mul_le_mul_left p hq1
        _ = n := hpq
    refine ⟨p - 1, by omega, ?_⟩
    have hpe : p - 1 + 1 = p := by omega
    rw [hpe]
    have hmod : n % p = 0 := Nat.dvd_iff_mod_eq_zero.mp ⟨q, hpq.symm⟩
    rw [if_pos ⟨by calc p * p ≤ p * q := Nat.mul_le_mul_left p hle
                  _ = n := hpq, hmod⟩]
    have hdiv : n / p = q := by
      rw [← hpq, Nat.mul_div_cancel_left q (by omega)]
    rw [hdiv]

theorem getAvailablePlaces_orient_mem {g : Grid} {a : Coord} {W0 H0 : Nat} {p : Possibility} :
    (p ∈ (List.range W0).flatMap fun w =>
      (List.range H0).filterMap fun h =>
        if h ≤ a.y ∧ w ≤ a.x ∧ (a.x - w) + W0 ≤ g.size.width ∧
            (a.y - h) + H0 ≤ g.size.height then
          let q : Possibility := ⟨⟨a.y - h, a.x - w⟩, ⟨H0, W0⟩⟩
          if coversOnlyActiveCells q g && !isAnotherAreaInfoInRectangle q a g
          then some q else none
        else none) ↔
      (p.size = ⟨H0, W0⟩ ∧ pCells p a ∧
       p.start.y + p.size.height ≤ g.size.height ∧
       p.start.x + p.size.width ≤ g.size.width ∧
       coversOnlyActiveCells p g = true ∧
       isAnotherAreaInfoInRectangle p a g = false) := by
  simp only [List.mem_flatMap, List.mem_filterMap, List.mem_range]
  constructor
  · rintro ⟨w, hw, h, hh, hif⟩
    split at hif
    · rename_i hguard
      split at hif
      · rename_i hcond
        cases hif
        rw [Bool.and_eq_true, Bool.not_eq_true'] at hcond
        refine ⟨rfl, ?_, ?_, ?_, hcond.1, hcond.2⟩
        · refine ⟨?_, ?_, ?_, ?_⟩ <;> (dsimp only; omega)
        · dsimp only
          omega
        · dsimp only
          omega
      · cases hif
    · cases hif
  · rintro ⟨hsz, hcell, hby, hbx, hcov, hnot⟩
    obtain ⟨⟨sy, sx⟩, psz⟩ := p
    cases hsz
    obtain ⟨h1, h2, h3, h4⟩ := hcell
    dsimp only at h1 h2 h3 h4 hby hbx
    refine ⟨a.x - sx, by omega, a.y - sy, by omega, ?_⟩
    rw [if_pos (by refine ⟨by omega, by omega, by omega, by omega⟩)]
    have hEq : (⟨⟨a.y - (a.y - sy), a.x - (a.x - sx)⟩, ⟨H0, W0⟩⟩ : Possibility) =
        ⟨⟨sy, sx⟩, ⟨H0, W0⟩⟩ := by
      have e1 : a.y - (a.y - sy) = sy := by omega
      have e2 : a.x - (a.x - sx) = sx := by omega
      rw [e1, e2]
    rw [hEq, if_pos]
    rw [Bool.and_eq_true, Bool.not_eq_true']
    exact ⟨hcov, hnot⟩

theorem getAvailablePlaces_mem {g : Grid} {a : Coord} {d1 d2 : Nat} {p : Possibility} :
    p ∈ getAvailablePlaces g a (d1, d2) ↔
      ((p.size = ⟨d2, d1⟩ ∨ (d1 ≠ d2 ∧ p.size = ⟨d1, d2⟩)) ∧ pCells p a ∧
       p.start.y + p.size.height ≤ g.size.height ∧
       p.start.x + p.size.width ≤ g.size.width ∧
       coversOnlyActiveCells p g = true ∧
       isAnotherAreaInfoInRectangle p a g = false) := by
  unfold getAvailablePlaces
  dsimp only
  by_cases hsq : d1 = d2
  · rw [if_pos hsq]
    rw [getAvailablePlaces_orient_mem]
    subst hsq
    constructor
    · rintro ⟨h1, h⟩; exact ⟨Or.inl h1, h⟩
    · rintro ⟨h1 | ⟨hne, h1⟩, h⟩
      · exact ⟨h1, h⟩
      · exact absurd rfl hne
  · rw [if_neg hsq, List.mem_append, getAvailablePlaces_orient_mem,
      getAvailablePlaces_orient_mem]
    constructor
    · rintro (⟨h1, h⟩ | ⟨h1, h⟩)
      · exact ⟨Or.inl h1, h⟩
      · exact ⟨Or.inr ⟨hsq, h1⟩, h⟩
    · rintro ⟨h1 | ⟨_, h1⟩, h⟩
      · exact Or.inl ⟨h1, h⟩
      · exact Or.inr ⟨h1, h⟩

theorem initialPossibilitiesCalculation_get {g : Grid}
    (hnd : (g.areas.map Prod.fst).Nodup) {a : Coord} {v : Nat}
    (ha : (a, v) ∈ g.areas) :
    alGet (initialPossibilitiesCalculation g) a =
      some ((getDivisors v).flatMap fun d => getAvailablePlaces g a d) := by
  apply alGet_eq_some_of_mem
  · unfold initialPossibilitiesCalculation
    rw [List.map_map]
    exact hnd
  · unfold initialPossibilitiesCalculation
    exact List.mem_map_of_mem _ ha

/-- C6: a rectangle is in the initial candidate list of clue `(a, v)` exactly
when it lies within bounds, covers only active cells, contains `a`, contains
no other clue, and has area `v`. -/
theorem C6_initial_candidates_characterization (g : Grid)
    (hnd : (g.areas.map Prod.fst).Nodup) (a : Coord) (v : Nat)
    (ha : (a, v) ∈ g.areas) (p : Possibility) :
    p ∈ (alGet (initialPossibilitiesCalculation g) a).getD [] ↔
      ValidCand g a v p := by
  rw [initialPossibilitiesCalculation_get hnd ha, Option.getD_some]
  simp only [List.mem_flatMap]
  constructor
  · rintro ⟨⟨d1, d2⟩, hd, hp⟩
    rw [getDivisors_mem] at hd
    rw [getAvailablePlaces_mem] at hp
    obtain ⟨hsz, hcell, hby, hbx, hcov, hnot⟩ := hp
    refine ⟨hby, hbx, coversOnlyActiveCells_iff.mp hcov, hcell, ?_, ?_⟩
    · intro b w hb hpb
      by_contra hne
      have : isAnotherAreaInfoInRectangle p a g = true :=
        isAnotherAreaInfoInRectangle_iff.mpr ⟨b, w, hb, hne, hpb⟩
      rw [this] at hnot
      cases hnot
    · rcases hsz with h | ⟨_, h⟩
      · rw [h]
        dsimp only
        rw [Nat.mul_comm]
        exact hd.2.1
      · rw [h]
        exact hd.2.1
  · intro hv
    obtain ⟨hby, hbx, hact, hcell, hno, harea⟩ := hv
    have hh1 : 1 ≤ p.size.height := by
      obtain ⟨e1, e2, e3, e4⟩ := hcell
      omega
    have hw1 : 1 ≤ p.size.width := by
      obtain ⟨e1, e2, e3, e4⟩ := hcell
      omega
    have hcov : coversOnlyActiveCells p g = true := coversOnlyActiveCells_iff.mpr hact
    have hnot : isAnotherAreaInfoInRectangle p a g = false := by
      rw [← Bool.not_eq_true, isAnotherAreaInfoInRectangle_iff]
      rintro ⟨b, w, hb, hne, hpb⟩
      exact hne (hno b w hb hpb)
    by_cases hhw : p.size.width ≤ p.size.height
    · refine ⟨(p.size.width, p.size.height), ?_, ?_⟩
      · rw [getDivisors_mem]
        exact ⟨hw1, by rw [Nat.mul_comm]; exact harea, hhw⟩
      · rw [getAvailablePlaces_mem]
        exact ⟨Or.inl rfl, hcell, hby, hbx, hcov, hnot⟩
    · refine ⟨(p.size.height, p.size.width), ?_, ?_⟩
      · rw [getDivisors_mem]
        exact ⟨hh1, harea, by omega⟩
      · rw [getAvailablePlaces_mem]
        exact ⟨Or.inr ⟨by omega, rfl⟩, hcell, hby, hbx, hcov, hnot⟩

/-- C6 witness: the 2×2 square candidate for the clue 4 on the 2×2 demo board
is valid. -/
theorem C6_initial_candidates_characterization_witness :
    ValidCand demoGrid22 ⟨0, 0⟩ 4 ⟨⟨0, 0⟩, ⟨2, 2⟩⟩ :=
  (C6_initial_candidates_characterization demoGrid22 (by decide) ⟨0, 0⟩ 4
    (by decide) ⟨⟨0, 0⟩, ⟨2, 2⟩⟩).mp (by decide)

/-! ## Claim C8: the branching-clue choice -/

/-- Strict lexicographic order on coordinates `(y, x)`. -/
def lexLT (c d : Coord) : Prop := c.y < d.y ∨ (c.y = d.y ∧ c.x < d.x)

instance (c d : Coord) : Decidable (lexLT c d) := by
  unfold lexLT; infer_instance

/-- The `reduce` of `getAreaCandidate`, with the maximum-area map abstracted. -/
def reduceMaxKey (B : Coord → Option Nat) (rest : List Coord) (k0 : Coord) : Coord :=
  rest.foldl (fun maxKey key => if optGt (B key) (B maxKey) then key else maxKey) k0

theorem getAreaCandidate_eq {m : RMap} {k0 : Coord} {rest : List Coord}
    (h : (m.filter fun e => e.2.length == minLenOf m).map Prod.fst = k0 :: rest) :
    getAreaCandidate m =
      reduceMaxKey (fun k => maxAreaOf ((alGet m k).getD [])) rest k0 := by
  unfold getAreaCandidate reduceMaxKey
  simp only [h]

theorem minLenOf_le {m : RMap} : ∀ e ∈ m, minLenOf m ≤ e.2.length := by
  cases m with
  | nil => intro e he; cases he
  | cons e0 t =>
    unfold minLenOf
    have hgen : ∀ (l : List (Coord × List Possibility)) (init : Nat),
        (l.foldl (fun a x => min a x.2.length) init ≤ init) ∧
        ∀ e ∈ l, l.foldl (fun a x => min a x.2.length) init ≤ e.2.length := by
      intro l
      induction l with
      | nil => intro init; exact ⟨le_refl _, fun e he => absurd he (List.not_mem_nil e)⟩
      | cons x t2 ih =>
        intro init
        refine ⟨le_trans (ih _).1 (Nat.min_le_left _ _), ?_⟩
        intro e he
        rcases List.mem_cons.mp he with he | he
        · subst he
          exact le_trans (ih _).1 (Nat.min_le_right _ _)
        · exact (ih _).2 e he
    intro e he
    rcases List.mem_cons.mp he with he | he
    · subst he
      exact (hgen t _).1
    · exact (hgen t _).2 e he

theorem maxAreaOf_isSome {ps : List Possibility} (h : ps ≠ []) :
    ∃ n, maxAreaOf ps = some n := by
  cases ps with
  | nil => exact absurd rfl h
  | cons p t =>
    unfold maxAreaOf
    have hgen : ∀ (l : List Possibility) (a : Nat),
        ∃ n, l.foldl (fun acc q =>
          match acc with
          | none => some (q.size.height * q.size.width)
          | some b => some (max b (q.size.height * q.size.width))) (some a) = some n := by
      intro l
      induction l with
      | nil => intro a; exact ⟨a, rfl⟩
      | cons q t2 ih => intro a; exact ih _
    simpa using hgen t (p.size.height * p.size.width)

theorem maxAreaOf_spec {ps : List Possibility} {n : Nat} (h : maxAreaOf ps = some n) :
    (∀ q ∈ ps, q.size.height * q.size.width ≤ n) ∧
    ∃ q ∈ ps, q.size.height * q.size.width = n := by
  have hgen : ∀ (l : List Possibility) (a : Nat) (nn : Nat),
      l.foldl (fun acc q =>
        match acc with
        | none => some (q.size.height * q.size.width)
        | some b => some (max b (q.size.height * q.size.width))) (some a) = some nn →
      (a ≤ nn ∧ (∀ q ∈ l, q.size.height * q.size.width ≤ nn) ∧
       (a = nn ∨ ∃ q ∈ l, q.size.height * q.size.width = nn)) := by
    intro l
    induction l with
    | nil =>
      intro a nn hl
      simp only [List.foldl_nil, Option.some.injEq] at hl
      exact ⟨le_of_eq hl, fun q hq => absurd hq (List.not_mem_nil q), Or.inl hl⟩
    | cons q t2 ih =>
      intro a nn hl
      simp only [List.foldl_cons] at hl
      rcases ih _ _ hl with ⟨h1, h2, h3⟩
      refine ⟨le_trans (Nat.le_max_left _ _) h1, ?_, ?_⟩
      · intro q2 hq2
        rcases List.mem_cons.mp hq2 with hq2 | hq2
        · subst hq2
          exact le_trans (Nat.le_max_right _ _) h1
        · exact h2 q2 hq2
      · rcases h3 with h3 | ⟨q2, hq2, he⟩
        · rcases max_choice a (q.size.height * q.size.width) with hm | hm
          · left; rw [← h3, hm]
          · right; exact ⟨q, List.mem_cons_self q t2, by rw [← hm]; exact h3⟩
        · right; exact ⟨q2, List.mem_cons_of_mem q hq2, he⟩
  cases ps with
  | nil => simp [maxAreaOf] at h
  | cons p t =>
    unfold maxAreaOf at h
    simp only [List.foldl_cons] at h
    rcases hgen t _ _ h with ⟨h1, h2, h3⟩
    refine ⟨?_, ?_⟩
    · intro q hq
      rcases List.mem_cons.mp hq with hq | hq
      · subst hq; exact h1
      · exact h2 q hq
    · rcases h3 with h3 | ⟨q2, hq2, he⟩
      · exact ⟨p, List.mem_cons_self p t, h3⟩
      · exact ⟨q2, List.mem_cons_of_mem p hq2, he⟩

theorem reduceMaxKey_spec (B : Coord → Option Nat) (R : Coord → Coord → Prop) :
    ∀ (rest : List Coord) (k0 : Coord),
      (∀ k ∈ k0 :: rest, (B k).isSome = true) →
      List.Pairwise R (k0 :: rest) →
      (reduceMaxKey B rest k0 ∈ k0 :: rest) ∧
      (∀ k ∈ k0 :: rest, (B k).getD 0 ≤ (B (reduceMaxKey B rest k0)).getD 0) ∧
      (∀ k ∈ k0 :: rest, (B k).getD 0 = (B (reduceMaxKey B rest k0)).getD 0 →
        k = reduceMaxKey B rest k0 ∨ R (reduceMaxKey B rest k0) k) ∧
      (reduceMaxKey B rest k0 = k0 ∨ (B k0).getD 0 < (B (reduceMaxKey B rest k0)).getD 0) := by
  intro rest
  induction rest with
  | nil =>
    intro k0 _ _
    refine ⟨List.mem_cons_self _ _, ?_, ?_, Or.inl rfl⟩
    · intro k hk
      rcases List.mem_cons.mp hk with hk | hk
      · subst hk; exact le_refl _
      · cases hk
    · intro k hk _
      rcases List.mem_cons.mp hk with hk | hk
      · exact Or.inl hk
      · cases hk
  | cons k rest2 ih =>
    intro k0 hsome hpw
    obtain ⟨n0, hn0⟩ := Option.isSome_iff_exists.mp (hsome k0 (List.mem_cons_self _ _))
    obtain ⟨nk, hnk⟩ := Option.isSome_iff_exists.mp
      (hsome k (List.mem_cons_of_mem _ (List.mem_cons_self _ _)))
    have hred : reduceMaxKey B (k :: rest2) k0 =
        reduceMaxKey B rest2 (if optGt (B k) (B k0) then k else k0) := by
      unfold reduceMaxKey
      rw [List.foldl_cons]
    have hgt : optGt (B k) (B k0) = decide (n0 < nk) := by
      rw [hnk, hn0]; rfl
    by_cases hlt : n0 < nk
    · rw [hred, if_pos (by rw [hgt]; exact decide_eq_true hlt)]
      have hpw2 : List.Pairwise R (k :: rest2) := hpw.tail
      have hsome2 : ∀ k2 ∈ k :: rest2, (B k2).isSome = true := fun k2 hk2 =>
        hsome k2 (List.mem_cons_of_mem _ hk2)
      rcases ih k hsome2 hpw2 with ⟨hmem, hmax, hfirst, hbase⟩
      refine ⟨List.mem_cons_of_mem _ hmem, ?_, ?_, ?_⟩
      · intro k2 hk2
        rcases List.mem_cons.mp hk2 with hk2 | hk2
        · subst hk2
          calc (B k2).getD 0 = n0 := by rw [hn0]; rfl
            _ ≤ nk := le_of_lt hlt
            _ = (B k).getD 0 := by rw [hnk]; rfl
            _ ≤ _ := hmax k (List.mem_cons_self _ _)
        · exact hmax k2 hk2
      · intro k2 hk2 he
        rcases List.mem_cons.mp hk2 with hk2 | hk2
        · subst hk2
          exfalso
          have h1 : (B k2).getD 0 = n0 := by rw [hn0]; rfl
          have h2 : nk = (B k).getD 0 := by rw [hnk]; rfl
          have h3 := hmax k (List.mem_cons_self _ _)
          omega
        · exact hfirst k2 hk2 he
      · right
        have h1 : (B k0).getD 0 = n0 := by rw [hn0]; rfl
        have h2 : nk = (B k).getD 0 := by rw [hnk]; rfl
        have h3 := hmax k (List.mem_cons_self _ _)
        rcases hbase with hb | hb
        · have h4 : (B (reduceMaxKey B rest2 k)).getD 0 = (B k).getD 0 := by rw [hb]
          omega
        · omega
    · rw [hred, if_neg (by rw [hgt]; simp [hlt])]
      have hpw2 : List.Pairwise R (k0 :: rest2) := by
        rcases List.pairwise_cons.mp hpw with ⟨hk0, hpwt⟩
        rcases List.pairwise_cons.mp hpwt with ⟨_, hpw3⟩
        exact List.pairwise_cons.mpr
          ⟨fun d hd => hk0 d (List.mem_cons_of_mem _ hd), hpw3⟩
      have hsome2 : ∀ k2 ∈ k0 :: rest2, (B k2).isSome = true := by
        intro k2 hk2
        rcases List.mem_cons.mp hk2 with hk2 | hk2
        · subst hk2; exact hsome _ (List.mem_cons_self _ _)
        · exact hsome k2 (List.mem_cons_of_mem _ (List.mem_cons_of_mem _ hk2))
      rcases ih k0 hsome2 hpw2 with ⟨hmem, hmax, hfirst, hbase⟩
      have hRk0k : R k0 k := (List.pairwise_cons.mp hpw).1 k (List.mem_cons_self _ _)
      refine ⟨?_, ?_, ?_, hbase⟩
      · rcases List.mem_cons.mp hmem with hm | hm
        · exact List.mem_cons.mpr (Or.inl hm)
        · exact List.mem_cons_of_mem _ (List.mem_cons_of_mem _ hm)
      · intro k2 hk2
        rcases List.mem_cons.mp hk2 with hk2 | hk2
        · subst hk2; exact hmax _ (List.mem_cons_self _ _)
        · rcases List.mem_cons.mp hk2 with hk2 | hk2
          · subst hk2
            have h1 : (B k2).getD 0 = nk := by rw [hnk]; rfl
            have h2 : n0 = (B k0).getD 0 := by rw [hn0]; rfl
            have h3 := hmax k0 (List.mem_cons_self _ _)
            omega
          · exact hmax k2 (List.mem_cons_of_mem _ hk2)
      · intro k2 hk2 he
        rcases List.mem_cons.mp hk2 with hk2 | hk2
        · subst hk2; exact hfirst k2 (List.mem_cons_self _ _) he
        · rcases List.mem_cons.mp hk2 with hk2 | hk2
          · subst hk2
            rcases hbase with hb | hb
            · right; rw [hb]; exact hRk0k
            · exfalso
              have h1 : (B k2).getD 0 = nk := by rw [hnk]; rfl
              have h2 : n0 = (B k0).getD 0 := by rw [hn0]; rfl
              omega
          · exact hfirst k2 (List.mem_cons_of_mem _ hk2) he

theorem mem_filterMap_minKeys {m : RMap} {a : Coord} :
    a ∈ (m.filter fun e => e.2.length == minLenOf m).map Prod.fst ↔
      ∃ ps, (a, ps) ∈ m ∧ ps.length = minLenOf m := by
  simp only [List.mem_map, List.mem_filter, beq_iff_eq]
  constructor
  · rintro ⟨e, ⟨hm, hl⟩, he⟩
    exact ⟨e.2, by rw [← he]; exact hm, hl⟩
  · rintro ⟨ps, hm, hl⟩
    exact ⟨(a, ps), ⟨hm, hl⟩, rfl⟩

theorem minLenOf_attained {m : RMap} (h : m ≠ []) :
    ∃ e ∈ m, e.2.length = minLenOf m := by
  cases m with
  | nil => exact absurd rfl h
  | cons e0 t =>
    unfold minLenOf
    have hgen : ∀ (l : List (Coord × List Possibility)) (init : Nat),
        l.foldl (fun a x => min a x.2.length) init = init ∨
        ∃ e ∈ l, l.foldl (fun a x => min a x.2.length) init = e.2.length := by
      intro l
      induction l with
      | nil => intro init; exact Or.inl rfl
      | cons x t2 ih =>
        intro init
        rcases ih (min init x.2.length) with hc | ⟨e, he, hc⟩
        · rcases min_choice init x.2.length with hm | hm
          · left; rw [List.foldl_cons, hc, hm]
          · right
            exact ⟨x, List.mem_cons_self x t2, by rw [List.foldl_cons, hc, hm]⟩
        · right
          exact ⟨e, List.mem_cons_of_mem x he, by rw [List.foldl_cons]; exact hc⟩
    rcases hgen t e0.2.length with hc | ⟨e, he, hc⟩
    · exact ⟨e0, List.mem_cons_self e0 t, hc.symm⟩
    · exact ⟨e, List.mem_cons_of_mem e0 he, hc.symm⟩

/-- The `reduce` of `getAreaCandidate` without any ordering hypothesis: the
key list splits into a prefix of keys with strictly smaller value, the
result itself, and a suffix of keys with no larger value — the result is
the first key attaining the maximum (`reduce` keeps the earlier key on
ties). -/
theorem reduceMaxKey_first (B : Coord → Option Nat) :
    ∀ (rest : List Coord) (k0 : Coord),
      (∀ k ∈ k0 :: rest, (B k).isSome = true) →
      ∃ l1 l2, k0 :: rest = l1 ++ reduceMaxKey B rest k0 :: l2 ∧
        (∀ k ∈ k0 :: rest, (B k).getD 0 ≤ (B (reduceMaxKey B rest k0)).getD 0) ∧
        ∀ k ∈ l1, (B k).getD 0 < (B (reduceMaxKey B rest k0)).getD 0 := by
  intro rest
  induction rest with
  | nil =>
    intro k0 _
    refine ⟨[], [], rfl, ?_, ?_⟩
    · intro k hk
      rcases List.mem_cons.mp hk with hk | hk
      · subst hk
        exact le_refl _
      · cases hk
    · intro k hk
      cases hk
  | cons k rest2 ih =>
    intro k0 hsome
    obtain ⟨n0, hn0⟩ := Option.isSome_iff_exists.mp (hsome k0 (List.mem_cons_self _ _))
    obtain ⟨nk, hnk⟩ := Option.isSome_iff_exists.mp
      (hsome k (List.mem_cons_of_mem _ (List.mem_cons_self _ _)))
    have hred : reduceMaxKey B (k :: rest2) k0 =
        reduceMaxKey B rest2 (if optGt (B k) (B k0) then k else k0) := by
      unfold reduceMaxKey
      rw [List.foldl_cons]
    have hgt : optGt (B k) (B k0) = decide (n0 < nk) := by
      rw [hnk, hn0]
      rfl
    by_cases hlt : n0 < nk
    · rw [hred, if_pos (by rw [hgt]; exact decide_eq_true hlt)]
      have hsome2 : ∀ k2 ∈ k :: rest2, (B k2).isSome = true := fun k2 hk2 =>
        hsome k2 (List.mem_cons_of_mem _ hk2)
      rcases ih k hsome2 with ⟨l1, l2, hsplit, hbound, hstrict⟩
      refine ⟨k0 :: l1, l2, ?_, ?_, ?_⟩
      · rw [List.cons_append, ← hsplit]
      · intro k2 hk2
        rcases List.mem_cons.mp hk2 with hk2 | hk2
        · subst hk2
          calc (B k2).getD 0 = n0 := by rw [hn0]; rfl
            _ ≤ nk := le_of_lt hlt
            _ = (B k).getD 0 := by rw [hnk]; rfl
            _ ≤ _ := hbound k (List.mem_cons_self _ _)
        · exact hbound k2 hk2
      · intro k2 hk2
        rcases List.mem_cons.mp hk2 with hk2 | hk2
        · subst hk2
          have h1 : (B k2).getD 0 = n0 := by rw [hn0]; rfl
          have h2 : nk = (B k).getD 0 := by rw [hnk]; rfl
          have h3 := hbound k (List.mem_cons_self _ _)
          omega
        · exact hstrict k2 hk2
    · rw [hred, if_neg (by rw [hgt]; simp [hlt])]
      have hsome2 : ∀ k2 ∈ k0 :: rest2, (B k2).isSome = true := by
        intro k2 hk2
        rcases List.mem_cons.mp hk2 with hk2 | hk2
        · subst hk2
          exact hsome _ (List.mem_cons_self _ _)
        · exact hsome k2 (List.mem_cons_of_mem _ (List.mem_cons_of_mem _ hk2))
      rcases ih k0 hsome2 with ⟨l1, l2, hsplit, hbound, hstrict⟩
      cases l1 with
      | nil =>
        simp only [List.nil_append] at hsplit
        injection hsplit with he1 he2
        refine ⟨[], k :: rest2, ?_, ?_, ?_⟩
        · rw [List.nil_append, ← he1]
        · intro k2 hk2
          rcases List.mem_cons.mp hk2 with hk2 | hk2
          · subst hk2
            exact hbound k2 (List.mem_cons_self _ _)
          · rcases List.mem_cons.mp hk2 with hk2 | hk2
            · subst hk2
              have h1 : (B k2).getD 0 = nk := by rw [hnk]; rfl
              have h2 : n0 = (B k0).getD 0 := by rw [hn0]; rfl
              have h3 := hbound k0 (List.mem_cons_self _ _)
              omega
            · exact hbound k2 (List.mem_cons_of_mem _ hk2)
        · intro k2 hk2
          cases hk2
      | cons x0 l1p =>
        rw [List.cons_append] at hsplit
        injection hsplit with he1 he2
        have hk0strict : (B k0).getD 0 < (B (reduceMaxKey B rest2 k0)).getD 0 := by
          have := hstrict x0 (List.mem_cons_self _ _)
          rw [← he1] at this
          exact this
        refine ⟨k0 :: k :: l1p, l2, ?_, ?_, ?_⟩
        · rw [List.cons_append, List.cons_append, ← he2]
        · intro k2 hk2
          rcases List.mem_cons.mp hk2 with hk2 | hk2
          · subst hk2
            exact hbound k2 (List.mem_cons_self _ _)
          · rcases List.mem_cons.mp hk2 with hk2 | hk2
            · subst hk2
              have h1 : (B k2).getD 0 = nk := by rw [hnk]; rfl
              have h2 : n0 = (B k0).getD 0 := by rw [hn0]; rfl
              have h3 := hbound k0 (List.mem_cons_self _ _)
              omega
            · exact hbound k2 (List.mem_cons_of_mem _ hk2)
        · intro k2 hk2
          rcases List.mem_cons.mp hk2 with hk2 | hk2
          · subst hk2
            exact hk0strict
          · rcases List.mem_cons.mp hk2 with hk2 | hk2
            · subst hk2
              have h1 : (B k2).getD 0 = nk := by rw [hnk]; rfl
              have h2 : n0 = (B k0).getD 0 := by rw [hn0]; rfl
              omega
            · exact hstrict k2 (List.mem_cons_of_mem _ hk2)

/-- C8 (amended): at every branching point (a non-empty remaining map with
distinct clue keys and non-empty candidate lists) the chosen clue has a
candidate list of minimum length; among those no clue has a larger maximum
candidate area; and remaining ties are broken by the map's iteration
(insertion) order: the minimum-length key list, in map order, splits into a
prefix of strictly smaller maximum area, the chosen clue, and a no-larger
suffix — so the chosen clue is the first tied one.  When the clue keys are
in lexicographic order (as the text parser inserts them, but the grid
editor need not) this coincides with the lexicographic `(y, x)` tie-break,
stated as the final conditional conjunct. -/
theorem C8_branching_choice (m : RMap) (hm : m ≠ [])
    (hnd : (m.map Prod.fst).Nodup)
    (hne : ∀ e ∈ m, e.2 ≠ []) :
    (∃ ps, (getAreaCandidate m, ps) ∈ m ∧ ps.length = minLenOf m) ∧
    (∀ e ∈ m, minLenOf m ≤ e.2.length) ∧
    (∀ e ∈ m, e.2.length = minLenOf m →
      (maxAreaOf e.2).getD 0 ≤
        (maxAreaOf ((alGet m (getAreaCandidate m)).getD [])).getD 0) ∧
    (∃ l1 l2,
      (m.filter fun e => e.2.length == minLenOf m).map Prod.fst =
        l1 ++ getAreaCandidate m :: l2 ∧
      ∀ k ∈ l1, (maxAreaOf ((alGet m k).getD [])).getD 0 <
        (maxAreaOf ((alGet m (getAreaCandidate m)).getD [])).getD 0) ∧
    (List.Pairwise lexLT (m.map Prod.fst) →
      ∀ e ∈ m, e.2.length = minLenOf m →
        (maxAreaOf e.2).getD 0 =
          (maxAreaOf ((alGet m (getAreaCandidate m)).getD [])).getD 0 →
        e.1 = getAreaCandidate m ∨ lexLT (getAreaCandidate m) e.1) := by
  rcases minLenOf_attained hm with ⟨e0, he0, hl0⟩
  have hminne : (m.filter fun e => e.2.length == minLenOf m).map Prod.fst ≠ [] := by
    intro hc
    have : e0.1 ∈ (m.filter fun e => e.2.length == minLenOf m).map Prod.fst :=
      mem_filterMap_minKeys.mpr ⟨e0.2, by simpa using he0, hl0⟩
    rw [hc] at this
    cases this
  rcases hk : (m.filter fun e => e.2.length == minLenOf m).map Prod.fst with _ | ⟨k0, rest⟩
  · exact absurd hk hminne
  have hgac := getAreaCandidate_eq hk
  have hsub : List.Sublist ((m.filter fun e => e.2.length == minLenOf m).map Prod.fst)
      (m.map Prod.fst) := (List.filter_sublist m).map Prod.fst
  have hmemMinKeys : ∀ k ∈ k0 :: rest, ∃ ps, (k, ps) ∈ m ∧ ps.length = minLenOf m := by
    intro k hkm
    exact mem_filterMap_minKeys.mp (hk ▸ hkm)
  have hBsome : ∀ k ∈ k0 :: rest,
      ((fun k => maxAreaOf ((alGet m k).getD [])) k).isSome = true := by
    intro k hkm
    rcases hmemMinKeys k hkm with ⟨ps, hps, _⟩
    show (maxAreaOf ((alGet m k).getD [])).isSome = true
    rw [alGet_eq_some_of_mem hnd hps, Option.getD_some]
    rcases maxAreaOf_isSome (hne (k, ps) hps) with ⟨n, hn⟩
    rw [hn]
    rfl
  rcases reduceMaxKey_first (fun k => maxAreaOf ((alGet m k).getD [])) rest k0
    hBsome with ⟨l1, l2, hsplit, hbound, hstrict⟩
  rw [← hgac] at hsplit hbound hstrict
  have hmem : getAreaCandidate m ∈ k0 :: rest := by
    rw [hsplit]
    exact List.mem_append_right _ (List.mem_cons_self _ _)
  refine ⟨hmemMinKeys _ hmem, minLenOf_le, ?_,
    ⟨l1, l2, hk.trans hsplit, hstrict⟩, ?_⟩
  · intro e he hl
    have heK : e.1 ∈ k0 :: rest := by
      rw [← hk]
      exact mem_filterMap_minKeys.mpr ⟨e.2, by simpa using he, hl⟩
    have := hbound e.1 heK
    rwa [alGet_eq_some_of_mem hnd (show (e.1, e.2) ∈ m by simpa using he),
      Option.getD_some] at this
  · intro hsorted e he hl heq
    have hpw : List.Pairwise lexLT (k0 :: rest) := hk ▸ hsorted.sublist hsub
    rcases reduceMaxKey_spec (fun k => maxAreaOf ((alGet m k).getD [])) lexLT rest k0
      hBsome hpw with ⟨-, -, hfirst, -⟩
    rw [← hgac] at hfirst
    have heK : e.1 ∈ k0 :: rest := by
      rw [← hk]
      exact mem_filterMap_minKeys.mpr ⟨e.2, by simpa using he, hl⟩
    apply hfirst e.1 heK
    rwa [alGet_eq_some_of_mem hnd (show (e.1, e.2) ∈ m by simpa using he),
      Option.getD_some]

/-- A concrete remaining map with two tied clues in lexicographic key
order. -/
def demoTieMap : RMap :=
  [(⟨0, 0⟩, [⟨⟨0, 0⟩, ⟨1, 2⟩⟩]), (⟨1, 1⟩, [⟨⟨1, 0⟩, ⟨1, 2⟩⟩])]

/-- C8 witness: on a concrete two-clue map the chosen clue splits the
minimum-length key list as stated, and (the keys being lex-ordered here)
the lexicographic tie-break law applies to the non-chosen clue. -/
theorem C8_branching_choice_witness :
    (∃ l1 l2,
      (demoTieMap.filter fun e => e.2.length == minLenOf demoTieMap).map Prod.fst =
        l1 ++ getAreaCandidate demoTieMap :: l2 ∧
      ∀ k ∈ l1, (maxAreaOf ((alGet demoTieMap k).getD [])).getD 0 <
        (maxAreaOf ((alGet demoTieMap (getAreaCandidate demoTieMap)).getD [])).getD 0) ∧
    ((⟨1, 1⟩ : Coord) = getAreaCandidate demoTieMap ∨
      lexLT (getAreaCandidate demoTieMap) ⟨1, 1⟩) :=
  ⟨(C8_branching_choice demoTieMap (by decide) (by decide) (by decide)).2.2.2.1,
   (C8_branching_choice demoTieMap (by decide) (by decide) (by decide)).2.2.2.2
     (by decide) (⟨1, 1⟩, [⟨⟨1, 0⟩, ⟨1, 2⟩⟩]) (by decide) (by decide) (by decide)⟩

/-- The remaining map at the first branching point of `shikakuSolve` on a
board (the map `resolve` leaves from the initial possibilities), when the
search must branch. -/
def resolvedMapOf (g : Grid) : Option RMap :=
  match resolve (initialPossibilitiesCalculation g) g 1 with
  | .out (some m) _ _ => some m
  | _ => none

/-- A 2×2 board with clues 2 at (1,1) and 2 at (0,0), inserted in
non-row-major order. -/
def demoRev : Grid :=
  { size := ⟨2, 2⟩
    areas := [(⟨1, 1⟩, 2), (⟨0, 0⟩, 2)]
    cells := fun _ _ => 0
    activeMask := fun y x => decide (y < 2) && decide (x < 2) }

/-- C8 counterexample: on `demoRev` the first branching point is reached with
two clues tied on candidate count and maximum area, and the chosen clue is
`(1,1)` — the first in map insertion order — although `(0,0)` is
lexicographically smaller.  This refutes "any remaining ties are broken by
lexicographic order of the clue coordinate (y,x)". -/
theorem C8_counterexample_insertion_order_wins :
    (resolvedMapOf demoRev).isSome = true ∧
    getAreaCandidate ((resolvedMapOf demoRev).getD []) = ⟨1, 1⟩ ∧
    ((alGet ((resolvedMapOf demoRev).getD []) ⟨0, 0⟩).getD []).length =
      minLenOf ((resolvedMapOf demoRev).getD []) ∧
    ((alGet ((resolvedMapOf demoRev).getD []) ⟨1, 1⟩).getD []).length =
      minLenOf ((resolvedMapOf demoRev).getD []) ∧
    maxAreaOf ((alGet ((resolvedMapOf demoRev).getD []) ⟨0, 0⟩).getD []) =
      maxAreaOf ((alGet ((resolvedMapOf demoRev).getD []) ⟨1, 1⟩).getD []) ∧
    lexLT ⟨0, 0⟩ ⟨1, 1⟩ ∧ (⟨0, 0⟩ : Coord) ≠ ⟨1, 1⟩ := by
  refine ⟨?_, ?_, ?_, ?_, ?_, ?_, ?_⟩ <;> decide

/-! ## Claim C7: termination of the propagation fixed-point loop -/

/-- `Submap m pm`: `m` arises from `pm` by deleting some entries and
replacing the remaining candidate lists by sublists, preserving order — the
only transformations propagation applies to the remaining map. -/
inductive Submap : RMap → RMap → Prop
  | nil : Submap [] []
  | skip {m pm : RMap} {e : Coord × List Possibility} :
      Submap m pm → Submap m (e :: pm)
  | keep {m pm : RMap} {a : Coord} {l ps : List Possibility} :
      l.Sublist ps → Submap m pm → Submap ((a, l) :: m) ((a, ps) :: pm)

theorem Submap.keys_sublist {m pm : RMap} (h : Submap m pm) :
    (m.map Prod.fst).Sublist (pm.map Prod.fst) := by
  induction h with
  | nil => exact List.Sublist.refl _
  | skip _ ih => exact ih.cons _
  | keep _ _ ih => exact ih.cons₂ _

theorem Submap_self (m : RMap) : Submap m m := by
  induction m with
  | nil => exact Submap.nil
  | cons e t ih =>
    rw [show e = (e.1, e.2) from rfl]
    exact Submap.keep (List.Sublist.refl _) ih

theorem rmapMeasure_cons (e : Coord × List Possibility) (m : RMap) :
    rmapMeasure (e :: m) = 1 + e.2.length + rmapMeasure m := by
  simp only [rmapMeasure, List.map_cons, List.sum_cons]

theorem Submap.measure_le {m pm : RMap} (h : Submap m pm) :
    rmapMeasure m ≤ rmapMeasure pm := by
  induction h with
  | nil => exact le_refl _
  | skip _ ih =>
    rw [rmapMeasure_cons]
    omega
  | keep hsub _ ih =>
    rw [rmapMeasure_cons, rmapMeasure_cons]
    have := hsub.length_le
    dsimp only at *
    omega

theorem Submap.eq_of_measure {m pm : RMap} (h : Submap m pm)
    (he : rmapMeasure m = rmapMeasure pm) : m = pm := by
  induction h with
  | nil => rfl
  | skip hsub ih =>
    exfalso
    have h1 := hsub.measure_le
    rw [rmapMeasure_cons] at he
    omega
  | keep hsub hrec ih =>
    rw [rmapMeasure_cons, rmapMeasure_cons] at he
    have h1 := hsub.length_le
    have h2 := hrec.measure_le
    dsimp only at he
    have hl : _ = _ := hsub.eq_of_length (by omega)
    rw [hl, ih (by omega)]

theorem Submap_compose {m1 m2 m3 : RMap} (h12 : Submap m1 m2) (h23 : Submap m2 m3) :
    Submap m1 m3 := by
  induction h23 generalizing m1 with
  | nil =>
    cases h12
    exact Submap.nil
  | skip h ih => exact Submap.skip (ih h12)
  | keep hsub h ih =>
    cases h12 with
    | skip h12t => exact Submap.skip (ih h12t)
    | keep hsub2 h12t => exact Submap.keep (hsub2.trans hsub) (ih h12t)

theorem Submap_alDelete {m pm : RMap} (h : Submap m pm) (a : Coord) :
    Submap (alDelete m a) pm := by
  induction h with
  | nil => exact Submap.nil
  | skip h ih => exact Submap.skip ih
  | keep hsub h ih =>
    rename_i m2 pm2 k l ps
    unfold alDelete
    by_cases hk : k = a
    · rw [if_pos hk]
      exact Submap.skip h
    · rw [if_neg hk]
      exact Submap.keep hsub ih

theorem Submap_alSet {m pm : RMap} (h : Submap m pm)
    (hnd : (pm.map Prod.fst).Nodup) {a : Coord} {cur : List Possibility}
    (hget : alGet m a = some cur) {l cps : List Possibility}
    (hbase : alGet pm a = some l) (hsub : cps.Sublist l) :
    Submap (alSet m a cps) pm := by
  induction h with
  | nil => simp [alGet] at hget
  | skip h ih =>
    rename_i m2 pm2 e
    have hne : e.1 ≠ a := by
      intro he
      have hka : a ∈ m2.map Prod.fst := by
        rw [← alGet_isSome_iff, hget]
        rfl
      have hsubk := h.keys_sublist
      have : a ∈ pm2.map Prod.fst := hsubk.mem hka
      rw [List.map_cons, List.nodup_cons] at hnd
      exact hnd.1 (he ▸ this)
    rw [show (e :: pm2) = (e.1, e.2) :: pm2 from rfl] at hbase
    simp only [alGet, if_neg hne] at hbase
    rw [List.map_cons, List.nodup_cons] at hnd
    exact Submap.skip (ih hnd.2 hget hbase)
  | keep hsubl h ih =>
    rename_i m2 pm2 k cl ps
    by_cases hk : k = a
    · subst hk
      simp [alGet] at hbase
      subst hbase
      unfold alSet
      rw [if_pos rfl]
      exact Submap.keep hsub h
    · simp only [alGet, if_neg hk] at hget hbase
      unfold alSet
      rw [if_neg hk]
      rw [List.map_cons, List.nodup_cons] at hnd
      exact Submap.keep hsubl (ih hnd.2 hget hbase)

theorem filterByRectAndFind_ne_fuelOut :
    ∀ (rem : RMap) (g : Grid) (ctr : Nat),
      filterByRectAndFind rem g ctr ≠ .fuelOut := by
  intro rem
  induction rem with
  | nil => intro g ctr h; simp only [filterByRectAndFind] at h; cases h
  | cons e rest ih =>
    intro g ctr h
    rw [show (e :: rest : RMap) = (e.1, e.2) :: rest from rfl] at h
    simp only [filterByRectAndFind] at h
    split at h
    · cases h
    · split at h
      · cases h
      · exact ih _ _ h
    · split at h
      · cases h
      · exact ih _ _ h

theorem filterByCellAndFindLoop_ne_fuelOut :
    ∀ (cp : List (Coord × List (Coord × List Possibility))) (rem : RMap)
      (g : Grid) (ctr : Nat),
      filterByCellAndFindLoop cp rem g ctr ≠ .fuelOut := by
  intro cp
  induction cp with
  | nil => intro rem g ctr h; simp only [filterByCellAndFindLoop] at h; cases h
  | cons e rest ih =>
    intro rem g ctr h
    rw [show (e :: rest) = (e.1, e.2) :: rest from rfl] at h
    simp only [filterByCellAndFindLoop] at h
    split at h
    · split at h
      · cases h
      · split at h
        · split at h
          · split at h
            · split at h
              · cases h
              · exact ih _ _ _ h
            · cases h
          · split at h
            · cases h
            · split at h
              · exact ih _ _ _ h
              · exact ih _ _ _ h
        · exact ih _ _ _ h
      · exact ih _ _ _ h
    · exact ih _ _ _ h

theorem filterByRectAndFind_submap :
    ∀ (rem : RMap) (g : Grid) (ctr : Nat) {m1 : RMap} {g1 : Grid} {c1 : Nat},
      filterByRectAndFind rem g ctr = .out (some m1) g1 c1 → Submap m1 rem := by
  intro rem
  induction rem with
  | nil =>
    intro g ctr m1 g1 c1 h
    simp only [filterByRectAndFind] at h
    cases h
    exact Submap.nil
  | cons e rest ih =>
    intro g ctr m1 g1 c1 h
    rw [show (e :: rest : RMap) = (e.1, e.2) :: rest from rfl] at h
    simp only [filterByRectAndFind] at h
    split at h
    · cases h
    · split at h
      · cases h
      · exact Submap.skip (ih _ _ h)
    · split at h
      · rename_i m2 g3 c3 hrr
        cases h
        exact Submap.keep (List.filter_sublist e.2) (ih _ _ hrr)
      · rename_i hne
        exact absurd h (hne _ _ _)

theorem emptyCellsPossibilities_spec {rem : RMap} {g : Grid}
    (hnd : (rem.map Prod.fst).Nodup) :
    ∀ u inner, (u, inner) ∈ emptyCellsPossibilities rem g →
      ∀ a cps, (a, cps) ∈ inner →
        ∃ l, alGet rem a = some l ∧ cps.Sublist l ∧ cps ≠ [] := by
  intro u inner hui a cps hacps
  unfold emptyCellsPossibilities at hui
  rcases List.mem_map.mp hui with ⟨u2, _, heq⟩
  have hinner : inner = rem.filterMap fun e =>
      let l := e.2.filter fun p => isCellInRectangle u2 p
      if l.isEmpty then none else some (e.1, l) := by
    have := congrArg Prod.snd heq
    simpa using this.symm
  rw [hinner] at hacps
  rcases List.mem_filterMap.mp hacps with ⟨e, he, hife⟩
  dsimp only at hife
  split at hife
  · cases hife
  · rename_i hne
    cases hife
    refine ⟨e.2, ?_, List.filter_sublist e.2, ?_⟩
    · exact alGet_eq_some_of_mem hnd (by simpa using he)
    · intro hc
      rw [hc] at hne
      exact hne rfl

theorem filterByCellAndFindLoop_submap :
    ∀ (cp : List (Coord × List (Coord × List Possibility))) (cur : RMap)
      (g : Grid) (ctr : Nat) (base : RMap)
      (hnd : (base.map Prod.fst).Nodup)
      (hcp : ∀ u inner, (u, inner) ∈ cp → ∀ a cps, (a, cps) ∈ inner →
        ∃ l, alGet base a = some l ∧ cps.Sublist l)
      (hsub : Submap cur base)
      {mF : RMap} {g2 : Grid} {c2 : Nat},
      filterByCellAndFindLoop cp cur g ctr = .out (some mF) g2 c2 →
      Submap mF base := by
  intro cp
  induction cp with
  | nil =>
    intro cur g ctr base hnd hcp hsub mF g2 c2 h
    simp only [filterByCellAndFindLoop] at h
    cases h
    exact hsub
  | cons e rest ih =>
    intro cur g ctr base hnd hcp hsub mF g2 c2 h
    have hcprest : ∀ u inner, (u, inner) ∈ rest → ∀ a cps, (a, cps) ∈ inner →
        ∃ l, alGet base a = some l ∧ cps.Sublist l :=
      fun u inner hui => hcp u inner (List.mem_cons_of_mem _ hui)
    rw [show (e :: rest) = (e.1, e.2) :: rest from rfl] at h
    simp only [filterByCellAndFindLoop] at h
    split at h
    · split at h
      · cases h
      · rename_i a0 cps0 hie
        split at h
        · split at h
          · split at h
            · split at h
              · cases h
              · exact ih _ _ _ base hnd hcprest (Submap_alDelete hsub _) h
            · cases h
          · split at h
            · cases h
            · rename_i cur0 hget
              split at h
              · have hmem2 : (a0, cps0) ∈ e.2 := by
                  rw [hie]
                  exact List.mem_singleton.mpr rfl
                rcases hcp e.1 e.2 (List.mem_cons_self _ _) a0 cps0 hmem2 with
                  ⟨l, hl, hlsub⟩
                exact ih _ _ _ base hnd hcprest
                  (Submap_alSet hsub hnd hget hl hlsub) h
              · exact ih _ _ _ base hnd hcprest hsub h
        · exact ih _ _ _ base hnd hcprest hsub h
      · exact ih _ _ _ base hnd hcprest hsub h
    · exact ih _ _ _ base hnd hcprest hsub h

theorem filterByCellAndFind_submap {rem : RMap} {g : Grid} {ctr : Nat}
    (hnd : (rem.map Prod.fst).Nodup) {mF : RMap} {g2 : Grid} {c2 : Nat}
    (h : filterByCellAndFind rem g ctr = .out (some mF) g2 c2) :
    Submap mF rem := by
  refine filterByCellAndFindLoop_submap _ rem g ctr rem hnd ?_ (Submap_self rem) h
  intro u inner hui a cps hacps
  rcases emptyCellsPossibilities_spec hnd u inner hui a cps hacps with ⟨l, h1, h2, _⟩
  exact ⟨l, h1, h2⟩

theorem mapsEqual_refl {m : RMap} (hnd : (m.map Prod.fst).Nodup) :
    mapsEqual m m = true := by
  unfold mapsEqual
  rw [Bool.and_eq_true]
  refine ⟨by simp, ?_⟩
  rw [List.all_eq_true]
  intro e he
  rw [alGet_eq_some_of_mem hnd (by simpa using he)]
  simp

theorem mapsEqual_eq {m pm : RMap} (hsub : Submap m pm)
    (hnd : (pm.map Prod.fst).Nodup) (he : mapsEqual m pm = true) : m = pm := by
  induction hsub with
  | nil => rfl
  | skip hs ih =>
    exfalso
    rename_i m2 pm2 e
    unfold mapsEqual at he
    rw [Bool.and_eq_true] at he
    have hlen : m2.length = pm2.length + 1 := by
      have := he.1
      simpa using this
    have hle : m2.length ≤ pm2.length := by
      have := hs.keys_sublist.length_le
      simpa using this
    omega
  | keep hsubl hs ih =>
    rename_i m2 pm2 k l ps
    unfold mapsEqual at he
    rw [Bool.and_eq_true, List.all_eq_true] at he
    have hhead := he.2 (k, l) (List.mem_cons_self _ _)
    simp only [alGet, if_pos rfl] at hhead
    have hleq : l.length = ps.length := by
      simpa using hhead
    have hl : l = ps := hsubl.eq_of_length hleq
    subst hl
    rw [List.map_cons, List.nodup_cons] at hnd
    have htail : mapsEqual m2 pm2 = true := by
      unfold mapsEqual
      rw [Bool.and_eq_true, List.all_eq_true]
      constructor
      · have := he.1
        simpa using this
      · intro e hem
        have hkeys := hs.keys_sublist
        have hkne : e.1 ≠ k := by
          intro hc
          apply hnd.1
          rw [← hc]
          exact hkeys.mem (List.mem_map.mpr ⟨e, hem, rfl⟩)
        have := he.2 e (List.mem_cons_of_mem _ hem)
        simp only [alGet, if_neg (fun hh => hkne (Eq.symm hh))] at this
        exact this
    rw [ih hnd.2 htail]

theorem resolvePass_submap {rem : RMap} {g : Grid} {ctr : Nat}
    (hnd : (rem.map Prod.fst).Nodup) {m1 : RMap} {g1 : Grid} {c1 : Nat}
    (h1 : filterByRectAndFind rem g ctr = .out (some m1) g1 c1)
    {m2 : RMap} {g2 : Grid} {c2 : Nat}
    (h2 : filterByCellAndFind m1 g1 c1 = .out (some m2) g2 c2) :
    Submap m2 rem := by
  have hs1 := filterByRectAndFind_submap _ _ _ h1
  have hnd1 : (m1.map Prod.fst).Nodup := hs1.keys_sublist.nodup hnd
  exact Submap_compose (filterByCellAndFind_submap hnd1 h2) hs1

theorem resolveLoop_total :
    ∀ (f : Nat) (prev : Option RMap) (rem : RMap) (g : Grid) (ctr : Nat),
      (rem.map Prod.fst).Nodup → rmapMeasure rem + 2 ≤ f →
      resolveLoop f prev rem g ctr ≠ .fuelOut := by
  intro f
  induction f with
  | zero => intro prev rem g ctr _ hf; omega
  | succ f1 ih =>
    intro prev rem g ctr hnd hf h
    simp only [resolveLoop] at h
    split at h
    · cases h
    · split at h
      · rename_i m1 g1 c1 h1
        split at h
        · rename_i m2 g2 c2 h2
          have hsub := resolvePass_submap hnd h1 h2
          have hnd2 : (m2.map Prod.fst).Nodup := hsub.keys_sublist.nodup hnd
          by_cases heq : mapsEqual m2 rem = true
          · cases f1 with
            | zero => omega
            | succ f2 =>
              simp only [resolveLoop, mapsEqualOpt, heq, if_pos] at h
              cases h
          · have hne : m2 ≠ rem := by
              intro hc
              rw [hc] at heq
              exact heq (mapsEqual_refl hnd)
            have hlt : rmapMeasure m2 < rmapMeasure rem := by
              rcases Nat.lt_or_ge (rmapMeasure m2) (rmapMeasure rem) with hl | hl
              · exact hl
              · exact absurd (hsub.eq_of_measure (le_antisymm hsub.measure_le hl))
                  hne
            exact ih (some rem) m2 g2 c2 hnd2 (by omega) h
        · exact filterByCellAndFindLoop_ne_fuelOut _ _ _ _ h
      · exact filterByRectAndFind_ne_fuelOut _ _ _ h

/-- C7: the propagation fixed-point loop of `resolve` terminates within its
fuel bound; its convergence test `mapsEqual` (same key set, same per-clue
candidate count) detects exactly the absence of change, which is correct
because a propagation pass only ever removes clues or shrinks candidate lists
(`Submap`); and the loop exits at an iteration exactly when `mapsEqual` holds
against the previous snapshot. -/
theorem C7_resolve_terminates_and_test_correct :
    (∀ (rem : RMap) (g : Grid) (ctr : Nat), (rem.map Prod.fst).Nodup →
      resolve rem g ctr ≠ .fuelOut) ∧
    (∀ (rem : RMap) (g : Grid) (ctr : Nat), (rem.map Prod.fst).Nodup →
      ∀ {m1 : RMap} {g1 : Grid} {c1 : Nat},
        filterByRectAndFind rem g ctr = .out (some m1) g1 c1 →
      ∀ {m2 : RMap} {g2 : Grid} {c2 : Nat},
        filterByCellAndFind m1 g1 c1 = .out (some m2) g2 c2 →
      Submap m2 rem) ∧
    (∀ (m pm : RMap), Submap m pm → (pm.map Prod.fst).Nodup →
      (mapsEqual m pm = true ↔ m = pm)) ∧
    (∀ (f : Nat) (prev : Option RMap) (rem : RMap) (g : Grid) (ctr : Nat),
      mapsEqualOpt rem prev = true →
      resolveLoop (f + 1) prev rem g ctr = .out (some rem) g ctr) := by
  refine ⟨?_, ?_, ?_, ?_⟩
  · intro rem g ctr hnd
    exact resolveLoop_total _ none rem g ctr hnd (le_refl _)
  · intro rem g ctr hnd m1 g1 c1 h1 m2 g2 c2 h2
    exact resolvePass_submap hnd h1 h2
  · intro m pm hsub hnd
    constructor
    · exact mapsEqual_eq hsub hnd
    · rintro rfl
      exact mapsEqual_refl hnd
  · intro f prev rem g ctr heq
    simp only [resolveLoop, heq, if_pos]

/-- C7 witness: the loop terminates on the concrete tie map, whose pass
leaves it unchanged, and the convergence test agrees. -/
theorem C7_resolve_terminates_and_test_correct_witness :
    resolve demoTieMap demoGrid22 1 ≠ .fuelOut ∧
    (mapsEqual demoTieMap demoTieMap = true ↔ demoTieMap = demoTieMap) := by
  constructor
  · exact C7_resolve_terminates_and_test_correct.1 demoTieMap demoGrid22 1 (by decide)
  · exact C7_resolve_terminates_and_test_correct.2.2.1 demoTieMap demoTieMap
      (Submap_self demoTieMap) (by decide)

/-! ## Grid-evolution invariants (propagation only fills fresh rectangles) -/

/-- Between two solver states, cells only change from `0` to a fresh ID in
`[c, c2)`, and the counter does not decrease. -/
def CellsEvolve (g g2 : Grid) (c c2 : Nat) : Prop :=
  c ≤ c2 ∧
  ∀ y x, g2.cells y x = g.cells y x ∨
    (g.cells y x = 0 ∧ c ≤ g2.cells y x ∧ g2.cells y x < c2)

/-- Every counter value consumed during the step appears on some in-bounds
cell afterwards. -/
def NewIds (g2 : Grid) (c c2 : Nat) : Prop :=
  ∀ k, c ≤ k → k < c2 → ∃ c0 : Coord, inBounds g2 c0 ∧ g2.cells c0.y c0.x = k

theorem CellsEvolve_stay (g : Grid) (c : Nat) : CellsEvolve g g c c :=
  ⟨le_refl _, fun _ _ => Or.inl rfl⟩

theorem NewIds_stay (g : Grid) (c : Nat) : NewIds g c c :=
  fun k hk1 hk2 => absurd (lt_of_le_of_lt hk1 hk2) (lt_irrefl c)

theorem CellsEvolve_comp {g1 g2 g3 : Grid} {c1 c2 c3 : Nat}
    (h12 : CellsEvolve g1 g2 c1 c2) (h23 : CellsEvolve g2 g3 c2 c3) :
    CellsEvolve g1 g3 c1 c3 := by
  refine ⟨le_trans h12.1 h23.1, ?_⟩
  intro y x
  rcases h23.2 y x with h | ⟨hz, hlo, hhi⟩
  · rcases h12.2 y x with h2 | ⟨hz2, hlo2, hhi2⟩
    · exact Or.inl (h.trans h2)
    · exact Or.inr ⟨hz2, by rw [h]; omega, by rw [h]; exact lt_of_lt_of_le hhi2 h23.1⟩
  · rcases h12.2 y x with h2 | ⟨hz2, hlo2, hhi2⟩
    · exact Or.inr ⟨h2 ▸ hz, le_trans h12.1 hlo, hhi⟩
    · exact Or.inr ⟨hz2, by omega, hhi⟩

theorem NewIds.join {g2 g3 : Grid} {c1 c2 c3 : Nat}
    (h2 : NewIds g2 c1 c2) (h3 : NewIds g3 c2 c3)
    (hev : CellsEvolve g2 g3 c2 c3) (hpos : 1 ≤ c1)
    (hsh : g2.size = g3.size) : NewIds g3 c1 c3 := by
  intro k hk1 hk2
  by_cases hk : k < c2
  · rcases h2 k hk1 hk with ⟨c0, hb, hc⟩
    refine ⟨c0, by rw [inBounds, ← hsh]; exact hb, ?_⟩
    rcases hev.2 c0.y c0.x with h | ⟨hz, _, _⟩
    · rw [h, hc]
    · rw [hc] at hz
      omega
  · exact h3 k (by omega) hk2

theorem ValidCand_shape {g g2 : Grid} (hsh : sameShape g g2) {a : Coord} {v : Nat}
    {p : Possibility} (h : ValidCand g a v p) : ValidCand g2 a v p := by
  obtain ⟨hsz, har, hmask⟩ := hsh
  exact ⟨hsz ▸ h.boundY, hsz ▸ h.boundX,
    fun c hc => hmask ▸ h.active c hc, h.hasClue,
    fun b w hb hp => h.noOther b w (har ▸ hb) hp, h.area⟩

theorem GoodRect_shape {g g2 : Grid} (hsh : sameShape g g2) {p : Possibility}
    (h : GoodRect g p) : GoodRect g2 p := by
  obtain ⟨hsz, har, hmask⟩ := hsh
  refine ⟨hsz ▸ h.boundY, hsz ▸ h.boundX, fun c hc => hmask ▸ h.active c hc, ?_⟩
  rcases h.clue with ⟨a, v, hav, hpa, hval, huniq⟩
  exact ⟨a, v, har ▸ hav, hpa, hval, fun b w hb hp => huniq b w (har ▸ hb) hp⟩

theorem pCells_inBounds {g : Grid} {a : Coord} {v : Nat} {p : Possibility}
    (hval : ValidCand g a v p) {c : Coord} (hc : pCells p c) : inBounds g c := by
  obtain ⟨h1, h2, h3, h4⟩ := hc
  exact ⟨by have := hval.boundY; omega, by have := hval.boundX; omega⟩

/-- Placing a zone-free valid candidate preserves the board invariants and
consumes exactly one fresh ID. -/
theorem place_preserves {g : Grid} {ctr : Nat} {a : Coord} {v : Nat} {p : Possibility}
    (hgg : GoodGrid g ctr) (hmem : (a, v) ∈ g.areas) (hval : ValidCand g a v p)
    (hfree : isZoneFree p g = true) (hctr : 1 ≤ ctr) :
    addRectangle p g ctr = some (fillRect g p ctr, ctr + 1) ∧
    GoodGrid (fillRect g p ctr) (ctr + 1) ∧
    CellsEvolve g (fillRect g p ctr) ctr (ctr + 1) ∧
    (∃ c0 : Coord, inBounds g c0 ∧ (fillRect g p ctr).cells c0.y c0.x = ctr) ∧
    (∀ b w, (b, w) ∈ g.areas → b ≠ a →
      (fillRect g p ctr).cells b.y b.x = g.cells b.y b.x) := by
  rcases isZoneFree_iff.mp hfree with ⟨hact, hzero⟩
  have hadd : addRectangle p g ctr = some (fillRect g p ctr, ctr + 1) := by
    unfold addRectangle
    rw [if_pos (rectAllActive_eq p g ▸ coversOnlyActiveCells_iff.mpr hact)]
  refine ⟨hadd, ?_, ?_, ?_, ?_⟩
  · constructor
    · intro c hc
      rw [fillRect_cells]
      split
      · omega
      · have := hgg.1 c hc
        omega
    · intro id hid hex
      by_cases hide : id = ctr
      · subst hide
        refine ⟨p, ?_, ?_⟩
        · refine ⟨hval.boundY, hval.boundX, fun c hc => hval.active c hc, ?_⟩
          exact ⟨a, v, hmem, hval.hasClue, hval.area,
            fun b w hb hp => hval.noOther b w hb hp⟩
        · intro c hc
          rw [fillRect_cells]
          split
          · rename_i hp
            simp only [iff_true_intro hp]
          · rename_i hp
            have := hgg.1 c hc
            constructor
            · intro hcc
              omega
            · intro hcc
              exact absurd hcc hp
      · rcases hex with ⟨c1, hc1, hcc1⟩
        rw [fillRect_cells] at hcc1
        have hold : g.cells c1.y c1.x = id := by
          by_cases hp : pCells p ⟨c1.y, c1.x⟩
          · rw [if_pos hp] at hcc1
            exact absurd hcc1.symm hide
          · rwa [if_neg hp] at hcc1
        rcases hgg.2 id hid ⟨c1, hc1, hold⟩ with ⟨q, hq, hqc⟩
        refine ⟨q, GoodRect_shape (fillRect_shape g p ctr) hq, ?_⟩
        intro c hc
        rw [fillRect_cells]
        split
        · rename_i hp
          have hz := hzero c hp
          constructor
          · intro hcc
            exact absurd hcc.symm hide
          · intro hcc
            have := (hqc c hc).mpr hcc
            rw [hz] at this
            omega
        · exact hqc c hc
  · refine ⟨by omega, ?_⟩
    intro y x
    rw [fillRect_cells]
    split
    · rename_i hp
      exact Or.inr ⟨hzero ⟨y, x⟩ hp, le_refl _, by omega⟩
    · exact Or.inl rfl
  · refine ⟨a, pCells_inBounds hval hval.hasClue, ?_⟩
    rw [fillRect_cells]
    rw [if_pos]
    exact hval.hasClue
  · intro b w hb hne
    rw [fillRect_cells]
    rw [if_neg]
    intro hp
    exact hne (hval.noOther b w hb hp)

theorem alDelete_keys_mem {α β : Type} [DecidableEq α] {l : List (α × β)} {k b : α}
    (hne : b ≠ k) (hm : b ∈ l.map Prod.fst) : b ∈ (alDelete l k).map Prod.fst := by
  induction l with
  | nil => cases hm
  | cons e t ih =>
    rw [List.map_cons, List.mem_cons] at hm
    by_cases he : e.1 = k
    · simp only [alDelete, if_pos he]
      rcases hm with h | h
      · exact absurd (h.trans he) hne
      · exact h
    · simp only [alDelete, if_neg he, List.map_cons, List.mem_cons]
      rcases hm with h | h
      · exact Or.inl h
      · exact Or.inr (ih h)

theorem alDelete_measure_le (l : RMap) (k : Coord) :
    rmapMeasure (alDelete l k) ≤ rmapMeasure l := by
  induction l with
  | nil => simp [alDelete]
  | cons e t ih =>
    by_cases he : e.1 = k
    · simp only [alDelete, if_pos he, rmapMeasure_cons]
      omega
    · simp only [alDelete, if_neg he, rmapMeasure_cons]
      omega

theorem alDelete_measure_lt {l : RMap} {k : Coord}
    (hm : k ∈ l.map Prod.fst) : rmapMeasure (alDelete l k) < rmapMeasure l := by
  induction l with
  | nil => cases hm
  | cons e t ih =>
    rw [List.map_cons, List.mem_cons] at hm
    by_cases he : e.1 = k
    · simp only [alDelete, if_pos he, rmapMeasure_cons]
      omega
    · simp only [alDelete, if_neg he, rmapMeasure_cons]
      rcases hm with h | h
      · exact absurd h.symm he
      · have := ih h
        omega

theorem alSet_measure {l : RMap} {k : Coord} {cur0 : List Possibility}
    (hget : alGet l k = some cur0) (cps : List Possibility) :
    rmapMeasure (alSet l k cps) + cur0.length = rmapMeasure l + cps.length := by
  induction l with
  | nil => simp [alGet] at hget
  | cons e t ih =>
    by_cases he : e.1 = k
    · simp only [alGet, if_pos he] at hget
      cases hget
      simp only [alSet, if_pos he, rmapMeasure_cons]
      omega
    · simp only [alGet, if_neg he] at hget
      simp only [alSet, if_neg he, rmapMeasure_cons]
      have := ih hget
      omega

/-- Master invariant preservation for rule R1 (`filterByRectAndFind`): never
throws; on return the board invariants hold at the new counter, cells only
changed from `0` to fresh IDs, each consumed ID lands on some in-bounds cell,
clue cells of clues outside the map are untouched; a surviving map is again
good, and an unchanged map means the grid and counter are unchanged. -/
theorem filterByRectAndFind_master :
    ∀ (rem : RMap) (g : Grid) (ctr : Nat),
      GoodGrid g ctr → GoodRem g rem → 1 ≤ ctr →
      filterByRectAndFind rem g ctr ≠ .thrown ∧
      ∀ {res : Option RMap} {g2 : Grid} {c2 : Nat},
        filterByRectAndFind rem g ctr = .out res g2 c2 →
        GoodGrid g2 c2 ∧ CellsEvolve g g2 ctr c2 ∧ NewIds g2 ctr c2 ∧ 1 ≤ c2 ∧
        (∀ b w, (b, w) ∈ g.areas → ¬ b ∈ rem.map Prod.fst →
          g2.cells b.y b.x = g.cells b.y b.x) ∧
        ∀ {m1 : RMap}, res = some m1 →
          GoodRem g2 m1 ∧ (m1 = rem → g2 = g ∧ c2 = ctr) := by
  intro rem
  induction rem with
  | nil =>
    intro g ctr hgg hrem hctr
    constructor
    · intro h
      simp only [filterByRectAndFind] at h
      cases h
    · intro res g2 c2 h
      simp only [filterByRectAndFind] at h
      cases h
      refine ⟨hgg, CellsEvolve_stay g ctr, NewIds_stay g ctr, hctr,
        fun b w _ _ => rfl, ?_⟩
      intro m1 hm1
      cases hm1
      exact ⟨⟨by simp, fun b qs hm => absurd hm (List.not_mem_nil _)⟩,
        fun _ => ⟨rfl, rfl⟩⟩
  | cons e rest ih =>
    obtain ⟨a, ps⟩ := e
    intro g ctr hgg hrem hctr
    obtain ⟨hnd0, hgr⟩ := hrem
    simp only [List.map_cons, List.nodup_cons] at hnd0
    obtain ⟨hcell, v, hv, hvps⟩ := hgr a ps (List.mem_cons_self _ _)
    have hremrest : GoodRem g rest :=
      ⟨hnd0.2, fun b qs hm => hgr b qs (List.mem_cons_of_mem _ hm)⟩
    have hfl : ∀ p ∈ ps.filter (fun p => isZoneFree p g), ValidCand g a v p ∧
        isZoneFree p g = true := by
      intro p hp
      rw [List.mem_filter] at hp
      exact ⟨hvps p hp.1, hp.2⟩
    have hrem3 : ∀ p, ValidCand g a v p → GoodRem (fillRect g p ctr) rest := by
      intro p hvp
      refine ⟨hnd0.2, ?_⟩
      intro b qs hm
      obtain ⟨hb0, w, hw, hwps⟩ := hgr b qs (List.mem_cons_of_mem _ hm)
      have hbne : b ≠ a := by
        intro hc
        exact hnd0.1 (hc ▸ List.mem_map.mpr ⟨(b, qs), hm, rfl⟩)
      refine ⟨?_, w, hw,
        fun q hq => ValidCand_shape (fillRect_shape g p ctr) (hwps q hq)⟩
      rw [fillRect_cells, if_neg]
      · exact hb0
      · intro hp
        exact hbne (hvp.noOther b w hw hp)
    constructor
    · intro h
      simp only [filterByRectAndFind] at h
      split at h
      · cases h
      · rename_i p heq
        have hpm : p ∈ ps.filter (fun p => isZoneFree p g) := by
          rw [heq]; exact List.mem_singleton.mpr rfl
        obtain ⟨hvp, hfree⟩ := hfl p hpm
        obtain ⟨hadd, hgg3, -, -, -⟩ := place_preserves hgg hv hvp hfree hctr
        split at h
        · rename_i hnone
          rw [hadd] at hnone
          cases hnone
        · rename_i g3 c3 haddr
          rw [hadd] at haddr
          cases haddr
          exact (ih _ _ hgg3 (hrem3 p hvp) (by omega)).1 h
      · split at h
        · cases h
        · exact (ih g ctr hgg hremrest hctr).1 h
    · intro res g2 c2 h
      simp only [filterByRectAndFind] at h
      split at h
      · cases h
        refine ⟨hgg, CellsEvolve_stay _ _, NewIds_stay _ _, hctr,
          fun b w _ _ => rfl, ?_⟩
        intro m1 hm1
        cases hm1
      · rename_i p heq
        have hpm : p ∈ ps.filter (fun p => isZoneFree p g) := by
          rw [heq]; exact List.mem_singleton.mpr rfl
        obtain ⟨hvp, hfree⟩ := hfl p hpm
        obtain ⟨hadd, hgg3, hev3, hnew3, hpres3⟩ := place_preserves hgg hv hvp hfree hctr
        split at h
        · cases h
        · rename_i g3 c3 haddr
          rw [hadd] at haddr
          cases haddr
          obtain ⟨-, hout⟩ := ih _ _ hgg3 (hrem3 p hvp) (by omega)
          obtain ⟨hgg2, hev2, hnew2, hc2, hpres2, hsome⟩ := hout h
          have hsh3 : (fillRect g p ctr).size = g2.size :=
            (filterByRectAndFind_shape rest _ _ h).1
          refine ⟨hgg2, CellsEvolve_comp hev3 hev2, ?_, by omega, ?_, ?_⟩
          · refine NewIds.join ?_ hnew2 hev2 hctr hsh3
            intro k hk1 hk2
            have hkc : k = ctr := by omega
            subst hkc
            obtain ⟨c0, hb0, hcc0⟩ := hnew3
            exact ⟨c0, hb0, hcc0⟩
          · intro b w hbw hnm
            have hbne : b ≠ a := by
              intro hc
              exact hnm (by rw [List.map_cons, hc]; exact List.mem_cons_self _ _)
            have hnrest : ¬ b ∈ rest.map Prod.fst := by
              intro hc
              exact hnm (by rw [List.map_cons]; exact List.mem_cons_of_mem _ hc)
            rw [hpres2 b w hbw hnrest, hpres3 b w hbw hbne]
          · intro m1 hm1
            obtain ⟨hgrem2, -⟩ := hsome hm1
            refine ⟨hgrem2, ?_⟩
            intro hid
            exfalso
            subst hid
            rw [hm1] at h
            have hsubm := filterByRectAndFind_submap rest _ _ h
            exact hnd0.1 (hsubm.keys_sublist.mem
              (by rw [List.map_cons]; exact List.mem_cons_self _ _))
      · split at h
        · rename_i m g4 c4 hrr
          cases h
          obtain ⟨-, hout⟩ := ih g ctr hgg hremrest hctr
          obtain ⟨hgg2, hev2, hnew2, hc2, hpres2, hsome⟩ := hout hrr
          refine ⟨hgg2, hev2, hnew2, hc2, ?_, ?_⟩
          · intro b w hbw hnm
            refine hpres2 b w hbw ?_
            intro hc
            exact hnm (by rw [List.map_cons]; exact List.mem_cons_of_mem _ hc)
          · intro m1 hm1
            cases hm1
            obtain ⟨hgrm, hidm⟩ := hsome rfl
            have hsh := filterByRectAndFind_shape rest g ctr hrr
            constructor
            · constructor
              · rw [List.map_cons, List.nodup_cons]
                refine ⟨?_, hgrm.1⟩
                intro hc
                have hsubm := filterByRectAndFind_submap rest g ctr hrr
                exact hnd0.1 (hsubm.keys_sublist.mem hc)
              · intro b qs hm
                rcases List.mem_cons.mp hm with hhd | htl
                · cases hhd
                  refine ⟨?_, v, hsh.2.1 ▸ hv, ?_⟩
                  · rw [hpres2 a v hv hnd0.1]
                    exact hcell
                  · intro q hq
                    exact ValidCand_shape hsh (hfl q hq).1
                · exact hgrm.2 b qs htl
            · intro hid
              have hinj := List.cons.inj hid
              exact hidm hinj.2
        · rename_i hne
          obtain ⟨-, hout⟩ := ih g ctr hgg hremrest hctr
          obtain ⟨hgg2, hev2, hnew2, hc2, hpres2, hsome⟩ := hout h
          refine ⟨hgg2, hev2, hnew2, hc2, ?_, ?_⟩
          · intro b w hbw hnm
            refine hpres2 b w hbw ?_
            intro hc
            exact hnm (by rw [List.map_cons]; exact List.mem_cons_of_mem _ hc)
          · intro m1 hm1
            subst hm1
            exact absurd h (hne _ _ _)

/-- Master invariant preservation for rule R2's loop
(`filterByCellAndFindLoop`): under the stale-snapshot hypotheses (every
snapshot candidate is valid, and every snapshot clue whose cell is still
empty is a key of the evolving map) it never throws; on return the
invariants hold, cells only gained fresh IDs, each consumed ID lands on an
in-bounds cell, clue cells outside the map are untouched, a surviving map is
good with non-increasing measure, and an unchanged map means nothing
happened and no snapshot cell had an empty usage map. -/
theorem filterByCellAndFindLoop_master :
    ∀ (cp : List (Coord × List (Coord × List Possibility))) (cur : RMap)
      (g : Grid) (ctr : Nat),
      GoodGrid g ctr → GoodRem g cur → 1 ≤ ctr →
      (∀ u inner, (u, inner) ∈ cp → ∀ a cps, (a, cps) ∈ inner →
        ∃ v, (a, v) ∈ g.areas ∧ ∀ p ∈ cps, ValidCand g a v p) →
      (∀ u inner, (u, inner) ∈ cp → ∀ a cps, (a, cps) ∈ inner →
        g.cells a.y a.x = 0 → a ∈ cur.map Prod.fst) →
      filterByCellAndFindLoop cp cur g ctr ≠ .thrown ∧
      ∀ {res : Option RMap} {g2 : Grid} {c2 : Nat},
        filterByCellAndFindLoop cp cur g ctr = .out res g2 c2 →
        GoodGrid g2 c2 ∧ CellsEvolve g g2 ctr c2 ∧ NewIds g2 ctr c2 ∧ 1 ≤ c2 ∧
        (∀ b w, (b, w) ∈ g.areas → ¬ b ∈ cur.map Prod.fst →
          g2.cells b.y b.x = g.cells b.y b.x) ∧
        ∀ {mF : RMap}, res = some mF →
          GoodRem g2 mF ∧ rmapMeasure mF ≤ rmapMeasure cur ∧
          (mF = cur → g2 = g ∧ c2 = ctr ∧
            ∀ u inner, (u, inner) ∈ cp → g.cells u.y u.x = 0 → inner ≠ []) := by
  intro cp
  induction cp with
  | nil =>
    intro cur g ctr hgg hrem hctr hcp hkk
    constructor
    · intro h
      simp only [filterByCellAndFindLoop] at h
      cases h
    · intro res g2 c2 h
      simp only [filterByCellAndFindLoop] at h
      cases h
      refine ⟨hgg, CellsEvolve_stay _ _, NewIds_stay _ _, hctr,
        fun b w _ _ => rfl, ?_⟩
      intro mF hmF
      cases hmF
      exact ⟨hrem, le_refl _,
        fun _ => ⟨rfl, rfl, fun u inner hm => absurd hm (List.not_mem_nil _)⟩⟩
  | cons e rest ih =>
    obtain ⟨u, inner⟩ := e
    intro cur g ctr hgg hrem hctr hcp hkk
    obtain ⟨hndcur, hgr⟩ := hrem
    have hcprest : ∀ u2 inner2, (u2, inner2) ∈ rest → ∀ a cps, (a, cps) ∈ inner2 →
        ∃ v, (a, v) ∈ g.areas ∧ ∀ p ∈ cps, ValidCand g a v p :=
      fun u2 i2 hm => hcp u2 i2 (List.mem_cons_of_mem _ hm)
    have hkkrest : ∀ u2 inner2, (u2, inner2) ∈ rest → ∀ a cps, (a, cps) ∈ inner2 →
        g.cells a.y a.x = 0 → a ∈ cur.map Prod.fst :=
      fun u2 i2 hm => hkk u2 i2 (List.mem_cons_of_mem _ hm)
    have hrec : (g.cells u.y u.x = 0 → inner ≠ []) →
        (filterByCellAndFindLoop rest cur g ctr ≠ .thrown ∧
         ∀ {res : Option RMap} {g2 : Grid} {c2 : Nat},
           filterByCellAndFindLoop rest cur g ctr = .out res g2 c2 →
           GoodGrid g2 c2 ∧ CellsEvolve g g2 ctr c2 ∧ NewIds g2 ctr c2 ∧ 1 ≤ c2 ∧
           (∀ b w, (b, w) ∈ g.areas → ¬ b ∈ cur.map Prod.fst →
             g2.cells b.y b.x = g.cells b.y b.x) ∧
           ∀ {mF : RMap}, res = some mF →
             GoodRem g2 mF ∧ rmapMeasure mF ≤ rmapMeasure cur ∧
             (mF = cur → g2 = g ∧ c2 = ctr ∧
               ∀ u2 inner2, (u2, inner2) ∈ (u, inner) :: rest →
                 g.cells u2.y u2.x = 0 → inner2 ≠ [])) := by
      intro hhead
      obtain ⟨ih1, ih2⟩ := ih cur g ctr hgg ⟨hndcur, hgr⟩ hctr hcprest hkkrest
      refine ⟨ih1, ?_⟩
      intro res g2 c2 h
      obtain ⟨hgg2, hev2, hnew2, hc2, hpres2, hsome⟩ := ih2 h
      refine ⟨hgg2, hev2, hnew2, hc2, hpres2, ?_⟩
      intro mF hmF
      obtain ⟨hgrm, hmeas, hidf⟩ := hsome hmF
      refine ⟨hgrm, hmeas, ?_⟩
      intro hid
      obtain ⟨hg, hc, hcov⟩ := hidf hid
      refine ⟨hg, hc, ?_⟩
      intro u2 inner2 hm hu02
      rcases List.mem_cons.mp hm with hhd | htl
      · cases hhd
        exact hhead hu02
      · exact hcov u2 inner2 htl hu02
    simp only [filterByCellAndFindLoop]
    split
    · rename_i hu0
      split
      · refine ⟨nofun, ?_⟩
        intro res g2 c2 h
        cases h
        refine ⟨hgg, CellsEvolve_stay _ _, NewIds_stay _ _, hctr,
          fun b w _ _ => rfl, ?_⟩
        intro mF hmF
        cases hmF
      · rename_i a0 cps0
        obtain ⟨v, hv0, hvcps⟩ := hcp u [(a0, cps0)] (List.mem_cons_self _ _)
          a0 cps0 (List.mem_singleton.mpr rfl)
        split
        · rename_i ha0
          have ha0in : a0 ∈ cur.map Prod.fst :=
            hkk u [(a0, cps0)] (List.mem_cons_self _ _) a0 cps0
              (List.mem_singleton.mpr rfl) ha0
          split
          · rename_i q
            have hvq : ValidCand g a0 v q := hvcps q (List.mem_singleton.mpr rfl)
            split
            · rename_i hfree
              obtain ⟨hadd, hgg3, hev3, hnew3, hpres3⟩ :=
                place_preserves hgg hv0 hvq hfree hctr
              have hrem3 : GoodRem (fillRect g q ctr) (alDelete cur a0) := by
                refine ⟨alDelete_nodup hndcur, ?_⟩
                intro b qs hm
                have hmc := alDelete_mem hm
                obtain ⟨hb0, w, hw, hwv⟩ := hgr b qs hmc
                have hbne : b ≠ a0 := by
                  intro hc
                  subst hc
                  exact alDelete_not_mem hndcur hm
                refine ⟨?_, w, hw,
                  fun p hp => ValidCand_shape (fillRect_shape g q ctr) (hwv p hp)⟩
                rw [fillRect_cells, if_neg]
                · exact hb0
                · intro hp
                  exact hbne (hvq.noOther b w hw hp)
              have hcp3 : ∀ u2 inner2, (u2, inner2) ∈ rest →
                  ∀ b cps2, (b, cps2) ∈ inner2 →
                  ∃ w, (b, w) ∈ (fillRect g q ctr).areas ∧
                    ∀ p ∈ cps2, ValidCand (fillRect g q ctr) b w p := by
                intro u2 inner2 hm b cps2 hbm
                obtain ⟨w, hw, hwv⟩ := hcprest u2 inner2 hm b cps2 hbm
                exact ⟨w, hw,
                  fun p hp => ValidCand_shape (fillRect_shape g q ctr) (hwv p hp)⟩
              have hkk3 : ∀ u2 inner2, (u2, inner2) ∈ rest →
                  ∀ b cps2, (b, cps2) ∈ inner2 →
                  (fillRect g q ctr).cells b.y b.x = 0 →
                  b ∈ (alDelete cur a0).map Prod.fst := by
                intro u2 inner2 hm b cps2 hbm hb0
                rw [fillRect_cells] at hb0
                by_cases hp : pCells q ⟨b.y, b.x⟩
                · rw [if_pos hp] at hb0
                  omega
                · rw [if_neg hp] at hb0
                  have hbne : b ≠ a0 := by
                    intro hc
                    subst hc
                    exact hp hvq.hasClue
                  exact alDelete_keys_mem hbne (hkkrest u2 inner2 hm b cps2 hbm hb0)
              obtain ⟨ih1, ih2⟩ := ih (alDelete cur a0) (fillRect g q ctr) (ctr + 1)
                hgg3 hrem3 (by omega) hcp3 hkk3
              split
              · rename_i hnone
                rw [hadd] at hnone
                cases hnone
              · rename_i g3 c3 haddr
                rw [hadd] at haddr
                cases haddr
                constructor
                · exact ih1
                · intro res g2 c2 h
                  obtain ⟨hgg2, hev2, hnew2, hc2, hpres2, hsome⟩ := ih2 h
                  have hsh3 : (fillRect g q ctr).size = g2.size :=
                    (filterByCellAndFindLoop_shape rest _ _ _ h).1
                  refine ⟨hgg2, CellsEvolve_comp hev3 hev2, ?_, by omega, ?_, ?_⟩
                  · refine NewIds.join ?_ hnew2 hev2 hctr hsh3
                    intro k hk1 hk2
                    have hkc : k = ctr := by omega
                    subst hkc
                    exact hnew3
                  · intro b w hbw hnm
                    have hbna : b ≠ a0 := fun hc => hnm (hc ▸ ha0in)
                    have hnd2 : ¬ b ∈ (alDelete cur a0).map Prod.fst :=
                      fun hc => hnm ((alDelete_keys_sublist cur a0).mem hc)
                    rw [hpres2 b w hbw hnd2, hpres3 b w hbw hbna]
                  · intro mF hmF
                    obtain ⟨hgrm, hmeas, -⟩ := hsome hmF
                    refine ⟨hgrm, le_trans hmeas (alDelete_measure_le cur a0), ?_⟩
                    intro hid
                    exfalso
                    rw [hid] at hmeas
                    have := alDelete_measure_lt ha0in
                    omega
            · refine ⟨nofun, ?_⟩
              intro res g2 c2 h
              cases h
              refine ⟨hgg, CellsEvolve_stay _ _, NewIds_stay _ _, hctr,
                fun b w _ _ => rfl, ?_⟩
              intro mF hmF
              cases hmF
          · split
            · rename_i hget
              rw [alGet_eq_none_iff] at hget
              exact absurd ha0in hget
            · rename_i cur0 hget
              split
              · rename_i hlen
                have halset := alSet_measure hget cps0
                have hrem4 : GoodRem g (alSet cur a0 cps0) := by
                  constructor
                  · rw [alSet_keys cur a0 cps0 ha0in]
                    exact hndcur
                  · intro b qs hm
                    rcases alSet_mem hm with ⟨hb, hq⟩ | hm2
                    · subst hb
                      subst hq
                      exact ⟨ha0, v, hv0, hvcps⟩
                    · exact hgr b qs hm2
                have hkk4 : ∀ u2 inner2, (u2, inner2) ∈ rest →
                    ∀ b cps2, (b, cps2) ∈ inner2 →
                    g.cells b.y b.x = 0 → b ∈ (alSet cur a0 cps0).map Prod.fst := by
                  intro u2 inner2 hm b cps2 hbm hb0
                  rw [alSet_keys cur a0 cps0 ha0in]
                  exact hkkrest u2 inner2 hm b cps2 hbm hb0
                obtain ⟨ih1, ih2⟩ := ih (alSet cur a0 cps0) g ctr hgg hrem4 hctr
                  hcprest hkk4
                constructor
                · exact ih1
                · intro res g2 c2 h
                  obtain ⟨hgg2, hev2, hnew2, hc2, hpres2, hsome⟩ := ih2 h
                  refine ⟨hgg2, hev2, hnew2, hc2, ?_, ?_⟩
                  · intro b w hbw hnm
                    refine hpres2 b w hbw ?_
                    rw [alSet_keys cur a0 cps0 ha0in]
                    exact hnm
                  · intro mF hmF
                    obtain ⟨hgrm, hmeas, -⟩ := hsome hmF
                    refine ⟨hgrm, by omega, ?_⟩
                    intro hid
                    exfalso
                    rw [hid] at hmeas
                    omega
              · exact hrec (fun _ => List.cons_ne_nil _ _)
        · exact hrec (fun _ => List.cons_ne_nil _ _)
      · rename_i hne1 hne2
        exact hrec (fun _ => hne1)
    · rename_i hu0
      exact hrec (fun h0 => absurd h0 hu0)

theorem emptyCells_mem {g : Grid} {u : Coord} :
    u ∈ emptyCells g ↔
      inBounds g u ∧ g.cells u.y u.x = 0 ∧ g.activeMask u.y u.x = true := by
  unfold emptyCells
  rw [List.mem_filter, rowMajor_mem]
  simp [inBounds, and_assoc]

theorem emptyCellsPossibilities_mem_domain {rem : RMap} {g : Grid} {u : Coord}
    (hu : u ∈ emptyCells g) :
    ∃ inner, (u, inner) ∈ emptyCellsPossibilities rem g := by
  unfold emptyCellsPossibilities
  exact ⟨_, List.mem_map.mpr ⟨u, hu, rfl⟩⟩

theorem emptyCellsPossibilities_covers {rem : RMap} {g : Grid} {u : Coord}
    {inner : List (Coord × List Possibility)}
    (hui : (u, inner) ∈ emptyCellsPossibilities rem g)
    {a : Coord} {cps : List Possibility} (hacps : (a, cps) ∈ inner) :
    ∀ p ∈ cps, isCellInRectangle u p = true := by
  unfold emptyCellsPossibilities at hui
  rcases List.mem_map.mp hui with ⟨u2, hu2, heq⟩
  have hu : u2 = u := congrArg Prod.fst heq
  have hinner : inner = rem.filterMap fun e =>
      let l := e.2.filter fun p => isCellInRectangle u2 p
      if l.isEmpty then none else some (e.1, l) := by
    have := congrArg Prod.snd heq
    simpa using this.symm
  subst hu
  rw [hinner] at hacps
  rcases List.mem_filterMap.mp hacps with ⟨e, he, hife⟩
  dsimp only at hife
  split at hife
  · cases hife
  · cases hife
    intro p hp
    exact (List.mem_filter.mp hp).2

/-- Master for `filterByCellAndFind`, instantiating the loop master at the
snapshot `emptyCellsPossibilities rem g`. -/
theorem filterByCellAndFind_master {rem : RMap} {g : Grid} {ctr : Nat}
    (hgg : GoodGrid g ctr) (hrem : GoodRem g rem) (hctr : 1 ≤ ctr) :
    filterByCellAndFind rem g ctr ≠ .thrown ∧
    ∀ {res : Option RMap} {g2 : Grid} {c2 : Nat},
      filterByCellAndFind rem g ctr = .out res g2 c2 →
      GoodGrid g2 c2 ∧ CellsEvolve g g2 ctr c2 ∧ NewIds g2 ctr c2 ∧ 1 ≤ c2 ∧
      (∀ b w, (b, w) ∈ g.areas → ¬ b ∈ rem.map Prod.fst →
        g2.cells b.y b.x = g.cells b.y b.x) ∧
      ∀ {mF : RMap}, res = some mF →
        GoodRem g2 mF ∧ rmapMeasure mF ≤ rmapMeasure rem ∧
        (mF = rem → g2 = g ∧ c2 = ctr ∧
          ∀ u inner, (u, inner) ∈ emptyCellsPossibilities rem g →
            g.cells u.y u.x = 0 → inner ≠ []) := by
  have hcp : ∀ u inner, (u, inner) ∈ emptyCellsPossibilities rem g →
      ∀ a cps, (a, cps) ∈ inner →
      ∃ v, (a, v) ∈ g.areas ∧ ∀ p ∈ cps, ValidCand g a v p := by
    intro u inner hui a cps hacps
    obtain ⟨l, hgl, hsubl, -⟩ :=
      emptyCellsPossibilities_spec hrem.1 u inner hui a cps hacps
    obtain ⟨-, v, hv, hvl⟩ := hrem.2 a l (alGet_mem hgl)
    exact ⟨v, hv, fun p hp => hvl p (hsubl.mem hp)⟩
  have hkk : ∀ u inner, (u, inner) ∈ emptyCellsPossibilities rem g →
      ∀ a cps, (a, cps) ∈ inner → g.cells a.y a.x = 0 →
      a ∈ rem.map Prod.fst := by
    intro u inner hui a cps hacps _
    obtain ⟨l, hgl, -, -⟩ :=
      emptyCellsPossibilities_spec hrem.1 u inner hui a cps hacps
    rw [← alGet_isSome_iff, hgl]
    rfl
  exact filterByCellAndFindLoop_master _ rem g ctr hgg hrem hctr hcp hkk

/-- The snapshot invariant of the `resolve` loop: a non-`null` previous state
is the result of a full good pass from some earlier good state. -/
def PrevOK (prev : Option RMap) (rem : RMap) (g : Grid) (ctr : Nat) : Prop :=
  ∀ pm, prev = some pm →
    ∃ gP cP m1 g1 c1,
      GoodGrid gP cP ∧ GoodRem gP pm ∧ 1 ≤ cP ∧
      filterByRectAndFind pm gP cP = .out (some m1) g1 c1 ∧
      filterByCellAndFind m1 g1 c1 = .out (some rem) g ctr

/-- Master for the `resolve` loop: never throws; invariants preserved; a
solved-state (`some`) exit map is good, shrinks the input map, and covers
every still-empty active cell of the final grid with one of its
candidates. -/
theorem resolveLoop_master :
    ∀ (fuel : Nat) (prev : Option RMap) (rem : RMap) (g : Grid) (ctr : Nat),
      GoodGrid g ctr → GoodRem g rem → 1 ≤ ctr → PrevOK prev rem g ctr →
      resolveLoop fuel prev rem g ctr ≠ .thrown ∧
      ∀ {res : Option RMap} {g2 : Grid} {c2 : Nat},
        resolveLoop fuel prev rem g ctr = .out res g2 c2 →
        GoodGrid g2 c2 ∧ CellsEvolve g g2 ctr c2 ∧ NewIds g2 ctr c2 ∧ 1 ≤ c2 ∧
        (∀ b w, (b, w) ∈ g.areas → ¬ b ∈ rem.map Prod.fst →
          g2.cells b.y b.x = g.cells b.y b.x) ∧
        ∀ {m2 : RMap}, res = some m2 →
          GoodRem g2 m2 ∧ Submap m2 rem ∧
          ∀ u : Coord, inBounds g2 u → g2.activeMask u.y u.x = true →
            g2.cells u.y u.x = 0 →
            ∃ a l p, (a, l) ∈ m2 ∧ p ∈ l ∧ pCells p u := by
  intro fuel
  induction fuel with
  | zero =>
    intro prev rem g ctr hgg hrem hctr hprev
    constructor
    · intro h
      simp only [resolveLoop] at h
      cases h
    · intro res g2 c2 h
      simp only [resolveLoop] at h
      cases h
  | succ fuel ih =>
    intro prev rem g ctr hgg hrem hctr hprev
    simp only [resolveLoop]
    split
    · rename_i hmeq
      refine ⟨nofun, ?_⟩
      intro res g2 c2 h
      cases h
      refine ⟨hgg, CellsEvolve_stay _ _, NewIds_stay _ _, hctr,
        fun b w _ _ => rfl, ?_⟩
      intro m2 hm2
      cases hm2
      refine ⟨hrem, Submap_self rem, ?_⟩
      cases prev with
      | none => simp [mapsEqualOpt] at hmeq
      | some pm =>
        obtain ⟨gP, cP, m1, g1, c1, hggP, hremP, hcP, h1, h2⟩ := hprev pm rfl
        simp only [mapsEqualOpt] at hmeq
        have hndP : (pm.map Prod.fst).Nodup := hremP.1
        have hsub2 : Submap rem pm := resolvePass_submap hndP h1 h2
        have heqr : rem = pm := mapsEqual_eq hsub2 hndP hmeq
        subst heqr
        have hsubm1 : Submap m1 rem := filterByRectAndFind_submap _ _ _ h1
        have hnd1 : (m1.map Prod.fst).Nodup := hsubm1.keys_sublist.nodup hndP
        have hsubr : Submap rem m1 := filterByCellAndFind_submap hnd1 h2
        have hm1eq : m1 = rem := hsubm1.eq_of_measure
          (le_antisymm hsubm1.measure_le hsubr.measure_le)
        subst hm1eq
        obtain ⟨-, hout1⟩ := filterByRectAndFind_master m1 gP cP hggP hremP hcP
        obtain ⟨-, -, -, -, -, hsome1⟩ := hout1 h1
        obtain ⟨hgrem1, hid1⟩ := hsome1 rfl
        obtain ⟨hg1, hc1x⟩ := hid1 rfl
        subst hg1
        subst hc1x
        obtain ⟨-, hout2⟩ := filterByCellAndFind_master hggP hgrem1 hcP
        obtain ⟨-, -, -, -, -, hsome2⟩ := hout2 h2
        obtain ⟨-, -, hid2⟩ := hsome2 rfl
        obtain ⟨hgE, hcE, hcov⟩ := hid2 rfl
        subst hgE
        subst hcE
        intro u hub hum huc
        have humem : u ∈ emptyCells g := emptyCells_mem.mpr ⟨hub, huc, hum⟩
        obtain ⟨inner, hui⟩ :=
          @emptyCellsPossibilities_mem_domain m1 _ _ humem
        have hinn : inner ≠ [] := hcov u inner hui huc
        obtain ⟨e0, hacin0⟩ := List.exists_mem_of_ne_nil inner hinn
        obtain ⟨a, cps⟩ := e0
        obtain ⟨l, hgl, hsubl, hcne⟩ :=
          emptyCellsPossibilities_spec hrem.1 u inner hui a cps hacin0
        obtain ⟨p, hpc⟩ := List.exists_mem_of_ne_nil cps hcne
        refine ⟨a, l, p, alGet_mem hgl, hsubl.mem hpc, ?_⟩
        have hcell := emptyCellsPossibilities_covers hui hacin0 p hpc
        rw [isCellInRectangle_iff] at hcell
        exact hcell
    · split
      · rename_i m1 g1 c1 h1
        obtain ⟨-, hout1⟩ := filterByRectAndFind_master rem g ctr hgg hrem hctr
        obtain ⟨hgg1, hev1, hnew1, hc1, hpres1, hsome1⟩ := hout1 h1
        obtain ⟨hgrem1, -⟩ := hsome1 rfl
        have hsh1 : sameShape g g1 := filterByRectAndFind_shape rem g ctr h1
        have hsubm1 : Submap m1 rem := filterByRectAndFind_submap rem g ctr h1
        obtain ⟨hth2, hout2⟩ := filterByCellAndFind_master hgg1 hgrem1 hc1
        split
        · rename_i m2p g22 c22 h2
          obtain ⟨hgg2, hev2, hnew2, hc2, hpres2, hsome2⟩ := hout2 h2
          obtain ⟨hgrem2, -, -⟩ := hsome2 rfl
          have hsh2 : sameShape g1 g22 := filterByCellAndFind_shape h2
          have hsubm2 : Submap m2p m1 :=
            filterByCellAndFind_submap (hsubm1.keys_sublist.nodup hrem.1) h2
          have hprev2 : PrevOK (some rem) m2p g22 c22 := by
            intro pm hpm
            cases hpm
            exact ⟨g, ctr, m1, g1, c1, hgg, hrem, hctr, h1, h2⟩
          obtain ⟨ihth, ihout⟩ := ih (some rem) m2p g22 c22 hgg2 hgrem2 hc2 hprev2
          constructor
          · exact ihth
          · intro res g2 c2 h
            obtain ⟨hggF, hevF, hnewF, hcF, hpresF, hsomeF⟩ := ihout h
            have hshF : sameShape g22 g2 := resolveLoop_shape fuel (some rem) m2p g22 c22 h
            refine ⟨hggF, CellsEvolve_comp (CellsEvolve_comp hev1 hev2) hevF,
              NewIds.join (NewIds.join hnew1 hnew2 hev2 hctr hsh2.1)
                hnewF hevF hctr hshF.1, hcF, ?_, ?_⟩
            · intro b w hbw hnm
              have hb1 : ¬ b ∈ m1.map Prod.fst :=
                fun hc => hnm (hsubm1.keys_sublist.mem hc)
              have hb2 : ¬ b ∈ m2p.map Prod.fst :=
                fun hc => hb1 (hsubm2.keys_sublist.mem hc)
              rw [hpresF b w ((hsh1.2.1.trans hsh2.2.1) ▸ hbw) hb2,
                hpres2 b w (hsh1.2.1 ▸ hbw) hb1, hpres1 b w hbw hnm]
            · intro m2F hm2F
              obtain ⟨hgrF, hsubF, hcovF⟩ := hsomeF hm2F
              exact ⟨hgrF, Submap_compose hsubF (Submap_compose hsubm2 hsubm1), hcovF⟩
        · rename_i hne
          constructor
          · exact hth2
          · intro res g2 c2 h
            obtain ⟨hgg2, hev2, hnew2, hc2, hpres2, hsome2⟩ := hout2 h
            have hsh2 : sameShape g1 g2 := filterByCellAndFind_shape h
            refine ⟨hgg2, CellsEvolve_comp hev1 hev2,
              NewIds.join hnew1 hnew2 hev2 hctr hsh2.1, hc2, ?_, ?_⟩
            · intro b w hbw hnm
              have hb1 : ¬ b ∈ m1.map Prod.fst :=
                fun hc => hnm (hsubm1.keys_sublist.mem hc)
              rw [hpres2 b w (hsh1.2.1 ▸ hbw) hb1, hpres1 b w hbw hnm]
            · intro m2F hm2F
              subst hm2F
              exact absurd h (hne _ _ _)
      · rename_i hne
        constructor
        · exact (filterByRectAndFind_master rem g ctr hgg hrem hctr).1
        · intro res g2 c2 h
          obtain ⟨-, hout1⟩ := filterByRectAndFind_master rem g ctr hgg hrem hctr
          obtain ⟨hgg1, hev1, hnew1, hc1, hpres1, hsome1⟩ := hout1 h
          refine ⟨hgg1, hev1, hnew1, hc1, hpres1, ?_⟩
          intro m2F hm2F
          subst hm2F
          exact absurd h (hne _ _ _)

/-- Master for `resolve`. -/
theorem resolve_master {rem : RMap} {g : Grid} {ctr : Nat}
    (hgg : GoodGrid g ctr) (hrem : GoodRem g rem) (hctr : 1 ≤ ctr) :
    resolve rem g ctr ≠ .thrown ∧
    ∀ {res : Option RMap} {g2 : Grid} {c2 : Nat},
      resolve rem g ctr = .out res g2 c2 →
      GoodGrid g2 c2 ∧ CellsEvolve g g2 ctr c2 ∧ NewIds g2 ctr c2 ∧ 1 ≤ c2 ∧
      (∀ b w, (b, w) ∈ g.areas → ¬ b ∈ rem.map Prod.fst →
        g2.cells b.y b.x = g.cells b.y b.x) ∧
      ∀ {m2 : RMap}, res = some m2 →
        GoodRem g2 m2 ∧ Submap m2 rem ∧
        ∀ u : Coord, inBounds g2 u → g2.activeMask u.y u.x = true →
          g2.cells u.y u.x = 0 →
          ∃ a l p, (a, l) ∈ m2 ∧ p ∈ l ∧ pCells p u :=
  resolveLoop_master _ none rem g ctr hgg hrem hctr (fun pm hpm => by cases hpm)

/-! ## Claim C10: `shikakuSolve` mutates the caller's grid -/

/-- A rectangle in the initial flatMap list for clue `(a, v)` is a valid
candidate (the soundness half of the §4.2 characterization, as a reusable
lemma). -/
theorem initial_validCand {g : Grid} {a : Coord} {v : Nat} {p : Possibility}
    (hp : p ∈ (getDivisors v).flatMap fun d => getAvailablePlaces g a d) :
    ValidCand g a v p := by
  rw [List.mem_flatMap] at hp
  rcases hp with ⟨⟨d1, d2⟩, hd, hp⟩
  rw [getDivisors_mem] at hd
  rw [getAvailablePlaces_mem] at hp
  obtain ⟨hsz, hcell, hby, hbx, hcov, hnot⟩ := hp
  refine ⟨hby, hbx, coversOnlyActiveCells_iff.mp hcov, hcell, ?_, ?_⟩
  · intro b w hb hpb
    by_contra hne
    have : isAnotherAreaInfoInRectangle p a g = true :=
      isAnotherAreaInfoInRectangle_iff.mpr ⟨b, w, hb, hne, hpb⟩
    rw [this] at hnot
    cases hnot
  · rcases hsz with h | ⟨_, h⟩
    · rw [h]
      dsimp only
      rw [Nat.mul_comm]
      exact hd.2.1
    · rw [h]
      exact hd.2.1

/-- A fresh board (all cells `0`) satisfies the grid invariant at counter 1. -/
theorem zero_GoodGrid {g : Grid} (hzero : ∀ y x, g.cells y x = 0) :
    GoodGrid g 1 := by
  constructor
  · intro c hc
    rw [hzero]
    omega
  · intro id hid hex
    exfalso
    rcases hex with ⟨c, hc, hcc⟩
    rw [hzero] at hcc
    omega

/-- The initial possibilities map of a fresh board satisfies the map
invariant. -/
theorem initial_GoodRem {g : Grid} (hnd : (g.areas.map Prod.fst).Nodup)
    (hzero : ∀ y x, g.cells y x = 0) :
    GoodRem g (initialPossibilitiesCalculation g) := by
  constructor
  · unfold initialPossibilitiesCalculation
    rw [List.map_map]
    exact hnd
  · intro a ps hm
    unfold initialPossibilitiesCalculation at hm
    rcases List.mem_map.mp hm with ⟨e, he, heq⟩
    obtain ⟨a0, v0⟩ := e
    cases heq
    refine ⟨hzero _ _, v0, he, ?_⟩
    intro p hp
    exact initial_validCand hp

/-- The grid component of a search result (the caller-visible argument
grid). -/
def RWAOut.gridOf : RWAOut → Grid
  | .out _ _ g => g
  | _ => { size := ⟨0, 0⟩, areas := [], cells := fun _ _ => 0,
           activeMask := fun _ _ => false }

/-- The module-state component of a search result. -/
def RWAOut.stateOf : RWAOut → SolverState
  | .out _ st _ => st
  | _ => ⟨0, []⟩

/-- C10: `shikakuSolve` hands the caller back its argument grid as mutated by
the top-level propagation run (recursive branches work on copies and their
grids are discarded); the mutation only turns `0` cells into positive fresh
rectangle IDs below the final counter; and whenever top-level propagation
placed at least one rectangle (final counter above the initial 1), some
in-bounds cell of the caller's grid holds a positive rectangle ID. -/
theorem C10_solve_mutates_caller_grid (st : SolverState) (g : Grid)
    (hzero : ∀ y x, g.cells y x = 0) (hnd : (g.areas.map Prod.fst).Nodup) :
    ∀ {res : Option (List Str)} {st2 : SolverState} {g2 : Grid},
      shikakuSolve st g = .out res st2 g2 →
      ∃ rres c2,
        resolve (initialPossibilitiesCalculation g) g 1 = .out rres g2 c2 ∧
        CellsEvolve g g2 1 c2 ∧
        (1 < c2 → ∃ c0 : Coord, inBounds g2 c0 ∧ 0 < g2.cells c0.y c0.x) := by
  intro res st2 g2 h
  have hgg : GoodGrid g 1 := zero_GoodGrid hzero
  have hrem : GoodRem g (initialPossibilitiesCalculation g) :=
    initial_GoodRem hnd hzero
  obtain ⟨-, hout⟩ := resolve_master hgg hrem (le_refl 1)
  simp only [shikakuSolve, resetSolver, resolveWithAssumptions, rwaStep] at h
  split at h
  · cases h
  · cases h
  · rename_i gr cr h1
    cases h
    obtain ⟨-, hev, hnew, -, -, -⟩ := hout h1
    refine ⟨none, cr, h1, hev, ?_⟩
    intro hlt
    obtain ⟨c0, hb, hc⟩ := hnew 1 (le_refl 1) hlt
    exact ⟨c0, hb, by omega⟩
  · rename_i m gr cr h1
    obtain ⟨-, hev, hnew, -, -, -⟩ := hout h1
    have hfin : 1 < cr → ∃ c0 : Coord, inBounds gr c0 ∧ 0 < gr.cells c0.y c0.x := by
      intro hlt
      obtain ⟨c0, hb, hc⟩ := hnew 1 (le_refl 1) hlt
      exact ⟨c0, hb, by omega⟩
    split at h
    · cases h
      exact ⟨some m, cr, h1, hev, hfin⟩
    · split at h
      · split at h
        · cases h
          exact ⟨some m, cr, h1, hev, hfin⟩
        · cases h
          exact ⟨some m, cr, h1, hev, hfin⟩
      · split at h
        · cases h
        · cases h
        · cases h
          exact ⟨some m, cr, h1, hev, hfin⟩

/-- C10 witness: on the concrete 2×2 board with clue 4, `shikakuSolve`
returns the grid mutated by top-level propagation, whose counter advanced and
whose cells hold a positive ID. -/
theorem C10_solve_mutates_caller_grid_witness :
    (∀ y x, demoGrid22.cells y x = 0) ∧
    (demoGrid22.areas.map Prod.fst).Nodup ∧
    ∃ rres c2,
      resolve (initialPossibilitiesCalculation demoGrid22) demoGrid22 1 =
        .out rres (shikakuSolve ⟨1, []⟩ demoGrid22).gridOf c2 ∧
      CellsEvolve demoGrid22 (shikakuSolve ⟨1, []⟩ demoGrid22).gridOf 1 c2 ∧
      (1 < c2 → ∃ c0 : Coord,
        inBounds (shikakuSolve ⟨1, []⟩ demoGrid22).gridOf c0 ∧
        0 < ((shikakuSolve ⟨1, []⟩ demoGrid22).gridOf).cells c0.y c0.x) :=
  ⟨fun y x => rfl, by decide,
    @C10_solve_mutates_caller_grid ⟨1, []⟩ demoGrid22 (fun y x => rfl) (by decide)
      (shikakuSolve ⟨1, []⟩ demoGrid22).strings
      (shikakuSolve ⟨1, []⟩ demoGrid22).stateOf
      (shikakuSolve ⟨1, []⟩ demoGrid22).gridOf
      (by rfl)⟩

/-! ## Claim C9: repeated `solve` calls and state re-initialization -/

/-- C9: `resetSolver` re-initializes the module-level rectangle counter to 1
and the memoization cache to empty, and `shikakuSolve` calls it first, so the
result is independent of the incoming module state: any two invocations on
the same board value return identical results, and in particular a second
call, run in the module state left behind by a first call, returns the same
set of canonical strings.  (The board is passed by value here; the mutation
of the caller's grid object is the separate frame effect of C10.) -/
theorem C9_solve_state_reset_idempotent :
    (∀ st : SolverState, resetSolver st = ⟨1, []⟩) ∧
    (∀ (st1 st2 : SolverState) (g : Grid),
      shikakuSolve st1 g = shikakuSolve st2 g) ∧
    ∀ (st : SolverState) (g : Grid) (res : Option (List Str))
      (st2 : SolverState) (g2 : Grid),
      shikakuSolve st g = .out res st2 g2 →
      (shikakuSolve st2 g).strings = (shikakuSolve st g).strings := by
  refine ⟨fun _ => rfl, fun _ _ _ => rfl, ?_⟩
  intro st g res st2 g2 h
  rfl

/-- C9 witness: on the concrete 2×2 board, a second `solve` run in the module
state produced by the first returns the same canonical-string set. -/
theorem C9_solve_state_reset_idempotent_witness :
    (shikakuSolve (shikakuSolve ⟨1, []⟩ demoGrid22).stateOf demoGrid22).strings =
      (shikakuSolve ⟨1, []⟩ demoGrid22).strings :=
  C9_solve_state_reset_idempotent.2.2 ⟨1, []⟩ demoGrid22
    (shikakuSolve ⟨1, []⟩ demoGrid22).strings
    (shikakuSolve ⟨1, []⟩ demoGrid22).stateOf
    (shikakuSolve ⟨1, []⟩ demoGrid22).gridOf
    (by rfl)

/-! ## Claim C3: counting machinery -/

/-- The number of active cells of the board (`H ≥ y`, `W > x`, mask true). -/
def activeCount (g : Grid) : Nat :=
  ((rowMajor g.size.height g.size.width).filter fun c =>
    g.activeMask c.y c.x).length

theorem GoodGrid_mono {g : Grid} {c c2 : Nat} (h : GoodGrid g c) (hle : c ≤ c2) :
    GoodGrid g c2 :=
  ⟨fun cc hin => lt_of_lt_of_le (h.1 cc hin) hle, h.2⟩

theorem length_filter_flatMap {α β : Type} (l : List α) (f : α → List β)
    (q : β → Bool) :
    ((l.flatMap f).filter q).length =
      (l.map fun a => ((f a).filter q).length).sum := by
  induction l with
  | nil => rfl
  | cons a t ih =>
    rw [List.flatMap_cons, List.filter_append, List.length_append, List.map_cons,
      List.sum_cons, ih]

theorem length_filter_range_Ico (s e : Nat) :
    ∀ W, ((List.range W).filter fun x => decide (s ≤ x ∧ x < e)).length =
      min e W - min s W := by
  intro W
  induction W with
  | zero => simp
  | succ W ih =>
    rw [List.range_succ, List.filter_append, List.length_append, ih]
    by_cases h : s ≤ W ∧ W < e
    · have h1 : (([W] : List Nat).filter fun x => decide (s ≤ x ∧ x < e)).length = 1 := by
        simp [h]
      rw [h1]
      omega
    · have h1 : (([W] : List Nat).filter fun x => decide (s ≤ x ∧ x < e)).length = 0 := by
        simp [h]
      rw [h1]
      omega

theorem sum_range_indicator (s e v : Nat) :
    ∀ H, ((List.range H).map fun y => if s ≤ y ∧ y < e then v else 0).sum =
      v * (min e H - min s H) := by
  intro H
  induction H with
  | zero => simp
  | succ H ih =>
    rw [List.range_succ, List.map_append, List.sum_append, ih]
    by_cases h : s ≤ H ∧ H < e
    · have h1 : (([H] : List Nat).map fun y => if s ≤ y ∧ y < e then v else 0).sum = v := by
        simp [h]
      rw [h1]
      have h2 : min e (H + 1) - min s (H + 1) = (min e H - min s H) + 1 := by omega
      rw [h2, Nat.mul_add, Nat.mul_one]
    · have h1 : (([H] : List Nat).map fun y => if s ≤ y ∧ y < e then v else 0).sum = 0 := by
        simp [h]
      rw [h1]
      have h2 : min e (H + 1) - min s (H + 1) = min e H - min s H := by omega
      rw [h2, Nat.add_zero]

theorem rowMajor_filter_pCells_length {H W : Nat} (p : Possibility)
    (hby : p.start.y + p.size.height ≤ H) (hbx : p.start.x + p.size.width ≤ W) :
    ((rowMajor H W).filter fun c => decide (pCells p c)).length =
      p.size.height * p.size.width := by
  unfold rowMajor
  rw [length_filter_flatMap]
  have hrow : ∀ y ∈ List.range H,
      ((((List.range W).map fun x => (⟨y, x⟩ : Coord)).filter
        fun c => decide (pCells p c)).length) =
      (if p.start.y ≤ y ∧ y < p.start.y + p.size.height
        then p.size.width else 0) := by
    intro y _
    rw [List.filter_map, List.length_map]
    by_cases hy : p.start.y ≤ y ∧ y < p.start.y + p.size.height
    · rw [if_pos hy]
      have hcong : ∀ x ∈ List.range W,
          ((fun c => decide (pCells p c)) ∘ fun x => (⟨y, x⟩ : Coord)) x =
          decide (p.start.x ≤ x ∧ x < p.start.x + p.size.width) := by
        intro x _
        simp only [Function.comp_apply]
        refine decide_eq_decide.mpr ?_
        unfold pCells
        dsimp only
        constructor
        · intro h
          exact ⟨h.2.2.1, h.2.2.2⟩
        · intro h
          exact ⟨hy.1, hy.2, h.1, h.2⟩
      rw [List.filter_congr hcong, length_filter_range_Ico]
      omega
    · rw [if_neg hy]
      have hcong : ∀ x ∈ List.range W,
          ((fun c => decide (pCells p c)) ∘ fun x => (⟨y, x⟩ : Coord)) x = false := by
        intro x _
        simp only [Function.comp_apply]
        refine decide_eq_false ?_
        intro hc
        exact hy ⟨hc.1, hc.2.1⟩
      rw [List.filter_congr hcong]
      simp
  rw [List.map_congr_left hrow, sum_range_indicator]
  have h1 : min (p.start.y + p.size.height) H = p.start.y + p.size.height := by omega
  have h2 : min p.start.y H = p.start.y := by omega
  rw [h1, h2, Nat.add_sub_cancel_left, Nat.mul_comm]

theorem length_filter_or {α : Type} (l : List α) (p q : α → Bool)
    (hdisj : ∀ c ∈ l, ¬(p c = true ∧ q c = true)) :
    (l.filter fun c => p c || q c).length =
      (l.filter p).length + (l.filter q).length := by
  induction l with
  | nil => rfl
  | cons a t ih =>
    have hdt : ∀ c ∈ t, ¬(p c = true ∧ q c = true) :=
      fun c hc => hdisj c (List.mem_cons_of_mem _ hc)
    have iht := ih hdt
    cases hp : p a
    · cases hq : q a
      · simp [List.filter_cons, hp, hq, iht]
      · simp [List.filter_cons, hp, hq, iht]
        try omega
    · cases hq : q a
      · simp [List.filter_cons, hp, hq, iht]
        try omega
      · exact absurd ⟨hp, hq⟩ (hdisj a (List.mem_cons_self _ _))

/-- Distinct placed clues sit in cells with distinct rectangle IDs. -/
theorem clue_id_inj {g : Grid} {ctr : Nat} (hgg : GoodGrid g ctr)
    {b1 : Coord} {w1 : Nat} {b2 : Coord} {w2 : Nat}
    (h1 : (b1, w1) ∈ g.areas) (h2 : (b2, w2) ∈ g.areas)
    (hp1 : 0 < g.cells b1.y b1.x) (hin1 : inBounds g b1) (hin2 : inBounds g b2)
    (heq : g.cells b1.y b1.x = g.cells b2.y b2.x) : b1 = b2 := by
  obtain ⟨p, hgr, hiff⟩ := hgg.2 _ hp1 ⟨b1, hin1, rfl⟩
  obtain ⟨a, v, hav, hpa, harea, huniq⟩ := hgr.clue
  have e1 : b1 = a := huniq b1 w1 h1 ((hiff b1 hin1).mp rfl)
  have e2 : b2 = a := huniq b2 w2 h2 ((hiff b2 hin2).mp heq.symm)
  rw [e1, e2]

/-- The cells sharing a placed clue's rectangle ID number exactly the clue's
value. -/
theorem clue_fiber_length {g : Grid} {ctr : Nat} (hgg : GoodGrid g ctr)
    (hnd : (g.areas.map Prod.fst).Nodup) {b : Coord} {w : Nat}
    (hbw : (b, w) ∈ g.areas) (hpos : 0 < g.cells b.y b.x) (hin : inBounds g b) :
    ((rowMajor g.size.height g.size.width).filter fun c =>
      g.activeMask c.y c.x && (g.cells b.y b.x == g.cells c.y c.x)).length = w := by
  obtain ⟨p, hgr, hiff⟩ := hgg.2 (g.cells b.y b.x) hpos ⟨b, hin, rfl⟩
  obtain ⟨a, v, hav, hpa, harea, huniq⟩ := hgr.clue
  have hba : b = a := huniq b w hbw ((hiff b hin).mp rfl)
  subst hba
  have hvw : v = w := by
    have ha1 := alGet_eq_some_of_mem hnd hav
    have ha2 := alGet_eq_some_of_mem hnd hbw
    rw [ha1] at ha2
    exact Option.some.inj ha2
  subst hvw
  have hcong : ∀ c ∈ rowMajor g.size.height g.size.width,
      (g.activeMask c.y c.x && (g.cells b.y b.x == g.cells c.y c.x)) =
      decide (pCells p c) := by
    intro c hc
    have hcin : inBounds g c := by
      rw [rowMajor_mem] at hc
      exact hc
    by_cases hp : pCells p c
    · rw [decide_eq_true hp, hgr.active c hp,
        ((hiff c hcin).mpr hp)]
      simp
    · rw [decide_eq_false hp]
      have hne : ¬ g.cells b.y b.x = g.cells c.y c.x := by
        intro hc2
        exact hp ((hiff c hcin).mp hc2.symm)
      simp [hne]
  rw [List.filter_congr hcong,
    rowMajor_filter_pCells_length p hgr.boundY hgr.boundX]
  exact harea

/-- Counting: the active cells whose ID belongs to a duplicate-free batch of
placed clues number exactly the sum of those clues' values. -/
theorem count_clues {g : Grid} {ctr : Nat} (hgg : GoodGrid g ctr)
    (hnd : (g.areas.map Prod.fst).Nodup) :
    ∀ l : List (Coord × Nat), (∀ e ∈ l, e ∈ g.areas) →
      ((l.map Prod.fst).Nodup) →
      (∀ e ∈ l, 0 < g.cells e.1.y e.1.x ∧ inBounds g e.1) →
      ((rowMajor g.size.height g.size.width).filter fun c =>
        g.activeMask c.y c.x &&
          (l.any fun e => g.cells e.1.y e.1.x == g.cells c.y c.x)).length =
      (l.map Prod.snd).sum := by
  intro l
  induction l with
  | nil =>
    intro _ _ _
    simp
  | cons e t ih =>
    intro hsub hndl hpos
    obtain ⟨b, w⟩ := e
    simp only [List.map_cons, List.nodup_cons] at hndl
    obtain ⟨hpb, hinb⟩ := hpos (b, w) (List.mem_cons_self _ _)
    have hbmem := hsub (b, w) (List.mem_cons_self _ _)
    have hcong : ∀ c ∈ rowMajor g.size.height g.size.width,
        (g.activeMask c.y c.x &&
          (((b, w) :: t).any fun e => g.cells e.1.y e.1.x == g.cells c.y c.x)) =
        ((g.activeMask c.y c.x && (g.cells b.y b.x == g.cells c.y c.x)) ||
         (g.activeMask c.y c.x &&
           (t.any fun e => g.cells e.1.y e.1.x == g.cells c.y c.x))) := by
      intro c _
      rw [List.any_cons, Bool.and_or_distrib_left]
    rw [List.filter_congr hcong, length_filter_or, clue_fiber_length hgg hnd hbmem hpb hinb,
      ih (fun e he => hsub e (List.mem_cons_of_mem _ he)) hndl.2
        (fun e he => hpos e (List.mem_cons_of_mem _ he))]
    · rw [List.map_cons, List.sum_cons]
    · intro c hc
      rintro ⟨h1, h2⟩
      rw [Bool.and_eq_true] at h1 h2
      obtain ⟨hm1, hb1⟩ := h1
      obtain ⟨-, hb2⟩ := h2
      rw [List.any_eq_true] at hb2
      obtain ⟨e2, he2, hbe2⟩ := hb2
      rw [beq_iff_eq] at hb1 hbe2
      obtain ⟨hpe2, hine2⟩ := hpos e2 (List.mem_cons_of_mem _ he2)
      have hbe : b = e2.1 :=
        clue_id_inj hgg hbmem (hsub e2 (List.mem_cons_of_mem _ he2)) hpb hinb hine2
          (hb1.trans hbe2.symm)
      apply hndl.1
      rw [hbe]
      exact List.mem_map.mpr ⟨e2, he2, rfl⟩

/-- When every clue is placed and no active cell is unassigned, the clue
values sum to the number of active cells. -/
theorem full_cover_count {g : Grid} {ctr : Nat} (hgg : GoodGrid g ctr)
    (hnd : (g.areas.map Prod.fst).Nodup)
    (hplaced : ∀ b w, (b, w) ∈ g.areas → 0 < g.cells b.y b.x ∧ inBounds g b)
    (hfull : ∀ u : Coord, inBounds g u → g.activeMask u.y u.x = true →
      g.cells u.y u.x ≠ 0) :
    (g.areas.map Prod.snd).sum = activeCount g := by
  rw [← count_clues hgg hnd g.areas (fun e he => he) hnd
    (fun e he => hplaced e.1 e.2 he)]
  unfold activeCount
  have hcong : ∀ c ∈ rowMajor g.size.height g.size.width,
      (g.activeMask c.y c.x &&
        (g.areas.any fun e => g.cells e.1.y e.1.x == g.cells c.y c.x)) =
      g.activeMask c.y c.x := by
    intro c hc
    have hcin : inBounds g c := by
      rw [rowMajor_mem] at hc
      exact hc
    cases hmv : g.activeMask c.y c.x
    · rw [Bool.false_and]
    · rw [Bool.true_and]
      have hnz := hfull c hcin hmv
      obtain ⟨p, hgr, hiff⟩ := hgg.2 (g.cells c.y c.x) (by omega) ⟨c, hcin, rfl⟩
      obtain ⟨a, v, hav, hpa, harea, huniq⟩ := hgr.clue
      have hain : inBounds g a := by
        obtain ⟨e1, e2, e3, e4⟩ := hpa
        have hb1 := hgr.boundY
        have hb2 := hgr.boundX
        exact ⟨by omega, by omega⟩
      have hcell : g.cells a.y a.x = g.cells c.y c.x := (hiff a hain).mpr hpa
      rw [List.any_eq_true]
      exact ⟨(a, v), hav, beq_iff_eq.mpr hcell⟩
  rw [List.filter_congr hcong]

theorem alSet_keys_mem {α β : Type} [DecidableEq α] {l : List (α × β)} {k b : α}
    (v : β) (hb : b ∈ l.map Prod.fst) : b ∈ (alSet l k v).map Prod.fst := by
  induction l with
  | nil => cases hb
  | cons e t ih =>
    rw [List.map_cons, List.mem_cons] at hb
    by_cases he : e.1 = k
    · simp only [alSet, if_pos he, List.map_cons, List.mem_cons]
      rcases hb with h | h
      · exact Or.inl (h.trans he)
      · exact Or.inr h
    · simp only [alSet, if_neg he, List.map_cons, List.mem_cons]
      rcases hb with h | h
      · exact Or.inl h
      · exact Or.inr (ih h)

/-- Rule R1 keeps every coordinate either in the map or placed on a positive
in-bounds cell. -/
theorem filterByRectAndFind_placed :
    ∀ (rem : RMap) (g : Grid) (ctr : Nat),
      GoodRem g rem → 1 ≤ ctr →
      ∀ {m1 : RMap} {g1 : Grid} {c1 : Nat},
        filterByRectAndFind rem g ctr = .out (some m1) g1 c1 →
        ∀ b, b ∈ rem.map Prod.fst ∨ (0 < g.cells b.y b.x ∧ inBounds g b) →
          b ∈ m1.map Prod.fst ∨ (0 < g1.cells b.y b.x ∧ inBounds g1 b) := by
  intro rem
  induction rem with
  | nil =>
    intro g ctr hrem hctr m1 g1 c1 h b hb
    simp only [filterByRectAndFind] at h
    cases h
    rcases hb with hb | hb
    · simp at hb
    · exact Or.inr hb
  | cons e rest ih =>
    obtain ⟨a, ps⟩ := e
    intro g ctr hrem hctr m1 g1 c1 h b hb
    obtain ⟨hnd0, hgr⟩ := hrem
    simp only [List.map_cons, List.nodup_cons] at hnd0
    obtain ⟨hcell, v, hv, hvps⟩ := hgr a ps (List.mem_cons_self _ _)
    have hremrest : GoodRem g rest :=
      ⟨hnd0.2, fun b2 qs hm => hgr b2 qs (List.mem_cons_of_mem _ hm)⟩
    simp only [filterByRectAndFind] at h
    split at h
    · cases h
    · rename_i p heq
      have hpm : p ∈ ps.filter (fun p => isZoneFree p g) := by
        rw [heq]
        exact List.mem_singleton.mpr rfl
      rw [List.mem_filter] at hpm
      have hvp : ValidCand g a v p := hvps p hpm.1
      have hrem3 : GoodRem (fillRect g p ctr) rest := by
        refine ⟨hnd0.2, ?_⟩
        intro b2 qs hm
        obtain ⟨hb0, w, hw, hwps⟩ := hgr b2 qs (List.mem_cons_of_mem _ hm)
        have hbne : b2 ≠ a := by
          intro hc
          exact hnd0.1 (hc ▸ List.mem_map.mpr ⟨(b2, qs), hm, rfl⟩)
        refine ⟨?_, w, hw,
          fun q hq => ValidCand_shape (fillRect_shape g p ctr) (hwps q hq)⟩
        rw [fillRect_cells, if_neg]
        · exact hb0
        · intro hp
          exact hbne (hvp.noOther b2 w hw hp)
      split at h
      · cases h
      · rename_i g3 c3 haddr
        obtain ⟨hg3, hc3⟩ := addRectangle_some haddr
        subst hg3
        subst hc3
        refine ih _ _ hrem3 (by omega) h b ?_
        rcases hb with hb | hb
        · rw [List.map_cons, List.mem_cons] at hb
          rcases hb with hba | hbr
          · refine Or.inr ?_
            have hba2 : b = a := hba
            subst hba2
            constructor
            · rw [fillRect_cells, if_pos hvp.hasClue]
              omega
            · exact pCells_inBounds hvp hvp.hasClue
          · exact Or.inl hbr
        · refine Or.inr ⟨?_, hb.2⟩
          rw [fillRect_cells]
          split
          · omega
          · exact hb.1
    · split at h
      · rename_i m g4 c4 hrr
        cases h
        rcases hb with hb | hb
        · rw [List.map_cons, List.mem_cons] at hb
          rcases hb with hba | hbr
          · exact Or.inl (by rw [List.map_cons, List.mem_cons]; exact Or.inl hba)
          · rcases ih g ctr hremrest hctr hrr b (Or.inl hbr) with h2 | h2
            · exact Or.inl (by rw [List.map_cons, List.mem_cons]; exact Or.inr h2)
            · exact Or.inr h2
        · rcases ih g ctr hremrest hctr hrr b (Or.inr hb) with h2 | h2
          · exact Or.inl (by rw [List.map_cons, List.mem_cons]; exact Or.inr h2)
          · exact Or.inr h2
      · rename_i hne
        exact absurd h (hne _ _ _)

/-- Rule R2's loop keeps every coordinate either in the map or placed on a
positive in-bounds cell. -/
theorem filterByCellAndFindLoop_placed :
    ∀ (cp : List (Coord × List (Coord × List Possibility))) (cur : RMap)
      (g : Grid) (ctr : Nat),
      1 ≤ ctr →
      (∀ u inner, (u, inner) ∈ cp → ∀ a cps, (a, cps) ∈ inner →
        ∃ v, (a, v) ∈ g.areas ∧ ∀ p ∈ cps, ValidCand g a v p) →
      ∀ {mF : RMap} {g2 : Grid} {c2 : Nat},
        filterByCellAndFindLoop cp cur g ctr = .out (some mF) g2 c2 →
        ∀ b, b ∈ cur.map Prod.fst ∨ (0 < g.cells b.y b.x ∧ inBounds g b) →
          b ∈ mF.map Prod.fst ∨ (0 < g2.cells b.y b.x ∧ inBounds g2 b) := by
  intro cp
  induction cp with
  | nil =>
    intro cur g ctr hctr hcp mF g2 c2 h b hb
    simp only [filterByCellAndFindLoop] at h
    cases h
    exact hb
  | cons e rest ih =>
    obtain ⟨u, inner⟩ := e
    intro cur g ctr hctr hcp mF g2 c2 h b hb
    have hcprest : ∀ u2 inner2, (u2, inner2) ∈ rest → ∀ a cps, (a, cps) ∈ inner2 →
        ∃ v, (a, v) ∈ g.areas ∧ ∀ p ∈ cps, ValidCand g a v p :=
      fun u2 i2 hm => hcp u2 i2 (List.mem_cons_of_mem _ hm)
    simp only [filterByCellAndFindLoop] at h
    split at h
    · split at h
      · cases h
      · rename_i a0 cps0
        obtain ⟨v, hv0, hvcps⟩ := hcp u [(a0, cps0)] (List.mem_cons_self _ _)
          a0 cps0 (List.mem_singleton.mpr rfl)
        split at h
        · rename_i ha0
          split at h
          · rename_i q
            have hvq : ValidCand g a0 v q := hvcps q (List.mem_singleton.mpr rfl)
            split at h
            · split at h
              · cases h
              · rename_i g3 c3 haddr
                obtain ⟨hg3, hc3⟩ := addRectangle_some haddr
                subst hg3
                subst hc3
                have hcp3 : ∀ u2 inner2, (u2, inner2) ∈ rest →
                    ∀ a cps, (a, cps) ∈ inner2 →
                    ∃ w, (a, w) ∈ (fillRect g q ctr).areas ∧
                      ∀ p ∈ cps, ValidCand (fillRect g q ctr) a w p := by
                  intro u2 inner2 hm a cps hbm
                  obtain ⟨w, hw, hwv⟩ := hcprest u2 inner2 hm a cps hbm
                  exact ⟨w, hw,
                    fun p hp => ValidCand_shape (fillRect_shape g q ctr) (hwv p hp)⟩
                refine ih _ _ _ (by omega) hcp3 h b ?_
                rcases hb with hb | hb
                · by_cases hba : b = a0
                  · subst hba
                    refine Or.inr ⟨?_, pCells_inBounds hvq hvq.hasClue⟩
                    rw [fillRect_cells, if_pos hvq.hasClue]
                    omega
                  · exact Or.inl (alDelete_keys_mem hba hb)
                · refine Or.inr ⟨?_, hb.2⟩
                  rw [fillRect_cells]
                  split
                  · omega
                  · exact hb.1
            · cases h
          · split at h
            · cases h
            · split at h
              · refine ih _ _ _ hctr hcprest h b ?_
                rcases hb with hb | hb
                · exact Or.inl (alSet_keys_mem _ hb)
                · exact Or.inr hb
              · exact ih _ _ _ hctr hcprest h b hb
        · exact ih _ _ _ hctr hcprest h b hb
      · exact ih _ _ _ hctr hcprest h b hb
    · exact ih _ _ _ hctr hcprest h b hb

/-- The propagation loop keeps every coordinate either in the map or placed
on a positive in-bounds cell. -/
theorem resolveLoop_placed :
    ∀ (fuel : Nat) (prev : Option RMap) (rem : RMap) (g : Grid) (ctr : Nat),
      GoodGrid g ctr → GoodRem g rem → 1 ≤ ctr →
      ∀ {m2 : RMap} {g2 : Grid} {c2 : Nat},
        resolveLoop fuel prev rem g ctr = .out (some m2) g2 c2 →
        ∀ b, b ∈ rem.map Prod.fst ∨ (0 < g.cells b.y b.x ∧ inBounds g b) →
          b ∈ m2.map Prod.fst ∨ (0 < g2.cells b.y b.x ∧ inBounds g2 b) := by
  intro fuel
  induction fuel with
  | zero =>
    intro prev rem g ctr hgg hrem hctr m2 g2 c2 h
    simp only [resolveLoop] at h
    cases h
  | succ fuel ih =>
    intro prev rem g ctr hgg hrem hctr m2 g2 c2 h b hb
    simp only [resolveLoop] at h
    split at h
    · cases h
      exact hb
    · split at h
      · rename_i m1 g1 c1 h1
        obtain ⟨-, hout1⟩ := filterByRectAndFind_master rem g ctr hgg hrem hctr
        obtain ⟨hgg1, -, -, hc1, -, hsome1⟩ := hout1 h1
        obtain ⟨hgrem1, -⟩ := hsome1 rfl
        have hb1 := filterByRectAndFind_placed rem g ctr hrem hctr h1 b hb
        have hcp1 : ∀ u inner, (u, inner) ∈ emptyCellsPossibilities m1 g1 →
            ∀ a cps, (a, cps) ∈ inner →
            ∃ v, (a, v) ∈ g1.areas ∧ ∀ p ∈ cps, ValidCand g1 a v p := by
          intro u inner hui a cps hacps
          obtain ⟨l, hgl, hsubl, -⟩ :=
            emptyCellsPossibilities_spec hgrem1.1 u inner hui a cps hacps
          obtain ⟨-, v, hv, hvl⟩ := hgrem1.2 a l (alGet_mem hgl)
          exact ⟨v, hv, fun p hp => hvl p (hsubl.mem hp)⟩
        split at h
        · rename_i m2p g22 c22 h2
          obtain ⟨-, hout2⟩ := filterByCellAndFind_master hgg1 hgrem1 hc1
          obtain ⟨hgg2, -, -, hc2, -, hsome2⟩ := hout2 h2
          obtain ⟨hgrem2, -, -⟩ := hsome2 rfl
          have hb2 := filterByCellAndFindLoop_placed _ m1 g1 c1 hc1 hcp1 h2 b hb1
          exact ih (some rem) m2p g22 c22 hgg2 hgrem2 hc2 h b hb2
        · rename_i hne
          exact absurd h (hne _ _ _)
      · rename_i hne
        exact absurd h (hne _ _ _)

/-- `resolve` keeps every coordinate either in the map or placed. -/
theorem resolve_placed {rem : RMap} {g : Grid} {ctr : Nat}
    (hgg : GoodGrid g ctr) (hrem : GoodRem g rem) (hctr : 1 ≤ ctr)
    {m2 : RMap} {g2 : Grid} {c2 : Nat}
    (h : resolve rem g ctr = .out (some m2) g2 c2) :
    ∀ b, b ∈ rem.map Prod.fst ∨ (0 < g.cells b.y b.x ∧ inBounds g b) →
      b ∈ m2.map Prod.fst ∨ (0 < g2.cells b.y b.x ∧ inBounds g2 b) :=
  resolveLoop_placed _ none rem g ctr hgg hrem hctr h

theorem alGet_alSet {α β : Type} [DecidableEq α] (l : List (α × β)) (k : α) (v : β) :
    alGet (alSet l k v) k = some v := by
  induction l with
  | nil => simp [alSet, alGet]
  | cons e t ih =>
    by_cases he : e.1 = k
    · simp [alSet, alGet, he]
    · simp only [alSet, if_neg he, alGet]
      exact ih

theorem sublist_length_lt_of_not_mem {α : Type} {l L : List α} (hs : l.Sublist L)
    {x : α} (hxL : x ∈ L) (hxl : ¬ x ∈ l) : l.length < L.length := by
  rcases Nat.lt_or_ge l.length L.length with h | h
  · exact h
  · exfalso
    have heq : l = L := hs.eq_of_length (le_antisymm hs.length_le h)
    exact hxl (heq ▸ hxL)

/-- If a clue's candidate list is the singleton `[p]` before rule R1, the
clue is no longer a key of the surviving map (it was placed or the pass
failed). -/
theorem filterByRectAndFind_singleton_drop :
    ∀ (rem : RMap) (g : Grid) (ctr : Nat) {a : Coord} {p : Possibility},
      (rem.map Prod.fst).Nodup → alGet rem a = some [p] →
      ∀ {m1 : RMap} {g1 : Grid} {c1 : Nat},
        filterByRectAndFind rem g ctr = .out (some m1) g1 c1 →
        ¬ a ∈ m1.map Prod.fst := by
  intro rem
  induction rem with
  | nil =>
    intro g ctr a p hnd hget
    simp [alGet] at hget
  | cons e rest ih =>
    obtain ⟨b, ps⟩ := e
    intro g ctr a p hnd hget m1 g1 c1 h
    simp only [List.map_cons, List.nodup_cons] at hnd
    by_cases hba : b = a
    · subst hba
      simp only [alGet, if_pos rfl] at hget
      have hps : ps = [p] := Option.some.inj hget
      subst hps
      simp only [filterByRectAndFind] at h
      split at h
      · cases h
      · rename_i q heq
        split at h
        · cases h
        · rename_i g3 c3 haddr
          intro hmem
          have hsub := filterByRectAndFind_submap rest _ _ h
          exact hnd.1 (hsub.keys_sublist.mem hmem)
      · rename_i hne1 hne2
        exfalso
        have hcases : [p].filter (fun q => isZoneFree q g) = [] ∨
            [p].filter (fun q => isZoneFree q g) = [p] := by
          cases hfp : isZoneFree p g
          · exact Or.inl (by simp [List.filter, hfp])
          · exact Or.inr (by simp [List.filter, hfp])
        rcases hcases with hc | hc
        · exact hne1 hc
        · exact hne2 p hc
    · simp only [alGet, if_neg hba] at hget
      simp only [filterByRectAndFind] at h
      split at h
      · cases h
      · rename_i q heq
        split at h
        · cases h
        · exact ih _ _ hnd.2 hget h
      · split at h
        · rename_i m g4 c4 hrr
          cases h
          have hrest := ih _ _ hnd.2 hget hrr
          rw [List.map_cons, List.mem_cons]
          rintro (hc | hc)
          · exact hba hc.symm
          · exact hrest hc
        · rename_i hne
          exact absurd h (hne _ _ _)

/-- After `resolve` on a map whose chosen clue carries the singleton assumed
candidate, a surviving map no longer contains that clue. -/
theorem resolve_assumed_drop {rem : RMap} {g : Grid} {c : Nat} {a : Coord}
    {p : Possibility} (hgg : GoodGrid g c) (hrem : GoodRem g rem) (hc : 1 ≤ c)
    (hget : alGet rem a = some [p])
    {m2 : RMap} {g2 : Grid} {c2 : Nat}
    (h : resolve rem g c = .out (some m2) g2 c2) : ¬ a ∈ m2.map Prod.fst := by
  have hnd : (rem.map Prod.fst).Nodup := hrem.1
  have h' : resolveLoop (rmapMeasure rem + 1 + 1) none rem g c =
      .out (some m2) g2 c2 := h
  simp only [resolveLoop] at h'
  rw [if_neg (by simp [mapsEqualOpt])] at h'
  split at h'
  · rename_i m1 g1 c1 h1
    have hd1 := filterByRectAndFind_singleton_drop rem g c hnd hget h1
    obtain ⟨-, hout1⟩ := filterByRectAndFind_master rem g c hgg hrem hc
    obtain ⟨hgg1, -, -, hc1, -, hsome1⟩ := hout1 h1
    obtain ⟨hgrem1, -⟩ := hsome1 rfl
    split at h'
    · rename_i m2p g22 c22 h2
      have hnd1 : (m1.map Prod.fst).Nodup :=
        (filterByRectAndFind_submap _ _ _ h1).keys_sublist.nodup hnd
      have hsub2 : Submap m2p m1 := filterByCellAndFind_submap hnd1 h2
      obtain ⟨-, hout2⟩ := filterByCellAndFind_master hgg1 hgrem1 hc1
      obtain ⟨hgg2, -, -, hc22, -, hsome2⟩ := hout2 h2
      obtain ⟨hgrem2, -, -⟩ := hsome2 rfl
      have hprev2 : PrevOK (some rem) m2p g22 c22 := by
        intro pm hpm
        cases hpm
        exact ⟨g, c, m1, g1, c1, hgg, hrem, hc, h1, h2⟩
      obtain ⟨-, hout3⟩ :=
        resolveLoop_master (rmapMeasure rem + 1) (some rem) m2p g22 c22
          hgg2 hgrem2 hc22 hprev2
      obtain ⟨-, -, -, -, -, hsome3⟩ := hout3 h'
      obtain ⟨-, hsub3, -⟩ := hsome3 rfl
      intro hmem
      exact hd1 (hsub2.keys_sublist.mem (hsub3.keys_sublist.mem hmem))
    · rename_i hne
      exact absurd h' (hne _ _ _)
  · rename_i hne
    exact absurd h' (hne _ _ _)

/-- Characterization of the branch list built by
`getAssumedPossibilitiesFromAnArea`. -/
theorem getAssumed_mem {m : RMap} {br : Possibility × RMap}
    (h : br ∈ getAssumedPossibilitiesFromAnArea m) :
    ∃ l, alGet m (getAreaCandidate m) = some l ∧ br.1 ∈ l ∧
      br.2 = alSet m (getAreaCandidate m) [br.1] := by
  cases m with
  | nil => simp [getAssumedPossibilitiesFromAnArea] at h
  | cons e t =>
    simp only [getAssumedPossibilitiesFromAnArea] at h
    rcases List.mem_map.mp h with ⟨p, hp, heq⟩
    cases hga : alGet (e :: t) (getAreaCandidate (e :: t)) with
    | none =>
      rw [hga] at hp
      simp at hp
    | some l =>
      rw [hga] at hp
      simp only [Option.getD_some] at hp
      refine ⟨l, rfl, ?_, ?_⟩
      · rw [← heq]
        exact hp
      · rw [← heq]

theorem activeCount_shape {g g2 : Grid} (h : sameShape g g2) :
    activeCount g = activeCount g2 := by
  unfold activeCount
  rw [h.1, h.2.2]

/-- The branch loop under an infeasibility hypothesis on the recursive
searcher: it neither exhausts fuel nor throws, accumulates nothing, and
preserves the empty-cache-values invariant and counter monotonicity. -/
theorem branchLoop_infeasible
    (recur : RMap → Grid → SolverState → RWAOut) (g2 : Grid) (c2 : Nat) :
    ∀ (brs : List (Possibility × RMap)) (st : SolverState) (acc : List Str),
      c2 ≤ st.rectangleCounter →
      (∀ z ss, (z, ss) ∈ st.cache → ss = []) →
      (∀ br ∈ brs, ∀ st3 : SolverState,
        c2 ≤ st3.rectangleCounter → (∀ z ss, (z, ss) ∈ st3.cache → ss = []) →
        recur br.2 g2.copy st3 ≠ .fuelOut ∧ recur br.2 g2.copy st3 ≠ .thrown ∧
        ∀ {r : Option (List Str)} {st4 : SolverState} {g4 : Grid},
          recur br.2 g2.copy st3 = .out r st4 g4 →
          r = none ∧ st3.rectangleCounter ≤ st4.rectangleCounter ∧
          (∀ z ss, (z, ss) ∈ st4.cache → ss = [])) →
      branchLoop recur g2 brs st acc ≠ .fuelOut ∧
      branchLoop recur g2 brs st acc ≠ .thrown ∧
      ∀ {r : Option (List Str)} {st2 : SolverState} {g3 : Grid},
        branchLoop recur g2 brs st acc = .out r st2 g3 →
        r = some acc ∧ c2 ≤ st2.rectangleCounter ∧
        (∀ z ss, (z, ss) ∈ st2.cache → ss = []) := by
  intro brs
  induction brs with
  | nil =>
    intro st acc hctr hcache hrec
    refine ⟨nofun, nofun, ?_⟩
    intro r st2 g3 h
    simp only [branchLoop] at h
    cases h
    exact ⟨rfl, hctr, hcache⟩
  | cons br rest ih =>
    intro st acc hctr hcache hrec
    have hb := hrec br (List.mem_cons_self _ _) st hctr hcache
    simp only [branchLoop]
    split
    · rename_i hx
      exact absurd hx hb.1
    · rename_i hx
      exact absurd hx hb.2.1
    · rename_i r0 st20 g20 hx
      obtain ⟨hr0, hmon, hcache2⟩ := hb.2.2 hx
      subst hr0
      exact ih st20 acc (le_trans hctr hmon) hcache2
        (fun br2 hm => hrec br2 (List.mem_cons_of_mem _ hm))

/-- The search under a clue-sum/active-count mismatch: it cannot succeed at
any level.  The fuel hypothesis is re-established at each branching via the
assumed-clue drop. -/
theorem rwa_infeasible :
    ∀ (fuel : Nat) (rem : RMap) (g : Grid) (st : SolverState),
      1 ≤ fuel →
      GoodGrid g st.rectangleCounter → GoodRem g rem →
      1 ≤ st.rectangleCounter →
      (g.areas.map Prod.fst).Nodup →
      (g.areas.map Prod.snd).sum ≠ activeCount g →
      (∀ b w, (b, w) ∈ g.areas → b ∈ rem.map Prod.fst ∨
        (0 < g.cells b.y b.x ∧ inBounds g b)) →
      (∀ z ss, (z, ss) ∈ st.cache → ss = []) →
      (∀ {m2 : RMap} {g2 : Grid} {c2 : Nat},
        resolve rem g st.rectangleCounter = .out (some m2) g2 c2 →
        m2.length < fuel) →
      resolveWithAssumptions fuel rem g st ≠ .fuelOut ∧
      resolveWithAssumptions fuel rem g st ≠ .thrown ∧
      ∀ {res : Option (List Str)} {st2 : SolverState} {g2 : Grid},
        resolveWithAssumptions fuel rem g st = .out res st2 g2 →
        res = none ∧ st.rectangleCounter ≤ st2.rectangleCounter ∧
        (∀ z ss, (z, ss) ∈ st2.cache → ss = []) := by
  intro fuel
  induction fuel with
  | zero =>
    intro rem g st hf
    omega
  | succ fuel ih =>
    intro rem g st hf hgg hrem hctr hnd hmis hplc hcache hfuel
    simp only [resolveWithAssumptions, rwaStep]
    split
    · rename_i h1
      exact absurd h1
        (resolveLoop_total _ none rem g st.rectangleCounter hrem.1 (le_refl _))
    · rename_i h1
      exact absurd h1 (resolve_master hgg hrem hctr).1
    · rename_i gr cr h1
      obtain ⟨-, hev, -, hc2, -, -⟩ := (resolve_master hgg hrem hctr).2 h1
      refine ⟨nofun, nofun, ?_⟩
      intro res st2 g2 h
      cases h
      exact ⟨rfl, hev.1, hcache⟩
    · rename_i m gr cr h1
      obtain ⟨hgg2, hev, hnew, hc2, -, hsomeR⟩ := (resolve_master hgg hrem hctr).2 h1
      obtain ⟨hgrem2, hsubm, hcov⟩ := hsomeR rfl
      have hshape : sameShape g gr := resolve_shape h1
      have harea : g.areas = gr.areas := hshape.2.1
      have hplc2 : ∀ b w, (b, w) ∈ gr.areas → b ∈ m.map Prod.fst ∨
          (0 < gr.cells b.y b.x ∧ inBounds gr b) := by
        intro b w hb
        have hb0 : (b, w) ∈ g.areas := harea ▸ hb
        exact resolve_placed hgg hrem hctr h1 b (hplc b w hb0)
      split
      · rename_i hie
        exfalso
        have hm : m = [] := by
          simpa using hie
        subst hm
        have hplaced : ∀ b w, (b, w) ∈ gr.areas →
            0 < gr.cells b.y b.x ∧ inBounds gr b := by
          intro b w hb
          rcases hplc2 b w hb with hk | hp
          · simp at hk
          · exact hp
        have hfull : ∀ u : Coord, inBounds gr u → gr.activeMask u.y u.x = true →
            gr.cells u.y u.x ≠ 0 := by
          intro u hub hum hc0
          obtain ⟨a2, l2, p2, hal, -, -⟩ := hcov u hub hum hc0
          cases hal
        refine absurd (full_cover_count hgg2 (harea ▸ hnd) hplaced hfull) ?_
        rw [← harea, ← activeCount_shape hshape]
        exact hmis
      · rename_i hie
        split
        · rename_i cached hcget
          have hcached : cached = [] := hcache _ cached (alGet_mem hcget)
          subst hcached
          split
          · refine ⟨nofun, nofun, ?_⟩
            intro res st2 g2 h
            cases h
            exact ⟨rfl, hev.1, hcache⟩
          · rename_i hce
            exfalso
            simp at hce
        · rename_i hcget
          have haq : 1 ≤ fuel ∧ ∀ br ∈ getAssumedPossibilitiesFromAnArea m,
              ∀ st3 : SolverState, cr ≤ st3.rectangleCounter →
              (∀ z ss, (z, ss) ∈ st3.cache → ss = []) →
              resolveWithAssumptions fuel br.2 gr.copy st3 ≠ .fuelOut ∧
              resolveWithAssumptions fuel br.2 gr.copy st3 ≠ .thrown ∧
              ∀ {r : Option (List Str)} {st4 : SolverState} {g4 : Grid},
                resolveWithAssumptions fuel br.2 gr.copy st3 = .out r st4 g4 →
                r = none ∧ st3.rectangleCounter ≤ st4.rectangleCounter ∧
                (∀ z ss, (z, ss) ∈ st4.cache → ss = []) := by
            constructor
            · by_cases hmn : m = []
              · subst hmn
                -- the isEmpty test would have been true
                simp at hie
              · have hml : 1 ≤ m.length := by
                  cases m with
                  | nil => exact absurd rfl hmn
                  | cons e t => simp
                have := hfuel h1
                omega
            · intro br hbr st3 hmon3 hcache3
              obtain ⟨l, hgal, hpin, hbr2⟩ := getAssumed_mem hbr
              have ha_in_m : getAreaCandidate m ∈ m.map Prod.fst := by
                rw [← alGet_isSome_iff, hgal]
                rfl
              have hml : 1 ≤ m.length := by
                have := ha_in_m
                cases m with
                | nil => cases this
                | cons e t => simp
              have h1f : 1 ≤ fuel := by
                have := hfuel h1
                omega
              have hgg3 : GoodGrid gr st3.rectangleCounter :=
                GoodGrid_mono hgg2 hmon3
              have h1c : 1 ≤ st3.rectangleCounter := le_trans hc2 hmon3
              have hgrem3 : GoodRem gr br.2 := by
                rw [hbr2]
                constructor
                · rw [alSet_keys m _ _ ha_in_m]
                  exact hgrem2.1
                · intro b qs hm2
                  rcases alSet_mem hm2 with ⟨hbq, hqs⟩ | hm3
                  · subst hbq
                    subst hqs
                    obtain ⟨hc0, v, hv, hvl⟩ := hgrem2.2 _ l (alGet_mem hgal)
                    refine ⟨hc0, v, hv, ?_⟩
                    intro q hq
                    rw [List.mem_singleton] at hq
                    subst hq
                    exact hvl br.1 hpin
                  · exact hgrem2.2 b qs hm3
              have hplc3 : ∀ b w, (b, w) ∈ gr.areas → b ∈ br.2.map Prod.fst ∨
                  (0 < gr.cells b.y b.x ∧ inBounds gr b) := by
                intro b w hb
                rcases hplc2 b w hb with hk | hp
                · rw [hbr2]
                  exact Or.inl (alSet_keys_mem _ hk)
                · exact Or.inr hp
              have hfuel3 : ∀ {m2' : RMap} {g2' : Grid} {c2' : Nat},
                  resolve br.2 gr.copy st3.rectangleCounter =
                    .out (some m2') g2' c2' →
                  m2'.length < fuel := by
                intro m2' g2' c2' hr
                have hal2 : alGet br.2 (getAreaCandidate m) = some [br.1] := by
                  rw [hbr2]
                  exact alGet_alSet m _ [br.1]
                have hdrop := resolve_assumed_drop hgg3 hgrem3 h1c hal2 hr
                obtain ⟨-, -, -, -, -, hsome'⟩ := (resolve_master hgg3 hgrem3 h1c).2 hr
                obtain ⟨-, hsub', -⟩ := hsome' rfl
                have ha_in_br2 : getAreaCandidate m ∈ br.2.map Prod.fst := by
                  rw [← alGet_isSome_iff, hal2]
                  rfl
                have hlt := sublist_length_lt_of_not_mem hsub'.keys_sublist
                  ha_in_br2 hdrop
                rw [List.length_map, List.length_map] at hlt
                have hlen_br : br.2.length = m.length := by
                  have h4 := congrArg List.length (hbr2 ▸ alSet_keys m
                    (getAreaCandidate m) [br.1] ha_in_m)
                  rw [List.length_map, List.length_map] at h4
                  exact h4
                have := hfuel h1
                omega
              exact ih br.2 gr.copy st3 h1f hgg3 hgrem3 h1c (harea ▸ hnd)
                (by show (gr.areas.map Prod.snd).sum ≠ activeCount gr
                    rw [← harea, ← activeCount_shape hshape]
                    exact hmis)
                hplc3 hcache3 hfuel3
          have hbl := branchLoop_infeasible (resolveWithAssumptions fuel) gr cr
            (getAssumedPossibilitiesFromAnArea m)
            { st with rectangleCounter := cr } [] (le_refl cr) hcache haq.2
          split
          · rename_i hx
            exact absurd hx hbl.1
          · rename_i hx
            exact absurd hx hbl.2.1
          · rename_i r3 st3 g3 hx
            obtain ⟨hr3, hmon3, hcash3⟩ := hbl.2.2 hx
            subst hr3
            refine ⟨nofun, nofun, ?_⟩
            intro res st2 g2 h
            cases h
            refine ⟨rfl, le_trans hev.1 hmon3, ?_⟩
            intro z2 ss hm2
            rcases alSet_mem hm2 with ⟨-, hss⟩ | hm3
            · exact hss
            · exact hcash3 z2 ss hm3

/-- The 2×2 all-active board with the single clue 1 at (0,0): clue sum 1,
active count 4. -/
def demoMismatch : Grid :=
  { size := ⟨2, 2⟩
    areas := [(⟨0, 0⟩, 1)]
    cells := fun _ _ => 0
    activeMask := fun y x => decide (y < 2) && decide (x < 2) }

/-- C3: on a fresh board whose clue values do not sum to the number of
active cells, `shikakuSolve` terminates normally (no fuel exhaustion, no
exception) and returns the JS `null`: no canonical string is produced. -/
theorem C3_sum_mismatch_unsolvable (st : SolverState) (g : Grid)
    (hzero : ∀ y x, g.cells y x = 0) (hnd : (g.areas.map Prod.fst).Nodup)
    (hmis : (g.areas.map Prod.snd).sum ≠ activeCount g) :
    shikakuSolve st g ≠ .fuelOut ∧ shikakuSolve st g ≠ .thrown ∧
    ∀ {res : Option (List Str)} {st2 : SolverState} {g2 : Grid},
      shikakuSolve st g = .out res st2 g2 → res = none := by
  have hgg : GoodGrid g 1 := zero_GoodGrid hzero
  have hrem : GoodRem g (initialPossibilitiesCalculation g) :=
    initial_GoodRem hnd hzero
  have hkeys : (initialPossibilitiesCalculation g).map Prod.fst =
      g.areas.map Prod.fst := by
    unfold initialPossibilitiesCalculation
    rw [List.map_map]
    rfl
  have hfuel : ∀ {m2 : RMap} {g2 : Grid} {c2 : Nat},
      resolve (initialPossibilitiesCalculation g) g 1 = .out (some m2) g2 c2 →
      m2.length < g.areas.length + 1 := by
    intro m2 g2 c2 hr
    obtain ⟨-, -, -, -, -, hsome⟩ := (resolve_master hgg hrem (le_refl 1)).2 hr
    obtain ⟨-, hsub, -⟩ := hsome rfl
    have h1 := hsub.keys_sublist.length_le
    rw [List.length_map, List.length_map] at h1
    have h2 : (initialPossibilitiesCalculation g).length = g.areas.length := by
      unfold initialPossibilitiesCalculation
      rw [List.length_map]
    omega
  have hres := rwa_infeasible (g.areas.length + 1)
    (initialPossibilitiesCalculation g) g ⟨1, []⟩ (by omega) hgg hrem
    (le_refl 1) hnd hmis
    (fun b w hb => Or.inl (by rw [hkeys]; exact List.mem_map.mpr ⟨(b, w), hb, rfl⟩))
    (fun z ss hm => absurd hm (List.not_mem_nil _))
    hfuel
  refine ⟨hres.1, hres.2.1, ?_⟩
  intro res st2 g2 h
  exact (hres.2.2 h).1

/-- C3 witness: on the concrete mismatched 2×2 board (clue sum 1, four
active cells) the solver returns `null`. -/
theorem C3_sum_mismatch_unsolvable_witness :
    (demoMismatch.areas.map Prod.snd).sum ≠ activeCount demoMismatch ∧
    (shikakuSolve ⟨1, []⟩ demoMismatch).strings = none := by
  refine ⟨by decide, ?_⟩
  exact (C3_sum_mismatch_unsolvable ⟨1, []⟩ demoMismatch (fun _ _ => rfl)
      (by decide) (by decide)).2.2
    (show shikakuSolve ⟨1, []⟩ demoMismatch =
        .out (shikakuSolve ⟨1, []⟩ demoMismatch).strings
          (shikakuSolve ⟨1, []⟩ demoMismatch).stateOf
          (shikakuSolve ⟨1, []⟩ demoMismatch).gridOf from rfl)

/-! ## Claim C1: label machinery for the canonical string -/

theorem digitChar_isDigit {d : Nat} (hd : d < 10) : (digitChar d).isDigit = true := by
  interval_cases d <;> decide

/-- `parseInt` undoes the two-digit zero-padded label. -/
theorem parseTok_pad2 {v : Nat} (hv : v < 100) : parseTok (pad2 v) = v := by
  have h1 := digitChar_isDigit (show v / 10 % 10 < 10 from Nat.mod_lt _ (by norm_num))
  have h2 := digitChar_isDigit (show v % 10 < 10 from Nat.mod_lt _ (by norm_num))
  simp only [pad2, parseTok, h1, h2, if_true,
    digitChar_toNat (show v / 10 % 10 < 10 from Nat.mod_lt _ (by norm_num)),
    digitChar_toNat (show v % 10 < 10 from Nat.mod_lt _ (by norm_num))]
  omega

theorem seenAfter_mono (g : Grid) (l : List Coord) (seen : List (Nat × Nat))
    {k : Nat} (h : (alGet seen k).isSome) :
    (alGet (seenAfter g l seen) k).isSome := by
  cases hk : alGet seen k with
  | none =>
    rw [hk] at h
    cases h
  | some v =>
    rcases seenAfter_ext g l seen with ⟨tl, htl⟩
    rw [htl, alGet_append, hk]
    rfl

theorem seenAfter_mem (g : Grid) :
    ∀ (l : List Coord) (seen : List (Nat × Nat)) {c : Coord}, c ∈ l →
      g.activeMask c.y c.x = true →
      (alGet (seenAfter g l seen) (g.cells c.y c.x)).isSome := by
  intro l
  induction l with
  | nil =>
    intro seen c hc
    cases hc
  | cons c0 rest ih =>
    intro seen c hc hm
    rcases List.mem_cons.mp hc with hh | ht
    · subst hh
      unfold seenAfter
      rw [if_pos hm]
      cases hg : alGet seen (g.cells c.y c.x) with
      | some v => exact seenAfter_mono g rest seen (by rw [hg]; rfl)
      | none =>
        refine seenAfter_mono g rest _ ?_
        rw [alGet_append, hg]
        simp [alGet]
    · unfold seenAfter
      by_cases hm0 : g.activeMask c0.y c0.x
      · rw [if_pos hm0]
        cases hg : alGet seen (g.cells c0.y c0.x) with
        | some v => exact ih seen ht hm
        | none => exact ih _ ht hm
      · rw [if_neg hm0]
        exact ih seen ht hm

theorem seenAfter_values (g : Grid) :
    ∀ (l : List Coord) (seen : List (Nat × Nat)),
      (∀ (j : Nat) (e : Nat × Nat), seen[j]? = some e → e.2 = j % 100) →
      ∀ (j : Nat) (e : Nat × Nat), (seenAfter g l seen)[j]? = some e →
        e.2 = j % 100 := by
  intro l
  induction l with
  | nil =>
    intro seen hs j e
    exact hs j e
  | cons c0 rest ih =>
    intro seen hs j e
    unfold seenAfter
    by_cases hm0 : g.activeMask c0.y c0.x
    · rw [if_pos hm0]
      cases hg : alGet seen (g.cells c0.y c0.x) with
      | some v => exact ih seen hs j e
      | none =>
        refine ih _ ?_ j e
        intro j2 e2 he2
        rcases Nat.lt_or_ge j2 seen.length with hlt | hge
        · rw [List.getElem?_append, if_pos hlt] at he2
          exact hs j2 e2 he2
        · rw [List.getElem?_append, if_neg (by omega)] at he2
          cases hdd : j2 - seen.length with
          | zero =>
            rw [hdd] at he2
            simp only [List.getElem?_cons_zero, Option.some.injEq] at he2
            have hj2 : j2 = seen.length := by omega
            subst hj2
            rw [← he2]
          | succ n =>
            rw [hdd] at he2
            simp at he2
    · rw [if_neg hm0]
      exact ih seen hs j e

theorem seenAfter_nodup (g : Grid) :
    ∀ (l : List Coord) (seen : List (Nat × Nat)),
      (seen.map Prod.fst).Nodup → ((seenAfter g l seen).map Prod.fst).Nodup := by
  intro l
  induction l with
  | nil =>
    intro seen h
    exact h
  | cons c0 rest ih =>
    intro seen h
    unfold seenAfter
    by_cases hm0 : g.activeMask c0.y c0.x
    · rw [if_pos hm0]
      cases hg : alGet seen (g.cells c0.y c0.x) with
      | some v => exact ih seen h
      | none =>
        refine ih _ ?_
        have hnm := alGet_eq_none_iff.mp hg
        simp [List.nodup_append, h, hnm]
    · rw [if_neg hm0]
      exact ih seen h

theorem seenAfter_keys (g : Grid) :
    ∀ (l : List Coord) (seen : List (Nat × Nat)) (k : Nat),
      k ∈ (seenAfter g l seen).map Prod.fst →
      k ∈ seen.map Prod.fst ∨
        ∃ c, c ∈ l ∧ g.activeMask c.y c.x = true ∧ g.cells c.y c.x = k := by
  intro l
  induction l with
  | nil =>
    intro seen k h
    exact Or.inl h
  | cons c0 rest ih =>
    intro seen k h
    unfold seenAfter at h
    by_cases hm0 : g.activeMask c0.y c0.x
    · rw [if_pos hm0] at h
      cases hg : alGet seen (g.cells c0.y c0.x) with
      | some v =>
        rw [hg] at h
        rcases ih seen k h with h2 | ⟨c, hc, hcm, hck⟩
        · exact Or.inl h2
        · exact Or.inr ⟨c, List.mem_cons_of_mem _ hc, hcm, hck⟩
      | none =>
        rw [hg] at h
        rcases ih _ k h with h2 | ⟨c, hc, hcm, hck⟩
        · rw [List.map_append] at h2
          rcases List.mem_append.mp h2 with h3 | h3
          · exact Or.inl h3
          · simp only [List.map_cons, List.map_nil, List.mem_singleton] at h3
            exact Or.inr ⟨c0, List.mem_cons_self _ _, hm0, h3.symm⟩
        · exact Or.inr ⟨c, List.mem_cons_of_mem _ hc, hcm, hck⟩
    · rw [if_neg hm0] at h
      rcases ih seen k h with h2 | ⟨c, hc, hcm, hck⟩
      · exact Or.inl h2
      · exact Or.inr ⟨c, List.mem_cons_of_mem _ hc, hcm, hck⟩

theorem nodup_length_le {α : Type} [DecidableEq α] {l L : List α}
    (hnd : l.Nodup) (hsub : ∀ a ∈ l, a ∈ L) : l.length ≤ L.length := by
  calc l.length = l.toFinset.card := (List.toFinset_card_of_nodup hnd).symm
    _ ≤ L.toFinset.card := Finset.card_le_card
        (fun a ha => List.mem_toFinset.mpr (hsub a (List.mem_toFinset.mp ha)))
    _ ≤ L.length := L.toFinset_card_le

/-- The (first) clue whose cell holds the rectangle ID `k`. -/
def clueOfId (g : Grid) (k : Nat) : Coord :=
  ((g.areas.find? fun e => g.cells e.1.y e.1.x == k).map Prod.fst).getD ⟨0, 0⟩

theorem clueOfId_spec {g3 : Grid} {c3 : Nat} (hgg : GoodGrid g3 c3)
    {k : Nat} (hk : 0 < k)
    (hex : ∃ c, inBounds g3 c ∧ g3.cells c.y c.x = k) :
    clueOfId g3 k ∈ g3.areas.map Prod.fst ∧
      g3.cells (clueOfId g3 k).y (clueOfId g3 k).x = k := by
  obtain ⟨p, hgr, hiff⟩ := hgg.2 k hk hex
  obtain ⟨a, v, hav, hpa, harea, huniq⟩ := hgr.clue
  have hain : inBounds g3 a := by
    obtain ⟨e1, e2, e3, e4⟩ := hpa
    have hb1 := hgr.boundY
    have hb2 := hgr.boundX
    exact ⟨by omega, by omega⟩
  have hca : g3.cells a.y a.x = k := (hiff a hain).mpr hpa
  cases hf : g3.areas.find? fun e => g3.cells e.1.y e.1.x == k with
  | none =>
    exfalso
    have := List.find?_eq_none.mp hf (a, v) hav
    exact this (beq_iff_eq.mpr hca)
  | some e =>
    have hmem := List.mem_of_find?_eq_some hf
    have hpred := List.find?_some hf
    rw [beq_iff_eq] at hpred
    unfold clueOfId
    rw [hf]
    exact ⟨List.mem_map.mpr ⟨e, hmem, rfl⟩, hpred⟩

/-- In a full solution with foundation invariants, the first-seen label map
has at most as many entries as there are clues. -/
theorem seen_length_le {g3 : Grid} {c3 : Nat} (hgg : GoodGrid g3 c3)
    (hfull : ∀ u : Coord, inBounds g3 u → g3.activeMask u.y u.x = true →
      g3.cells u.y u.x ≠ 0) :
    (seenAfter g3 (rowMajor g3.size.height g3.size.width) []).length ≤
      g3.areas.length := by
  set S := seenAfter g3 (rowMajor g3.size.height g3.size.width) [] with hS
  have hknd : (S.map Prod.fst).Nodup := seenAfter_nodup g3 _ [] (by simp)
  have hkey : ∀ k ∈ S.map Prod.fst, 0 < k ∧
      ∃ c, inBounds g3 c ∧ g3.cells c.y c.x = k := by
    intro k hkm
    rcases seenAfter_keys g3 _ [] k hkm with h | ⟨c, hc, hcm, hck⟩
    · simp at h
    · have hcin : inBounds g3 c := by
        rw [rowMajor_mem] at hc
        exact hc
      have := hfull c hcin hcm
      exact ⟨by omega, c, hcin, hck⟩
  have hmapped : ∀ k ∈ S.map Prod.fst, clueOfId g3 k ∈ g3.areas.map Prod.fst :=
    fun k hkm => (clueOfId_spec hgg (hkey k hkm).1 (hkey k hkm).2).1
  have hinj : ∀ k1 ∈ S.map Prod.fst, ∀ k2 ∈ S.map Prod.fst,
      clueOfId g3 k1 = clueOfId g3 k2 → k1 = k2 := by
    intro k1 h1 k2 h2 he
    have hc1 := (clueOfId_spec hgg (hkey k1 h1).1 (hkey k1 h1).2).2
    have hc2 := (clueOfId_spec hgg (hkey k2 h2).1 (hkey k2 h2).2).2
    rw [he] at hc1
    rw [hc1] at hc2
    exact hc2
  have hnd2 : ((S.map Prod.fst).map (clueOfId g3)).Nodup := hknd.map_on hinj
  have hle := nodup_length_le hnd2 (by
    intro a ha
    rcases List.mem_map.mp ha with ⟨k, hk, hke⟩
    exact hke ▸ hmapped k hk)
  simpa using hle

/-- The two-digit label of a rectangle ID in a grid's canonical string. -/
def labelOf (g : Grid) (k : Nat) : Nat :=
  (alGet (seenAfter g (rowMajor g.size.height g.size.width) []) k).getD 0

/-- The label facts for a full solution with at most 100 clues: every active
cell's token is the two-digit label of its rectangle ID; labels are below
100 and injective across the occurring IDs. -/
theorem labelOf_spec {g3 : Grid} {c3 : Nat} (hgg : GoodGrid g3 c3)
    (hfull : ∀ u : Coord, inBounds g3 u → g3.activeMask u.y u.x = true →
      g3.cells u.y u.x ≠ 0)
    (hcnt : g3.areas.length ≤ 100) :
    (∀ u : Coord, inBounds g3 u → g3.activeMask u.y u.x = true →
      tokAt (lexicographicalGrid g3) (u.y * g3.size.width + u.x) =
        pad2 (labelOf g3 (g3.cells u.y u.x)) ∧
      labelOf g3 (g3.cells u.y u.x) < 100) ∧
    ∀ u1 u2 : Coord, inBounds g3 u1 → g3.activeMask u1.y u1.x = true →
      inBounds g3 u2 → g3.activeMask u2.y u2.x = true →
      labelOf g3 (g3.cells u1.y u1.x) = labelOf g3 (g3.cells u2.y u2.x) →
      g3.cells u1.y u1.x = g3.cells u2.y u2.x := by
  set S := seenAfter g3 (rowMajor g3.size.height g3.size.width) [] with hS
  have hSlen : S.length ≤ 100 := le_trans (seen_length_le hgg hfull) hcnt
  have hsome : ∀ u : Coord, inBounds g3 u → g3.activeMask u.y u.x = true →
      ∃ v, alGet S (g3.cells u.y u.x) = some v := by
    intro u hub hum
    have := seenAfter_mem g3 _ [] (rowMajor_mem.mpr ⟨hub.1, hub.2⟩) hum
    rwa [Option.isSome_iff_exists] at this
  have hidx : ∀ {k v}, alGet S k = some v →
      ∃ j, j < S.length ∧ S[j]? = some (k, v) := by
    intro k v hkv
    have hm := alGet_mem hkv
    rcases List.mem_iff_getElem?.mp hm with ⟨j, hj⟩
    refine ⟨j, ?_, hj⟩
    by_contra hge
    rw [List.getElem?_eq_none (by omega)] at hj
    cases hj
  have hval : ∀ {k v}, alGet S k = some v → ∃ j, j < S.length ∧
      S[j]? = some (k, v) ∧ v = j := by
    intro k v hkv
    rcases hidx hkv with ⟨j, hjl, hj⟩
    have hvj : v = j % 100 :=
      seenAfter_values g3 _ [] (by intro j2 e2 he2; simp at he2) j (k, v) hj
    refine ⟨j, hjl, hj, ?_⟩
    omega
  have hinj : ∀ {k1 k2 v}, alGet S k1 = some v → alGet S k2 = some v → k1 = k2 := by
    intro k1 k2 v h1 h2
    rcases hval h1 with ⟨j1, hl1, hj1, hv1⟩
    rcases hval h2 with ⟨j2, hl2, hj2, hv2⟩
    have hj12 : j1 = j2 := by omega
    subst hj12
    rw [hj1] at hj2
    have := Option.some.inj hj2
    exact congrArg Prod.fst this
  constructor
  · intro u hub hum
    obtain ⟨v, hv⟩ := hsome u hub hum
    have htok := lexicographicalGrid_tokAt g3 hub
    rw [if_pos hum] at htok
    have hlt : v < 100 := by
      rcases hval hv with ⟨j, hjl, -, hvj⟩
      omega
    constructor
    · rw [htok]
      unfold labelOf
      rw [← hS]
    · unfold labelOf
      rw [← hS, hv]
      exact hlt
  · intro u1 u2 h1b h1m h2b h2m he
    obtain ⟨v1, hv1⟩ := hsome u1 h1b h1m
    obtain ⟨v2, hv2⟩ := hsome u2 h2b h2m
    unfold labelOf at he
    rw [← hS, hv1, hv2] at he
    simp only [Option.getD_some] at he
    subst he
    exact hinj hv1 hv2

/-- The C1 partition property of a canonical string on a board: every label
occurring on an active cell tags exactly the cells of an in-bounds rectangle
that contains exactly one clue whose value is the rectangle's area.
(Disjointness of distinct labels' rectangles and the union property follow:
tagging is a function of the cell, and every active cell carries its own
label.) -/
def C1Prop (g : Grid) (s : Str) : Prop :=
  ∀ t : Str, t ≠ VOID_TOKEN →
    (∃ c : Coord, inBounds g c ∧ g.activeMask c.y c.x = true ∧
      tokAt s (c.y * g.size.width + c.x) = t) →
    ∃ p : Possibility,
      p.start.y + p.size.height ≤ g.size.height ∧
      p.start.x + p.size.width ≤ g.size.width ∧
      (∀ c : Coord, inBounds g c →
        ((g.activeMask c.y c.x = true ∧
          tokAt s (c.y * g.size.width + c.x) = t) ↔ pCells p c)) ∧
      ∃ a v, (a, v) ∈ g.areas ∧ pCells p a ∧
        p.size.height * p.size.width = v ∧
        ∀ b w, (b, w) ∈ g.areas → pCells p b → b = a

/-- The canonical string of a full solution with at most 100 clues satisfies
the partition property. -/
theorem lexGrid_C1Prop {g3 : Grid} {c3 : Nat} (hgg : GoodGrid g3 c3)
    (hfull : ∀ u : Coord, inBounds g3 u → g3.activeMask u.y u.x = true →
      g3.cells u.y u.x ≠ 0)
    (hcnt : g3.areas.length ≤ 100) :
    C1Prop g3 (lexicographicalGrid g3) := by
  obtain ⟨htok, hinj⟩ := labelOf_spec hgg hfull hcnt
  rintro t htv ⟨c0, h0b, h0m, h0t⟩
  have h0 := htok c0 h0b h0m
  have hid0 : g3.cells c0.y c0.x ≠ 0 := hfull c0 h0b h0m
  obtain ⟨p, hgr, hiff⟩ := hgg.2 (g3.cells c0.y c0.x) (by omega) ⟨c0, h0b, rfl⟩
  refine ⟨p, hgr.boundY, hgr.boundX, ?_, hgr.clue⟩
  intro c hcb
  constructor
  · rintro ⟨hcm, hct⟩
    have hc := htok c hcb hcm
    have hlab : labelOf g3 (g3.cells c.y c.x) = labelOf g3 (g3.cells c0.y c0.x) := by
      apply pad2_inj hc.2 h0.2
      rw [← hc.1, ← h0.1, hct, h0t]
    have hide := hinj c c0 hcb hcm h0b h0m hlab
    exact (hiff c hcb).mp hide
  · intro hpc
    have hcm : g3.activeMask c.y c.x = true := hgr.active c hpc
    have hcells : g3.cells c.y c.x = g3.cells c0.y c0.x := (hiff c hcb).mpr hpc
    refine ⟨hcm, ?_⟩
    rw [(htok c hcb hcm).1, hcells, ← h0.1, h0t]

/-- `s` is the canonical string of a full solution reachable from state
`(g, ctr)` by filling `0` cells with fresh IDs. -/
def SolutionOf (g : Grid) (ctr : Nat) (s : Str) : Prop :=
  ∃ g3 c3, sameShape g g3 ∧ GoodGrid g3 c3 ∧ CellsEvolve g g3 ctr c3 ∧
    (∀ u : Coord, inBounds g3 u → g3.activeMask u.y u.x = true →
      g3.cells u.y u.x ≠ 0) ∧
    s = lexicographicalGrid g3

theorem sameShape_symm {g g2 : Grid} (h : sameShape g g2) : sameShape g2 g :=
  ⟨h.1.symm, h.2.1.symm, h.2.2.symm⟩

theorem SolutionOf_mono {g : Grid} {c c0 : Nat} {s : Str} (h : SolutionOf g c s)
    (hle : c0 ≤ c) : SolutionOf g c0 s := by
  obtain ⟨g3, c3, hsh, hgg, hev, hfull, hse⟩ := h
  refine ⟨g3, c3, hsh, hgg, ⟨by have := hev.1; omega, ?_⟩, hfull, hse⟩
  intro y x
  rcases hev.2 y x with h2 | ⟨h2a, h2b, h2c⟩
  · exact Or.inl h2
  · exact Or.inr ⟨h2a, by omega, h2c⟩

theorem SolutionOf_lift {g gr : Grid} {ctr cr : Nat} {s : Str}
    (hsh : sameShape g gr) (hev : CellsEvolve g gr ctr cr)
    (h : SolutionOf gr cr s) : SolutionOf g ctr s := by
  obtain ⟨g3, c3, hsh2, hgg, hev2, hfull, hse⟩ := h
  exact ⟨g3, c3, sameShape_trans hsh hsh2, hgg, CellsEvolve_comp hev hev2,
    hfull, hse⟩

/-- The memoization-cache invariant: every cached string under key `z` is a
full-solution canonical string of some good state whose empty-cell hash
is `z`. -/
def CacheOK (g0 : Grid) (cache : List (List Coord × List Str)) : Prop :=
  ∀ z ss, (z, ss) ∈ cache → ∀ s ∈ ss,
    ∃ gS cS, sameShape g0 gS ∧ GoodGrid gS cS ∧ zerosHash gS = z ∧
      SolutionOf gS cS s

theorem CacheOK_shape {g0 g1 : Grid} (hsh : sameShape g0 g1)
    {cache : List (List Coord × List Str)} (h : CacheOK g0 cache) :
    CacheOK g1 cache := by
  intro z ss hm s hs
  obtain ⟨gS, cS, h1, h2, h3, h4⟩ := h z ss hm s hs
  exact ⟨gS, cS, sameShape_trans (sameShape_symm hsh) h1, h2, h3, h4⟩

/-- Replaying a cached full-solution string on a compatible state (same
shape, same empty-cell hash) yields a full-solution string for that state:
the parsed labels, offset by the current counter, reconstitute the cached
solution's rectangles on the empty region. -/
theorem replay_sound {g2 gC : Grid} {c2 cC : Nat} {s : Str}
    (hs : SolutionOf g2 c2 s)
    (hgg2 : GoodGrid g2 c2)
    (hggC : GoodGrid gC cC) (hcC : 1 ≤ cC)
    (hshC : sameShape g2 gC)
    (hz : zerosHash g2 = zerosHash gC)
    (hcnt : g2.areas.length ≤ 100) :
    SolutionOf gC cC (lexicographicalGrid (applyCached gC cC s)) := by
  obtain ⟨g3, c3, hsh3, hgg3, hev3, hfull3, hse⟩ := hs
  subst hse
  have har23 : g2.areas = g3.areas := hsh3.2.1
  have hm23 : g2.activeMask = g3.activeMask := hsh3.2.2
  have hsz3C : g3.size = gC.size := hsh3.1.symm.trans hshC.1
  have hm3C : g3.activeMask = gC.activeMask := hsh3.2.2.symm.trans hshC.2.2
  have hW : g3.size.width = gC.size.width := congrArg Size.width hsz3C
  have hcnt3 : g3.areas.length ≤ 100 := by
    rw [← har23]
    exact hcnt
  obtain ⟨htok, hinj⟩ := labelOf_spec hgg3 hfull3 hcnt3
  have hbC3 : ∀ u : Coord, inBounds gC u ↔ inBounds g3 u := by
    intro u
    unfold inBounds
    rw [hsz3C]
  have hbC2 : ∀ u : Coord, inBounds gC u ↔ inBounds g2 u := by
    intro u
    unfold inBounds
    rw [hshC.1]
  have hlist : emptyCells g2 = emptyCells gC := hz
  have hzact : ∀ u : Coord,
      (inBounds gC u ∧ gC.cells u.y u.x = 0 ∧ gC.activeMask u.y u.x = true) ↔
      (inBounds g2 u ∧ g2.cells u.y u.x = 0 ∧ g2.activeMask u.y u.x = true) := by
    intro u
    rw [← emptyCells_mem, ← emptyCells_mem, hlist]
  have hc4 : ∀ y x, (applyCached gC cC (lexicographicalGrid g3)).cells y x =
      if y < gC.size.height ∧ x < gC.size.width ∧ gC.cells y x = 0 ∧
          gC.activeMask y x = true then
        parseTok (((lexicographicalGrid g3).drop
          ((y * gC.size.width + x) * 2)).take 2) + cC
      else gC.cells y x := fun y x => rfl
  have hslice : ∀ i, ((lexicographicalGrid g3).drop (i * 2)).take 2 =
      tokAt (lexicographicalGrid g3) i := by
    intro i
    unfold tokAt
    rw [Nat.mul_comm]
  have hover : ∀ u : Coord, inBounds gC u → gC.cells u.y u.x = 0 →
      gC.activeMask u.y u.x = true →
      g3.cells u.y u.x ≠ 0 ∧ c2 ≤ g3.cells u.y u.x ∧
      labelOf g3 (g3.cells u.y u.x) < 100 ∧
      (applyCached gC cC (lexicographicalGrid g3)).cells u.y u.x =
        labelOf g3 (g3.cells u.y u.x) + cC := by
    intro u hub huc hum
    have hu2 := (hzact u).mp ⟨hub, huc, hum⟩
    have hub3 : inBounds g3 u := (hbC3 u).mp hub
    have hum3 : g3.activeMask u.y u.x = true := by
      rw [← hm23]
      exact hu2.2.2
    have hne3 : g3.cells u.y u.x ≠ 0 := hfull3 u hub3 hum3
    have hc2le : c2 ≤ g3.cells u.y u.x := by
      rcases hev3.2 u.y u.x with h2 | ⟨-, h2b, -⟩
      · rw [h2] at hne3
        exact absurd hu2.2.1 hne3
      · exact h2b
    have htoku := htok u hub3 hum3
    refine ⟨hne3, hc2le, htoku.2, ?_⟩
    rw [hc4 u.y u.x, if_pos ⟨hub.1, hub.2, huc, hum⟩, hslice]
    rw [← hW, htoku.1, parseTok_pad2 htoku.2]
  have hkeep : ∀ y x, ¬(y < gC.size.height ∧ x < gC.size.width ∧
      gC.cells y x = 0 ∧ gC.activeMask y x = true) →
      (applyCached gC cC (lexicographicalGrid g3)).cells y x = gC.cells y x := by
    intro y x h
    rw [hc4, if_neg h]
  have hsh4 : sameShape gC (applyCached gC cC (lexicographicalGrid g3)) :=
    applyCached_shape gC cC _
  have hsh3to4 : sameShape g3 (applyCached gC cC (lexicographicalGrid g3)) :=
    sameShape_trans (sameShape_trans (sameShape_symm hsh3) hshC) hsh4
  have hbC4 : ∀ u : Coord,
      inBounds (applyCached gC cC (lexicographicalGrid g3)) u ↔ inBounds gC u := by
    intro u
    unfold inBounds
    rw [hsh4.1]
  refine ⟨applyCached gC cC (lexicographicalGrid g3), cC + 100, hsh4,
    ⟨?_, ?_⟩, ⟨by omega, ?_⟩, ?_, rfl⟩
  · -- bound
    intro c hcb
    have hcbC : inBounds gC c := (hbC4 c).mp hcb
    by_cases hP : c.y < gC.size.height ∧ c.x < gC.size.width ∧
        gC.cells c.y c.x = 0 ∧ gC.activeMask c.y c.x = true
    · obtain ⟨-, -, hl, hv⟩ := hover c ⟨hP.1, hP.2.1⟩ hP.2.2.1 hP.2.2.2
      rw [hv]
      omega
    · rw [hkeep c.y c.x hP]
      have := hggC.1 c hcbC
      omega
  · -- groups
    intro id hid hex
    obtain ⟨cw, hcwb, hcwv⟩ := hex
    have hcwbC : inBounds gC cw := (hbC4 cw).mp hcwb
    by_cases hcase : id < cC
    · have hcwO : ¬(cw.y < gC.size.height ∧ cw.x < gC.size.width ∧
          gC.cells cw.y cw.x = 0 ∧ gC.activeMask cw.y cw.x = true) := by
        intro hP
        obtain ⟨-, -, -, hv⟩ := hover cw ⟨hP.1, hP.2.1⟩ hP.2.2.1 hP.2.2.2
        rw [hv] at hcwv
        omega
      have hgCv : gC.cells cw.y cw.x = id := by
        rw [← hkeep cw.y cw.x hcwO]
        exact hcwv
      obtain ⟨p, hgr, hiff⟩ := hggC.2 id hid ⟨cw, hcwbC, hgCv⟩
      refine ⟨p, GoodRect_shape hsh4 hgr, ?_⟩
      intro c hcb
      have hcbC : inBounds gC c := (hbC4 c).mp hcb
      constructor
      · intro hcv
        by_cases hP : c.y < gC.size.height ∧ c.x < gC.size.width ∧
            gC.cells c.y c.x = 0 ∧ gC.activeMask c.y c.x = true
        · obtain ⟨-, -, -, hv⟩ := hover c ⟨hP.1, hP.2.1⟩ hP.2.2.1 hP.2.2.2
          rw [hv] at hcv
          omega
        · rw [hkeep c.y c.x hP] at hcv
          exact (hiff c hcbC).mp hcv
      · intro hpc
        have hgCc : gC.cells c.y c.x = id := (hiff c hcbC).mpr hpc
        have hP : ¬(c.y < gC.size.height ∧ c.x < gC.size.width ∧
            gC.cells c.y c.x = 0 ∧ gC.activeMask c.y c.x = true) := by
          intro hP
          rw [hP.2.2.1] at hgCc
          omega
        rw [hkeep c.y c.x hP]
        exact hgCc
    · have hcwP : cw.y < gC.size.height ∧ cw.x < gC.size.width ∧
          gC.cells cw.y cw.x = 0 ∧ gC.activeMask cw.y cw.x = true := by
        by_contra hP
        rw [hkeep cw.y cw.x hP] at hcwv
        have := hggC.1 cw hcwbC
        omega
      obtain ⟨hne3w, hc2w, hlw, hvw⟩ := hover cw ⟨hcwP.1, hcwP.2.1⟩
        hcwP.2.2.1 hcwP.2.2.2
      have hidw : id = labelOf g3 (g3.cells cw.y cw.x) + cC := by
        rw [← hcwv, hvw]
      have hcwb3 : inBounds g3 cw := (hbC3 cw).mp hcwbC
      have hcwm3 : g3.activeMask cw.y cw.x = true := by
        rw [hm3C]
        exact hcwP.2.2.2
      obtain ⟨p, hgr3, hiff3⟩ := hgg3.2 (g3.cells cw.y cw.x)
        (by omega) ⟨cw, hcwb3, rfl⟩
      refine ⟨p, GoodRect_shape hsh3to4 hgr3, ?_⟩
      intro c hcb
      have hcbC : inBounds gC c := (hbC4 c).mp hcb
      have hcb3 : inBounds g3 c := (hbC3 c).mp hcbC
      constructor
      · intro hcv
        by_cases hP : c.y < gC.size.height ∧ c.x < gC.size.width ∧
            gC.cells c.y c.x = 0 ∧ gC.activeMask c.y c.x = true
        · obtain ⟨hne3c, hc2c, hlc, hvc⟩ := hover c ⟨hP.1, hP.2.1⟩
            hP.2.2.1 hP.2.2.2
          have hcm3 : g3.activeMask c.y c.x = true := by
            rw [hm3C]
            exact hP.2.2.2
          have hlab : labelOf g3 (g3.cells c.y c.x) =
              labelOf g3 (g3.cells cw.y cw.x) := by
            rw [hvc] at hcv
            omega
          have h3c := hinj c cw hcb3 hcm3 hcwb3 hcwm3 hlab
          exact (hiff3 c hcb3).mp h3c
        · exfalso
          rw [hkeep c.y c.x hP] at hcv
          have := hggC.1 c hcbC
          omega
      · intro hpc
        have h3c : g3.cells c.y c.x = g3.cells cw.y cw.x := (hiff3 c hcb3).mpr hpc
        have hm3c : g3.activeMask c.y c.x = true := hgr3.active c hpc
        have h2z : g2.cells c.y c.x = 0 := by
          rcases hev3.2 c.y c.x with h2 | ⟨h2a, -, -⟩
          · exfalso
            have hbg2 : inBounds g2 c := (hbC2 c).mp hcbC
            have hlt := hgg2.1 c hbg2
            rw [← h2, h3c] at hlt
            omega
          · exact h2a
        have hm2c : g2.activeMask c.y c.x = true := by
          rw [hm23]
          exact hm3c
        have hPc := (hzact c).mpr ⟨(hbC2 c).mp hcbC, h2z, hm2c⟩
        obtain ⟨-, -, -, hvc⟩ := hover c hPc.1 hPc.2.1 hPc.2.2
        rw [hvc, h3c, ← hidw]
  · -- CellsEvolve gC g4 cC (cC + 100)
    intro y x
    by_cases hP : y < gC.size.height ∧ x < gC.size.width ∧
        gC.cells y x = 0 ∧ gC.activeMask y x = true
    · obtain ⟨-, -, hl, hv⟩ := hover ⟨y, x⟩ ⟨hP.1, hP.2.1⟩ hP.2.2.1 hP.2.2.2
      refine Or.inr ⟨hP.2.2.1, ?_, ?_⟩
      · rw [hv]
        omega
      · rw [hv]
        omega
    · exact Or.inl (hkeep y x hP)
  · -- full coverage
    intro u hub hum
    have hubC : inBounds gC u := (hbC4 u).mp hub
    have humC : gC.activeMask u.y u.x = true := by
      rw [hsh4.2.2]
      exact hum
    by_cases hP : u.y < gC.size.height ∧ u.x < gC.size.width ∧
        gC.cells u.y u.x = 0 ∧ gC.activeMask u.y u.x = true
    · obtain ⟨-, -, -, hv⟩ := hover u ⟨hP.1, hP.2.1⟩ hP.2.2.1 hP.2.2.2
      rw [hv]
      omega
    · rw [hkeep u.y u.x hP]
      intro hc0
      exact hP ⟨hubC.1, hubC.2, hc0, humC⟩

/-- The branch loop under a soundness hypothesis on the recursive searcher:
whatever it returns, the accumulated strings are all full-solution strings of
the pre-branch state, and the cache invariant is preserved. -/
theorem branchLoop_sound
    (recur : RMap → Grid → SolverState → RWAOut) (g2 : Grid) (c2 : Nat) :
    ∀ (brs : List (Possibility × RMap)) (st : SolverState) (acc : List Str),
      c2 ≤ st.rectangleCounter →
      CacheOK g2 st.cache →
      (∀ s ∈ acc, SolutionOf g2 c2 s) →
      (∀ br ∈ brs, ∀ st3 : SolverState,
        c2 ≤ st3.rectangleCounter → CacheOK g2 st3.cache →
        ∀ {r : Option (List Str)} {st4 : SolverState} {g4 : Grid},
          recur br.2 g2.copy st3 = .out r st4 g4 →
          st3.rectangleCounter ≤ st4.rectangleCounter ∧
          CacheOK g2 st4.cache ∧
          ∀ s ∈ r.getD [], SolutionOf g2 c2 s) →
      ∀ {r : Option (List Str)} {st2 : SolverState} {g3 : Grid},
        branchLoop recur g2 brs st acc = .out r st2 g3 →
        c2 ≤ st2.rectangleCounter ∧ CacheOK g2 st2.cache ∧
        ∀ s ∈ r.getD [], SolutionOf g2 c2 s := by
  intro brs
  induction brs with
  | nil =>
    intro st acc hctr hcache hacc hrec r st2 g3 h
    simp only [branchLoop] at h
    cases h
    exact ⟨hctr, hcache, hacc⟩
  | cons br rest ih =>
    intro st acc hctr hcache hacc hrec r st2 g3 h
    simp only [branchLoop] at h
    split at h
    · cases h
    · cases h
    · rename_i r0 st20 g20 hx
      obtain ⟨hmon, hcache2, hsols⟩ :=
        hrec br (List.mem_cons_self _ _) st hctr hcache hx
      refine ih st20 _ (le_trans hctr hmon) hcache2 ?_
        (fun br2 hm => hrec br2 (List.mem_cons_of_mem _ hm)) h
      intro s hs
      cases r0 with
      | none => exact hacc s hs
      | some ss =>
        rcases (mem_foldl_setAdd_id ss acc s).mp hs with h2 | h2
        · exact hacc s h2
        · exact hsols s h2

/-- Soundness of the search: from a good state with at most 100 clues and a
sound memoization cache, every string in a normal (`out`) result is the
canonical string of a full solution reachable from the entry state, and the
cache invariant is maintained. -/
theorem rwa_sound :
    ∀ (fuel : Nat) (rem : RMap) (g : Grid) (st : SolverState),
      GoodGrid g st.rectangleCounter → GoodRem g rem →
      1 ≤ st.rectangleCounter →
      g.areas.length ≤ 100 →
      CacheOK g st.cache →
      ∀ {res : Option (List Str)} {st2 : SolverState} {g2 : Grid},
        resolveWithAssumptions fuel rem g st = .out res st2 g2 →
        st.rectangleCounter ≤ st2.rectangleCounter ∧
        CacheOK g st2.cache ∧
        ∀ s ∈ res.getD [], SolutionOf g st.rectangleCounter s := by
  intro fuel
  induction fuel with
  | zero =>
    intro rem g st hgg hrem hctr hcnt hcache res st2 g2 h
    simp only [resolveWithAssumptions] at h
    cases h
  | succ fuel ih =>
    intro rem g st hgg hrem hctr hcnt hcache res st2 g2 h
    simp only [resolveWithAssumptions, rwaStep] at h
    split at h
    · cases h
    · cases h
    · rename_i gr cr h1
      cases h
      obtain ⟨-, hev, -, -, -, -⟩ := (resolve_master hgg hrem hctr).2 h1
      exact ⟨hev.1, hcache, fun s hs => absurd hs (List.not_mem_nil _)⟩
    · rename_i m gr cr h1
      obtain ⟨hgg2, hev, -, hc2, -, hsomeR⟩ := (resolve_master hgg hrem hctr).2 h1
      obtain ⟨hgrem2, -, hcov⟩ := hsomeR rfl
      have hshape : sameShape g gr := resolve_shape h1
      have harea : g.areas = gr.areas := hshape.2.1
      split at h
      · rename_i hie
        cases h
        have hm : m = [] := by simpa using hie
        subst hm
        have hfull : ∀ u : Coord, inBounds g2 u → g2.activeMask u.y u.x = true →
            g2.cells u.y u.x ≠ 0 := by
          intro u hub hum hc0
          obtain ⟨a2, l2, p2, hal, -, -⟩ := hcov u hub hum hc0
          cases hal
        refine ⟨hev.1, hcache, ?_⟩
        intro s hs
        simp only [Option.getD_some, List.mem_singleton] at hs
        subst hs
        exact ⟨g2, cr, hshape, hgg2, hev, hfull, rfl⟩
      · rename_i hie
        split at h
        · rename_i cached hcget
          split at h
          · cases h
            exact ⟨hev.1, hcache, fun s hs => absurd hs (List.not_mem_nil _)⟩
          · rename_i hce
            cases h
            refine ⟨hev.1, hcache, ?_⟩
            intro s hs
            simp only [Option.getD_some] at hs
            rcases (mem_foldl_setAdd
              (fun s0 => lexicographicalGrid (applyCached g2.copy cr s0))
              cached [] s).mp hs with h2 | ⟨s0, hs0, hse⟩
            · exact absurd h2 (List.not_mem_nil _)
            · obtain ⟨gS, cS, hshS, hggS, hzS, hsolS⟩ :=
                hcache (zerosHash g2) cached (alGet_mem hcget) s0 hs0
              have hcntS : gS.areas.length ≤ 100 := by
                rw [← hshS.2.1]
                exact hcnt
              have hrep := replay_sound hsolS hggS hgg2 hc2
                (sameShape_trans (sameShape_symm hshS) hshape) hzS hcntS
              subst hse
              exact SolutionOf_lift hshape hev hrep
        · rename_i hcget
          split at h
          · cases h
          · cases h
          · rename_i r3 st3 g3 hx
            cases h
            have hrec : ∀ br ∈ getAssumedPossibilitiesFromAnArea m,
                ∀ st3p : SolverState, cr ≤ st3p.rectangleCounter →
                CacheOK g2 st3p.cache →
                ∀ {r : Option (List Str)} {st4 : SolverState} {g4 : Grid},
                  resolveWithAssumptions fuel br.2 g2.copy st3p = .out r st4 g4 →
                  st3p.rectangleCounter ≤ st4.rectangleCounter ∧
                  CacheOK g2 st4.cache ∧
                  ∀ s ∈ r.getD [], SolutionOf g2 cr s := by
              intro br hbr st3p hmon3p hcache3p
              obtain ⟨l, hgal, hpin, hbr2⟩ := getAssumed_mem hbr
              have ha_in_m : getAreaCandidate m ∈ m.map Prod.fst := by
                rw [← alGet_isSome_iff, hgal]
                rfl
              have hgg3 : GoodGrid g2 st3p.rectangleCounter :=
                GoodGrid_mono hgg2 hmon3p
              have h1c : 1 ≤ st3p.rectangleCounter := le_trans hc2 hmon3p
              have hgrem3 : GoodRem g2 br.2 := by
                rw [hbr2]
                constructor
                · rw [alSet_keys m _ _ ha_in_m]
                  exact hgrem2.1
                · intro b qs hm2
                  rcases alSet_mem hm2 with ⟨hbq, hqs⟩ | hm3
                  · subst hbq
                    subst hqs
                    obtain ⟨hc0, v, hv, hvl⟩ := hgrem2.2 _ l (alGet_mem hgal)
                    refine ⟨hc0, v, hv, ?_⟩
                    intro q hq
                    rw [List.mem_singleton] at hq
                    subst hq
                    exact hvl br.1 hpin
                  · exact hgrem2.2 b qs hm3
              have hcnt2 : g2.areas.length ≤ 100 := by
                rw [← harea]
                exact hcnt
              intro r st4 g4 hr
              obtain ⟨hmon4, hcache4, hsols4⟩ :=
                ih br.2 g2.copy st3p hgg3 hgrem3 h1c hcnt2 hcache3p hr
              refine ⟨hmon4, hcache4, ?_⟩
              intro s hs
              exact SolutionOf_mono (hsols4 s hs) hmon3p
            obtain ⟨hmon3, hcache3, hsols3⟩ := branchLoop_sound
              (resolveWithAssumptions fuel) g2 cr
              (getAssumedPossibilitiesFromAnArea m)
              { st with rectangleCounter := cr } []
              (le_refl cr) (CacheOK_shape hshape hcache)
              (fun s hs => absurd hs (List.not_mem_nil _)) hrec hx
            refine ⟨le_trans hev.1 hmon3, ?_, ?_⟩
            · intro z0 ss hm0 s hs
              rcases alSet_mem hm0 with ⟨hz0, hss⟩ | hm3
              · subst hz0
                subst hss
                exact ⟨g2, cr, hshape, hgg2, rfl, hsols3 s hs⟩
              · exact CacheOK_shape (sameShape_symm hshape) hcache3 z0 ss hm3 s hs
            · intro s hs
              have hs2 : s ∈ r3.getD [] := by
                by_cases hc0 : (r3.getD []).isEmpty = true
                · rw [if_pos hc0] at hs
                  simp only [Option.getD_none] at hs
                  exact absurd hs (List.not_mem_nil _)
                · rw [if_neg hc0] at hs
                  exact hs
              exact SolutionOf_lift hshape hev (hsols3 s hs2)

/-- The partition property transfers along shape equality (it only mentions the
board's size, areas and mask). -/
theorem C1Prop_shape {g g3 : Grid} (hsh : sameShape g g3) {s : Str}
    (h : C1Prop g3 s) : C1Prop g s := by
  intro t htv hex
  obtain ⟨c0, h0b, h0m, h0t⟩ := hex
  have h0b3 : inBounds g3 c0 := by
    unfold inBounds at h0b ⊢
    rw [← hsh.1]
    exact h0b
  obtain ⟨p, hby, hbx, hiff, a, v, hav, hpa, hrect, huniq⟩ := h t htv
    ⟨c0, h0b3, by rw [← hsh.2.2]; exact h0m, by rw [← hsh.1]; exact h0t⟩
  refine ⟨p, by rw [hsh.1]; exact hby, by rw [hsh.1]; exact hbx, ?_,
    a, v, by rw [hsh.2.1]; exact hav, hpa, hrect, ?_⟩
  · intro c hcb
    have hcb3 : inBounds g3 c := by
      unfold inBounds at hcb ⊢
      rw [← hsh.1]
      exact hcb
    rw [hsh.2.2, hsh.1]
    exact hiff c hcb3
  · intro b w hb
    exact huniq b w (by rw [← hsh.2.1]; exact hb)

/-- C1 (amended: the board has at most 100 clues): every canonical string
returned by `shikakuSolve` on a fresh valid board partitions the active cells
by its non-void labels — the cells tagged with each occurring label form a
filled in-bounds rectangle containing exactly one clue whose value equals the
rectangle's area, and every active cell carries a non-void label (so the
rectangles are pairwise disjoint and cover the active region).  Without the
100-clue bound the claim is false: labels are emitted modulo 100
(`C1_counterexample_label_wraparound`). -/
theorem C1_solution_partition (st : SolverState) (g : Grid)
    (hzero : ∀ y x, g.cells y x = 0)
    (hnd : (g.areas.map Prod.fst).Nodup)
    (hcnt : g.areas.length ≤ 100) :
    ∀ {res : Option (List Str)} {st2 : SolverState} {g2 : Grid},
      shikakuSolve st g = .out res st2 g2 →
      ∀ s ∈ res.getD [],
        C1Prop g s ∧
        ∀ c : Coord, inBounds g c → g.activeMask c.y c.x = true →
          tokAt s (c.y * g.size.width + c.x) ≠ VOID_TOKEN := by
  intro res st2 g2 h
  have hgg : GoodGrid g 1 := zero_GoodGrid hzero
  have hrem : GoodRem g (initialPossibilitiesCalculation g) :=
    initial_GoodRem hnd hzero
  have hsound := rwa_sound (g.areas.length + 1) (initialPossibilitiesCalculation g)
    g ⟨1, []⟩ hgg hrem (le_refl 1) hcnt
    (fun z ss hm => absurd hm (List.not_mem_nil _)) h
  intro s hs
  obtain ⟨g3, c3, hsh, hgg3, hev, hfull, hse⟩ := hsound.2.2 s hs
  subst hse
  have hcnt3 : g3.areas.length ≤ 100 := by
    rw [← hsh.2.1]
    exact hcnt
  constructor
  · exact C1Prop_shape hsh (lexGrid_C1Prop hgg3 hfull hcnt3)
  · intro c hcb hcm
    have hcb3 : inBounds g3 c := by
      unfold inBounds at hcb ⊢
      rw [← hsh.1]
      exact hcb
    have hcm3 : g3.activeMask c.y c.x = true := by
      rw [← hsh.2.2]
      exact hcm
    have ht := lexicographicalGrid_tokAt g3 hcb3
    rw [if_pos hcm3] at ht
    rw [hsh.1, ht]
    exact pad2_ne_void _

/-- C1 witness: on the 2×2 board with the single clue 4 the returned string
`"00000000"` satisfies the partition property, and the token of the active
cell (0,0) is not void. -/
theorem C1_solution_partition_witness :
    C1Prop demoGrid22 ['0', '0', '0', '0', '0', '0', '0', '0'] ∧
    tokAt ['0', '0', '0', '0', '0', '0', '0', '0']
      (0 * demoGrid22.size.width + 0) ≠ VOID_TOKEN := by
  have h := C1_solution_partition ⟨1, []⟩ demoGrid22 (fun _ _ => rfl)
    (by decide) (by decide)
    (show shikakuSolve ⟨1, []⟩ demoGrid22 =
        .out (shikakuSolve ⟨1, []⟩ demoGrid22).strings
          (shikakuSolve ⟨1, []⟩ demoGrid22).stateOf
          (shikakuSolve ⟨1, []⟩ demoGrid22).gridOf from rfl)
    ['0', '0', '0', '0', '0', '0', '0', '0'] (by decide)
  exact ⟨h.1, h.2 ⟨0, 0⟩ (by decide) (by decide)⟩

/-- The 101×1 column whose every cell is a clue of value 1: a valid board
with 101 rectangles, one more than the canonicalizer's label space. -/
def demoWrap : Grid :=
  { size := ⟨101, 1⟩
    areas := (List.range 101).map fun y => (⟨y, 0⟩, 1)
    cells := fun _ _ => 0
    activeMask := fun y x => decide (y < 101) && decide (x < 1) }

/-- The single canonical string the solver returns on `demoWrap`: the
tokens are "00", "01", …, "99" and then "00" again for the 101st
rectangle. -/
def demoWrapStr : Str := ['0', '0', '0', '1', '0', '2', '0', '3', '0', '4', '0', '5', '0', '6', '0', '7', '0', '8', '0', '9', '1', '0', '1', '1', '1', '2', '1', '3', '1', '4', '1', '5', '1', '6', '1', '7', '1', '8', '1', '9', '2', '0', '2', '1', '2', '2', '2', '3', '2', '4', '2', '5', '2', '6', '2', '7', '2', '8', '2', '9', '3', '0', '3', '1', '3', '2', '3', '3', '3', '4', '3', '5', '3', '6', '3', '7', '3', '8', '3', '9', '4', '0', '4', '1', '4', '2', '4', '3', '4', '4', '4', '5', '4', '6', '4', '7', '4', '8', '4', '9', '5', '0', '5', '1', '5', '2', '5', '3', '5', '4', '5', '5', '5', '6', '5', '7', '5', '8', '5', '9', '6', '0', '6', '1', '6', '2', '6', '3', '6', '4', '6', '5', '6', '6', '6', '7', '6', '8', '6', '9', '7', '0', '7', '1', '7', '2', '7', '3', '7', '4', '7', '5', '7', '6', '7', '7', '7', '8', '7', '9', '8', '0', '8', '1', '8', '2', '8', '3', '8', '4', '8', '5', '8', '6', '8', '7', '8', '8', '8', '9', '9', '0', '9', '1', '9', '2', '9', '3', '9', '4', '9', '5', '9', '6', '9', '7', '9', '8', '9', '9', '0', '0']

/-- C1 counterexample: the original claim fails without a bound on the
number of clues.  `demoWrap` satisfies the solve precondition (valid
dimensions, clues active with values ≥ 1 summing to the active-cell count),
the solver returns exactly one canonical string, and in it the label "00"
tags the two distant cells (0,0) and (100,0) but not (1,0): the cells
tagged "00" are not a rectangle, because the first-seen labels are emitted
modulo 100 and wrap around. -/
theorem C1_counterexample_label_wraparound :
    (1 ≤ demoWrap.size.height ∧ 1 ≤ demoWrap.size.width) ∧
    (∀ e ∈ demoWrap.areas,
      demoWrap.activeMask e.1.y e.1.x = true ∧ 1 ≤ e.2) ∧
    (demoWrap.areas.map Prod.snd).sum = activeCount demoWrap ∧
    (shikakuSolve ⟨1, []⟩ demoWrap).strings = some [demoWrapStr] ∧
    ¬ C1Prop demoWrap demoWrapStr := by
  refine ⟨by decide, by decide, by decide,
    by set_option maxRecDepth 10000 in decide, ?_⟩
  intro hC1
  obtain ⟨p, hby, hbx, hiff, a, v, hav, hpa, hrect, huniq⟩ :=
    hC1 ['0', '0'] (by decide) ⟨⟨0, 0⟩, by decide, by decide, by decide⟩
  have h0 : p.start.y ≤ 0 ∧ 0 < p.start.y + p.size.height ∧
      p.start.x ≤ 0 ∧ 0 < p.start.x + p.size.width :=
    (hiff ⟨0, 0⟩ (by decide)).mp ⟨by decide, by decide⟩
  have h100 : p.start.y ≤ 100 ∧ 100 < p.start.y + p.size.height ∧
      p.start.x ≤ 0 ∧ 0 < p.start.x + p.size.width :=
    (hiff ⟨100, 0⟩ (by decide)).mp ⟨by decide, by decide⟩
  have h1 : pCells p ⟨1, 0⟩ := by
    show p.start.y ≤ 1 ∧ 1 < p.start.y + p.size.height ∧
      p.start.x ≤ 0 ∧ 0 < p.start.x + p.size.width
    omega
  have ht1 := ((hiff ⟨1, 0⟩ (by decide)).mpr h1).2
  exact absurd ht1 (by decide)

end Shikaku
